import Mathlib

/-!
# ObjectPool: a shallow embedding of `include/object_pool.hpp`

The pool hands out fixed-size chunks from pages of prelinked chunks, keeps the
available chunks on an intrusive singly linked list (`firstAvailableChunk`,
`Chunk::nextAvailable`), counts them in `capacity`, falls back to
`std::allocator` when the count is zero, and lets a worker thread append a
page when an `alloc` brings the count down to `minCapacity`.

Modelling decisions
* A `Chunk*` is `Option ChunkAddr`: `none` is `nullptr`, `some ⟨a, i⟩` is
  `&arr[i]` of the `a`-th array obtained from `new Chunk[n]`.
* The store of chunk arrays is the field `heap` of the pool model; a cell holds
  the `nextAvailable` field of one chunk, `none` while it is indeterminate.
  The bytes of `Chunk::data` are not part of the state: the object built in
  place is carried by the handle that points at it.
* `std::size_t` is `Nat` reduced modulo `2 ^ 64` where the source can wrap,
  `ssize_t` is `Int`; the conversions between them are `toSize` and `toSsize`.
* Undefined behaviour (a load or store through a pointer that is not a chunk,
  signed overflow) is the result `none`.
* What the environment decides is an argument: whether `new Chunk[n]` is
  granted memory, what `std::allocator::allocate` returns, whether
  `try_lock` on the replenish mutex succeeds, and the constructor of the
  object (`OBJECT : α → Option β`, `none` when it throws).
* Assertions are enabled (no `NDEBUG`): a failed `assert` aborts.
* The control block of a `std::shared_ptr` and the node of the
  `std::forward_list` are always obtained; destructors of objects do not throw.
* Every public operation is one atomic step: the critical sections are
  serialised by the spin lock and the rest of each operation is thread local.
-/

namespace LowLatencyPool

/-! ## Machine integers -/

/-- Number of values of `std::size_t` (LP64). -/
def SIZE_MOD : Nat := 2 ^ 64

/-- Largest value of `ssize_t`. -/
def SSIZE_MAX : Int := 2 ^ 63 - 1

/-- Smallest value of `ssize_t`. -/
def SSIZE_MIN : Int := -(2 ^ 63)

/-- Conversion of an `ssize_t` to `std::size_t` (value modulo `2 ^ 64`). -/
def toSize (c : Int) : Nat := (c % (SIZE_MOD : Int)).toNat

/-- Conversion of a `std::size_t` to `ssize_t` (two's complement). -/
def toSsize (n : Nat) : Int :=
  if n % SIZE_MOD < 2 ^ 63 then ((n % SIZE_MOD : Nat) : Int)
  else ((n % SIZE_MOD : Nat) : Int) - (SIZE_MOD : Int)

/-- Subtraction of two `std::size_t` values (modulo `2 ^ 64`). -/
def subSize (a b : Nat) : Nat := (a + (SIZE_MOD - b % SIZE_MOD)) % SIZE_MOD

/-! ## Chunks and the store of chunk arrays -/

/-- Address of one `Chunk`: element `idx` of the array `page` obtained from
`new Chunk[n]`. Since `data` is the first member, it is also the address of the
object built in the chunk, which is what `dealloc` casts back. -/
structure ChunkAddr where
  page : Nat
  idx : Nat
deriving DecidableEq, Repr

/-- A `Chunk*`; `none` is `nullptr`. -/
abbrev ChunkPtr := Option ChunkAddr

/-- The `nextAvailable` field of one chunk; `none` is an indeterminate value. -/
abbrev Cell := Option ChunkPtr

/-- The chunk arrays allocated so far, in order of allocation. -/
abbrev Heap := List (List Cell)

/-- The cell at an address, when the address is a chunk of the store. -/
def Heap.cell (h : Heap) (a : ChunkAddr) : Option Cell :=
  (h[a.page]?).bind (fun arr => arr[a.idx]?)

/-- Reading `a->nextAvailable`; `none` when `a` is not a chunk of the store or
the field is indeterminate. -/
def Heap.load (h : Heap) (a : ChunkAddr) : Option ChunkPtr :=
  (Heap.cell h a).join

/-- Writing `a->nextAvailable = v`; `none` when `a` is not a chunk of the store. -/
def Heap.store (h : Heap) (a : ChunkAddr) (v : ChunkPtr) : Option Heap :=
  match h[a.page]? with
  | none => none
  | some arr =>
    if a.idx < arr.length then some (h.set a.page (arr.set a.idx (some v)))
    else none

/-- Sizes of the arrays of the store. -/
def Heap.shape (h : Heap) : List Nat := h.map List.length

/-- Number of chunks in the store. -/
def Heap.chunkCount (h : Heap) : Nat := (Heap.shape h).sum

/-- An address is a chunk of the store. -/
def Heap.valid (h : Heap) (a : ChunkAddr) : Prop :=
  ∃ n, (Heap.shape h)[a.page]? = some n ∧ a.idx < n

/-- Bound on the chunks one process can hold: `sizeof(Chunk) >= 16` (at least
one byte of `data`, then an 8-byte aligned pointer) and the address space has
`2 ^ 64` bytes. -/
def maxChunks : Nat := 2 ^ 60

/-- The expression `new Chunk[n]`: a fresh array of `n` chunks with
indeterminate fields, or `none` for `std::bad_alloc` when the environment does
not grant the memory or the address space cannot hold the array. -/
def newChunkArray (h : Heap) (n : Nat) (granted : Bool) : Option (Nat × Heap) :=
  if granted = true ∧ Heap.chunkCount h + n ≤ maxChunks then
    some (h.length, h ++ [List.replicate n none])
  else none

/-- Ways an operation ends without a result. -/
inductive Fault where
  /-- The macro `assert` failed and the process aborted. -/
  | assertFailed
  /-- An exception `std::bad_alloc` left the operation. -/
  | badAlloc
  /-- Undefined behaviour. -/
  | undefined
deriving DecidableEq, Repr

/-! ## Page -/

/-- The struct `Page`: `chunks` is the array, `size` its length. -/
structure Page where
  chunks : Nat
  size : Nat
deriving DecidableEq, Repr

/-- The loop `for (i = 0; i < chunksNumber - 1; ++i) chunks[i].nextAvailable = &chunks[i+1];`
with `k` iterations left and loop variable `i`. -/
def Page.linkLoop (chunks : Nat) : Nat → Nat → Heap → Option Heap
  | 0, _, h => some h
  | k + 1, i, h =>
    (Heap.store h ⟨chunks, i⟩ (some ⟨chunks, i + 1⟩)).bind (Page.linkLoop chunks k (i + 1))

/-- The constructor `Page::Page(chunksNumber, nextChunk)`. -/
def Page.new (h : Heap) (chunksNumber : Nat) (nextChunk : ChunkPtr) (granted : Bool) :
    Except Fault (Page × Heap) :=
  -- assert(chunksNumber > 0);
  if chunksNumber = 0 then .error .assertFailed
  else
    -- chunks = new Chunk[chunksNumber];
    match newChunkArray h chunksNumber granted with
    | none => .error .badAlloc
    | some (chunks, h1) =>
      -- chunks[chunksNumber - 1].nextAvailable = nextChunk;
      match Heap.store h1 ⟨chunks, chunksNumber - 1⟩ nextChunk with
      | none => .error .undefined
      | some h2 =>
        match Page.linkLoop chunks (chunksNumber - 1) 0 h2 with
        | none => .error .undefined
        | some h3 => .ok (⟨chunks, chunksNumber⟩, h3)

/-! ## The pool -/

/-- The data members of `ObjectPool` (the mutexes, the condition variable and
the thread object carry no data), with the store of the chunk arrays its pages
point into. `pages` is the `std::forward_list`, front first. -/
structure ObjectPool where
  heap : Heap
  pages : List Page
  capacity : Int
  firstAvailableChunk : ChunkPtr
  minCapacity : Nat
  newPageSize : Nat
  isReplenishNeeded : Bool
  isRunning : Bool
deriving DecidableEq, Repr

/-- The constructor `ObjectPool(maxCapacity, minCapacity)`, run in an empty
store. The members are initialised in declaration order; the body then points
`firstAvailableChunk` at chunk 0 of the front page. There is no comparison of
the two arguments. -/
def ObjectPool.new (maxCapacity minCapacity : Nat) (granted : Bool) : Except Fault ObjectPool :=
  -- pages(1, Page(maxCapacity, nullptr))
  match Page.new [] maxCapacity none granted with
  | .error f => .error f
  | .ok (page, h) =>
    let pages := [page]
    let pool : ObjectPool :=
      { heap := h
        pages := pages
        -- capacity(maxCapacity): std::size_t to ssize_t
        capacity := toSsize maxCapacity
        firstAvailableChunk := none
        minCapacity := minCapacity
        -- newPageSize(maxCapacity - minCapacity): std::size_t subtraction
        newPageSize := subSize maxCapacity minCapacity
        isReplenishNeeded := false
        isRunning := true }
    -- firstAvailableChunk = &(pages.front().chunks[0]);
    match pool.pages.head? with
    | none => .error .undefined
    | some front => .ok { pool with firstAvailableChunk := some ⟨front.chunks, 0⟩ }

/-! ## Handles -/

/-- Exceptions that leave `alloc`. -/
inductive Exn where
  /-- The constructor of the object threw. -/
  | fromConstructor
  /-- The system allocator (`std::allocator::allocate`) threw `std::bad_alloc`. -/
  | badAlloc
deriving DecidableEq, Repr

/-- The `std::shared_ptr` that `alloc` stores in `object`, with the object it
points at. -/
inductive Handle (β : Type) where
  /-- Points into `chunk->data`; the deleter is the lambda calling `this->dealloc`. -/
  | pool (chunk : ChunkAddr) (obj : β)
  /-- Points at memory of `std::allocator`; the deleter destroys and deallocates it. -/
  | std (addr : Nat) (obj : β)
deriving DecidableEq, Repr

/-- What a call of `alloc` leaves behind. -/
structure AllocResult (β : Type) where
  /-- The pool after the call. -/
  pool : ObjectPool
  /-- The handle stored in `object`, or the exception that left the call. -/
  object : Except Exn (Handle β)
  /-- Final value of the local `chunkToUse` (`nullptr` on the fallback paths). -/
  chunkToUse : ChunkPtr
  /-- Whether `runReplenish()` was called (the local `isActivateReplenish`). -/
  isActivateReplenish : Bool
  /-- Whether `replenishActivatorCV.notify_one()` was called. -/
  notified : Bool

/-! ## Operations -/

/-- The function `allocateUsingStdAllocator`: `sys` is what
`stdAllocator.allocate(1)` returns (`none` when it throws). The pool is not
touched. -/
def allocateUsingStdAllocator {α β : Type} (OBJECT : α → Option β) (args : α)
    (sys : Option Nat) : Except Exn (Handle β) :=
  match sys with
  | none => .error .badAlloc
  | some objPtr =>
    match OBJECT args with
    | none => .error .fromConstructor
    | some obj => .ok (.std objPtr obj)

/-- The function `runReplenish`: the flag is set before the `try_lock`; when
the lock is taken the flag is set again and the condition variable notified.
Returns the pool and whether `notify_one` was called. -/
def runReplenish (p : ObjectPool) (tryLock : Bool) : ObjectPool × Bool :=
  let p1 := { p with isReplenishNeeded := true }
  if tryLock = false then (p1, false)
  else ({ p1 with isReplenishNeeded := true }, true)

/-- The function `alloc(object, args...)`. `none` is undefined behaviour. The
source forwards the pack as `std::forward(args) ...`, which instantiates for the
empty pack only; the model keeps the arguments general. In a sequential step
the check before the lock and the check under the lock read the same count. -/
def alloc {α β : Type} (OBJECT : α → Option β) (p : ObjectPool) (args : α)
    (tryLock : Bool) (sys : Option Nat) : Option (AllocResult β) :=
  -- if (!capacity) { allocateUsingStdAllocator(...); return; }
  if p.capacity = 0 then
    some ⟨p, allocateUsingStdAllocator OBJECT args sys, none, false, false⟩
  else
    -- under the spin lock
    if p.capacity = 0 then
      -- useStandardAllocator = true; break;
      some ⟨p, allocateUsingStdAllocator OBJECT args sys, none, false, false⟩
    else if p.capacity = SSIZE_MIN then none
    else
      -- --capacity;
      let p1 := { p with capacity := p.capacity - 1 }
      -- if (capacity == minCapacity) isActivateReplenish = true;
      let isActivateReplenish := decide (toSize p1.capacity = p1.minCapacity)
      -- chunkToUse = firstAvailableChunk;
      match p1.firstAvailableChunk with
      | none => none
      | some chunkToUse =>
        -- firstAvailableChunk = chunkToUse->nextAvailable;
        match Heap.load p1.heap chunkToUse with
        | none => none
        | some next =>
          let p2 := { p1 with firstAvailableChunk := next }
          -- if (isActivateReplenish) runReplenish();
          let (p3, notified) :=
            if isActivateReplenish then runReplenish p2 tryLock else (p2, false)
          -- object = std::shared_ptr<OBJECT>(new (chunkToUse->data) OBJECT(args...), deleter);
          -- an exception of the constructor leaves the function here
          match OBJECT args with
          | none => some ⟨p3, .error .fromConstructor, some chunkToUse, isActivateReplenish, notified⟩
          | some obj =>
            some ⟨p3, .ok (.pool chunkToUse obj), some chunkToUse, isActivateReplenish, notified⟩

/-- The function `dealloc(object)`, where `object` is the address of a chunk
(`reinterpret_cast<Chunk*>(object)`). `none` is undefined behaviour. -/
def dealloc (p : ObjectPool) (object : ChunkAddr) : Option ObjectPool :=
  -- object->~OBJECT(); then under the spin lock
  let freeChunk := object
  -- freeChunk->nextAvailable = firstAvailableChunk;
  match Heap.store p.heap freeChunk p.firstAvailableChunk with
  | none => none
  | some h =>
    -- firstAvailableChunk = freeChunk;
    let p1 := { p with heap := h, firstAvailableChunk := some freeChunk }
    -- ++capacity;
    if p1.capacity = SSIZE_MAX then none
    else some { p1 with capacity := p1.capacity + 1 }

/-- The deleter of a handle fires (last owner released): the pool-backed
deleter calls `dealloc`, the other one leaves the pool alone. -/
def Handle.release {β : Type} (hd : Handle β) (p : ObjectPool) : Option ObjectPool :=
  match hd with
  | .pool chunk _ => dealloc p chunk
  | .std _ _ => some p

/-- How one iteration of the loop of `poolReplenishWorker` ends. -/
inductive WorkerStep where
  /-- The wait predicate is false: the thread stays parked. -/
  | parked
  /-- The running flag was clear: the thread function returned. -/
  | exited (p : ObjectPool)
  /-- A page was appended; the loop goes on. -/
  | grew (p : ObjectPool)
  /-- The iteration did not complete (assertion, exception out of the thread
  function, or undefined behaviour); the pool is as the iteration left it. -/
  | failed (f : Fault) (p : ObjectPool)
deriving DecidableEq, Repr

/-- One iteration of `while (true)` in `poolReplenishWorker`. -/
def poolReplenishWorker (p : ObjectPool) (granted : Bool) : WorkerStep :=
  -- replenishActivatorCV.wait(lk, [this]{return isReplenishNeeded || !isRunning;});
  if (p.isReplenishNeeded || !p.isRunning) = false then .parked
  else
    -- isReplenishNeeded = false;
    let p1 := { p with isReplenishNeeded := false }
    -- if (!isRunning) return;
    if p1.isRunning = false then .exited p1
    else
      -- pages.push_front(Page(newPageSize, nullptr));
      match Page.new p1.heap p1.newPageSize none granted with
      | .error f => .failed f p1
      | .ok (page, h) =>
        let p2 := { p1 with heap := h, pages := page :: p1.pages }
        -- under the spin lock: capacity += newPageSize;
        let p3 := { p2 with capacity := toSsize (toSize p2.capacity + p2.newPageSize) }
        -- Chunk* nextAvailableChunk = firstAvailableChunk;
        let nextAvailableChunk := p3.firstAvailableChunk
        match p3.pages.head? with
        | none => .failed .undefined p3
        | some front =>
          -- pages.front().chunks[pages.front().size - 1].nextAvailable = nextAvailableChunk;
          match Heap.store p3.heap ⟨front.chunks, front.size - 1⟩ nextAvailableChunk with
          | none => .failed .undefined p3
          | some h4 =>
            -- firstAvailableChunk = &(pages.front().chunks[0]);
            .grew { p3 with heap := h4, firstAvailableChunk := some ⟨front.chunks, 0⟩ }

/-! ## Observations -/

/-- Following `nextAvailable` from a pointer until `nullptr`, for at most
`fuel` chunks: the chunks visited, in order. -/
def walk (h : Heap) : Nat → ChunkPtr → Option (List ChunkAddr)
  | _, none => some []
  | 0, some _ => none
  | fuel + 1, some a =>
    match Heap.load h a with
    | none => none
    | some next => (walk h fuel next).map (fun l => a :: l)

/-- The free list: the chain that starts at `firstAvailableChunk` and follows
`nextAvailable` to `nullptr`. A chain without a cycle visits no more chunks
than the store has, so that many steps of fuel reach its end. -/
def ObjectPool.freeList (p : ObjectPool) : Option (List ChunkAddr) :=
  walk p.heap (Heap.chunkCount p.heap) p.firstAvailableChunk

/-- Total number of chunks over all pages. -/
def ObjectPool.totalSlots (p : ObjectPool) : Nat := (p.pages.map Page.size).sum

/-- The chunks in the list are exactly the chain from the pointer along
`nextAvailable` to `nullptr`. -/
def IsChain (h : Heap) : ChunkPtr → List ChunkAddr → Prop
  | p, [] => p = none
  | p, a :: l => p = some a ∧ ∃ next, Heap.load h a = some next ∧ IsChain h next l

/-- The addresses of the chunks `k, k+1, ..., k+cnt-1` of array `c`. -/
def span (c : Nat) : Nat → Nat → List ChunkAddr
  | _, 0 => []
  | k, cnt + 1 => ⟨c, k⟩ :: span c (k + 1) cnt

/-! ## Runs of a pool and its clients -/

/-- One step of a run. -/
inductive Op (α : Type) where
  /-- A client calls `alloc` with these constructor arguments; `tryLock` and
  `sys` are the answers of the replenish mutex and of the system allocator. -/
  | alloc (args : α) (tryLock : Bool) (sys : Option Nat)
  /-- The last owner of the pool-backed handle of this chunk drops it, so its
  deleter calls `dealloc`. -/
  | release (chunk : ChunkAddr)
  /-- The worker runs one iteration that appends a page. -/
  | grow (granted : Bool)

/-- A pool together with what its clients hold: `live` are the chunks of the
pool-backed handles still owned, `lost` the chunks taken by an `alloc` whose
constructor threw, `grows` counts the pages the worker appended. Handles of the
system allocator never reach the pool and are not recorded. -/
structure Session where
  pool : ObjectPool
  live : List ChunkAddr
  lost : List ChunkAddr
  grows : Nat
deriving DecidableEq, Repr

/-- The session right after construction. -/
def Session.start (p : ObjectPool) : Session := ⟨p, [], [], 0⟩

/-- Effect of one step; `none` when the step is not possible in this state
(release of a chunk no handle owns, a worker iteration that does not append a
page) or has undefined behaviour. -/
def Session.step {α β : Type} (OBJECT : α → Option β) (s : Session) : Op α → Option Session
  | .alloc args tryLock sys =>
    match alloc OBJECT s.pool args tryLock sys with
    | none => none
    | some r =>
      match r.object, r.chunkToUse with
      | .ok (.pool c _), _ => some { s with pool := r.pool, live := c :: s.live }
      | .ok (.std _ _), _ => some { s with pool := r.pool }
      | .error _, some c => some { s with pool := r.pool, lost := c :: s.lost }
      | .error _, none => some { s with pool := r.pool }
  | .release c =>
    if c ∈ s.live then
      match dealloc s.pool c with
      | none => none
      | some p => some { s with pool := p, live := s.live.erase c }
    else none
  | .grow granted =>
    match poolReplenishWorker s.pool granted with
    | .grew p => some { s with pool := p, grows := s.grows + 1 }
    | _ => none

/-- Effect of a sequence of steps. -/
def Session.run {α β : Type} (OBJECT : α → Option β) : Session → List (Op α) → Option Session
  | s, [] => some s
  | s, op :: ops =>
    match Session.step OBJECT s op with
    | none => none
    | some s1 => Session.run OBJECT s1 ops

/-- The invariant of the runs of a pool built with `maxCapacity`: `free` is the
free list, it has `capacity` chunks, no chunk is twice among the free, live and
lost ones, and together they are all the chunks of the pages. -/
structure Inv (maxCapacity : Nat) (s : Session) (free : List ChunkAddr) : Prop where
  chain : IsChain s.pool.heap s.pool.firstAvailableChunk free
  count : s.pool.capacity = (free.length : Int)
  nodup : (free ++ (s.live ++ s.lost)).Nodup
  valid : ∀ a ∈ free ++ (s.live ++ s.lost), Heap.valid s.pool.heap a
  total : free.length + (s.live.length + s.lost.length) = Heap.chunkCount s.pool.heap
  bound : Heap.chunkCount s.pool.heap ≤ maxChunks
  slots : s.pool.totalSlots = Heap.chunkCount s.pool.heap
  grown : Heap.chunkCount s.pool.heap = maxCapacity + s.pool.newPageSize * s.grows

/-! ## Scenarios of one client thread -/

/-- One call of `alloc` with what the environment answers during it. -/
structure Call (α : Type) where
  args : α
  tryLock : Bool
  sys : Option Nat

/-- Consecutive calls of `alloc` with no other step between them: the results,
in order. -/
def allocs {α β : Type} (OBJECT : α → Option β) :
    ObjectPool → List (Call α) → Option (List (AllocResult β))
  | _, [] => some []
  | p, call :: rest =>
    match alloc OBJECT p call.args call.tryLock call.sys with
    | none => none
    | some r =>
      match allocs OBJECT r.pool rest with
      | none => none
      | some rs => some (r :: rs)

/-- The pointer reached from a pointer after the given number of steps along
`nextAvailable`; `none` when a step starts at `nullptr` or at something that is
not a chunk. -/
def Heap.follow (h : Heap) : Nat → ChunkPtr → Option ChunkPtr
  | 0, p => some p
  | _ + 1, none => none
  | k + 1, some a => (Heap.load h a).bind (Heap.follow h k)

/-- Whether the process ends with this outcome of a worker iteration: an
exception that leaves the thread function calls `std::terminate`, a failed
`assert` calls `abort`. -/
def WorkerStep.fatal : WorkerStep → Bool
  | .failed _ _ => true
  | _ => false

/-! ## Teardown -/

/-- One statement of the destructor. -/
inductive TeardownStep where
  /-- The statement `delete[] page.chunks` for the page with this array. -/
  | deleteChunks (chunks : Nat)
  /-- The assignment `isRunning = false`. -/
  | clearRunning
  /-- The call `replenishActivatorCV.notify_one()`. -/
  | notifyOne
  /-- The call `replenishPoolThread.join()`. -/
  | joinWorker
deriving DecidableEq, Repr

/-- The destructor `~ObjectPool()`: its statements in the order the program runs
them. -/
def ObjectPool.destructor (p : ObjectPool) : List TeardownStep :=
  -- for (auto&& page : pages) { delete[] page.chunks; }
  p.pages.map (fun page => TeardownStep.deleteChunks page.chunks) ++
    -- { std::lock_guard<std::mutex> lk(replenishMutex, std::adopt_lock); isRunning = false; }
    [TeardownStep.clearRunning,
     -- replenishActivatorCV.notify_one();
     TeardownStep.notifyOne,
     -- replenishPoolThread.join();
     TeardownStep.joinWorker]

/-- Whether every `delete[]` of a sequence of statements comes after a join of
the worker. -/
def deletesAfterJoin : List TeardownStep → Bool
  | [] => true
  | .deleteChunks _ :: _ => false
  | .joinWorker :: _ => true
  | _ :: rest => deletesAfterJoin rest


/-! ## Threads: interleaving of the statements of `alloc`, `dealloc` and the worker

The statements of the three functions are the atomic steps; any thread that can
take a step may take the next one. The spin lock is its `std::atomic_flag`:
`lock()` is a loop of `test_and_set`, `unlock()` is `clear`. `replenishMutex`
is a `std::mutex`: it has an owner, `lock()` waits while another thread owns
it, and `unlock()` by a thread that does not own it is undefined behaviour.
`runReplenish` is interleaved statement by statement like the rest. Handles are
not tied to threads: every idle client may release every live handle. -/

/-- A thread of the process: a client calling `alloc` and `dealloc`, or the
replenish worker. -/
inductive Actor where
  | client (t : Nat)
  | worker
deriving DecidableEq, Repr

/-- Where a client thread is: the statement of `alloc` or `dealloc` it runs
next, with the values of its locals. -/
inductive Pc where
  /-- Between two calls. -/
  | idle
  /-- In `alloc`, at `if (!capacity)` before the lock (line 74). -/
  | allocTest
  /-- At the constructor of the `lock_guard` (line 83). -/
  | allocLock
  /-- At `if (!capacity)` under the lock (line 84). -/
  | allocRetest
  /-- At `--capacity` (line 88). -/
  | allocDec
  /-- At `if (capacity == minCapacity) isActivateReplenish = true` (line 89). -/
  | allocCmp
  /-- At `chunkToUse = firstAvailableChunk` (line 92). -/
  | allocTake (isActivateReplenish : Bool)
  /-- At `firstAvailableChunk = chunkToUse->nextAvailable` (line 93). -/
  | allocAdvance (isActivateReplenish : Bool) (chunkToUse : ChunkPtr)
  /-- At the end of the scope of the `lock_guard` after
  `useStandardAllocator = true; break;` (line 86). -/
  | allocUnlockStd
  /-- At the end of the scope of the `lock_guard` after the chunk was taken
  (line 97). -/
  | allocUnlock (isActivateReplenish : Bool) (chunkToUse : ChunkAddr)
  /-- At `allocateUsingStdAllocator(...); return;` (lines 76 and 100). -/
  | allocStd
  /-- At `if (isActivateReplenish) runReplenish();` (line 105). -/
  | allocNotify (isActivateReplenish : Bool) (chunkToUse : ChunkAddr)
  /-- In `runReplenish`, at the first `isReplenishNeeded = true` (line 136). -/
  | replenishSet (chunkToUse : ChunkAddr)
  /-- At `if (!replenishMutex.try_lock()) return;` (line 138). -/
  | replenishTryLock (chunkToUse : ChunkAddr)
  /-- At the constructor of the `lock_guard` with `std::adopt_lock` (line 142). -/
  | replenishAdopt (chunkToUse : ChunkAddr)
  /-- At the second `isReplenishNeeded = true` (line 143). -/
  | replenishPublish (chunkToUse : ChunkAddr)
  /-- At the end of the scope of the `lock_guard` (line 145). -/
  | replenishUnlock (chunkToUse : ChunkAddr)
  /-- At `replenishActivatorCV.notify_one()` (line 146). -/
  | replenishNotify (chunkToUse : ChunkAddr)
  /-- At the placement new and the construction of the handle (line 108). -/
  | allocConstruct (chunkToUse : ChunkAddr)
  /-- In `dealloc`, after the destructor of the object, at the constructor of
  the `lock_guard` (line 115). -/
  | deallocLock (object : ChunkAddr)
  /-- At `freeChunk->nextAvailable = firstAvailableChunk` (line 117). -/
  | deallocLink (object : ChunkAddr)
  /-- At `firstAvailableChunk = freeChunk` (line 118). -/
  | deallocHead (object : ChunkAddr)
  /-- At `++capacity` (line 119). -/
  | deallocInc (object : ChunkAddr)
  /-- At the end of `dealloc`, where the `lock_guard` unlocks (line 120). -/
  | deallocUnlock
deriving DecidableEq, Repr

/-- Where the worker is in `poolReplenishWorker`. -/
inductive WorkerPc where
  /-- At the constructor of the `unique_lock`, which locks `replenishMutex`
  (line 152). -/
  | lockMutex
  /-- At the constructor of the `lock_guard` with `std::adopt_lock` (line 153). -/
  | adopt
  /-- In `replenishActivatorCV.wait(lk, pred)`, at the test of the predicate,
  with `replenishMutex` locked (line 154). -/
  | wait
  /-- Inside `wait`, blocked with `replenishMutex` released (line 154). -/
  | asleep
  /-- At the end of the scope, in the destructor of the `lock_guard` (line 155). -/
  | unlockGuard
  /-- At the end of the scope, in the destructor of the `unique_lock`
  (line 155). -/
  | unlockUnique
  /-- At `isReplenishNeeded = false` (line 156). -/
  | clear
  /-- At `if (!isRunning) return;` (line 157). -/
  | check
  /-- At `pages.push_front(Page(newPageSize, nullptr))` (line 158). -/
  | page
  /-- At the constructor of the `lock_guard` (line 160). -/
  | lock
  /-- At `capacity += newPageSize` (line 161). -/
  | inc
  /-- At `Chunk* nextAvailableChunk = firstAvailableChunk` (line 162). -/
  | copy
  /-- At the assignment to the last chunk of the front page (line 163). -/
  | link (nextAvailableChunk : ChunkPtr)
  /-- At `firstAvailableChunk = &(pages.front().chunks[0])` (line 164). -/
  | head
  /-- At the end of the scope of the `lock_guard` (line 165). -/
  | unlock
  /-- The thread function has returned. -/
  | returned
deriving DecidableEq, Repr

/-- Whether the statement is inside the scope of a `lock_guard` of the spin
lock. -/
def Pc.locked : Pc → Bool
  | .allocRetest | .allocDec | .allocCmp | .allocTake _ | .allocAdvance _ _
  | .allocUnlockStd | .allocUnlock _ _
  | .deallocLink _ | .deallocHead _ | .deallocInc _ | .deallocUnlock => true
  | _ => false

/-- Whether the statement is inside the scope of the `lock_guard` of the spin
lock. -/
def WorkerPc.locked : WorkerPc → Bool
  | .inc | .copy | .link _ | .head | .unlock => true
  | _ => false

/-- The chunk a client has in hand: taken off the free list and not yet in a
handle, or out of its handle and not yet back on the free list. -/
def Pc.holds : Pc → Option ChunkAddr
  | .allocUnlock _ c | .allocNotify _ c | .allocConstruct c => some c
  | .replenishSet c | .replenishTryLock c | .replenishAdopt c | .replenishPublish c
  | .replenishUnlock c | .replenishNotify c => some c
  | .deallocLock c | .deallocLink c | .deallocHead c => some c
  | _ => none

/-- Whether the worker has built a page that is not yet on the free list. -/
def WorkerPc.fresh : WorkerPc → Bool
  | .lock | .inc | .copy | .link _ | .head => true
  | _ => false

/-- The process: the pool, the flag of the spin lock, the owner of
`replenishMutex` (`none` when it is unlocked), the client threads, the worker,
and the chunks of the handles that exist (`live`) or were never built because
the constructor threw (`lost`). -/
structure Machine where
  pool : ObjectPool
  flag : Bool
  replenishMutex : Option Actor
  clients : List Pc
  worker : WorkerPc
  live : List ChunkAddr
  lost : List ChunkAddr
deriving DecidableEq, Repr

/-- What the environment decides during a step. -/
structure Env where
  /-- What an idle client does next: `some c` drops the last reference to the
  handle of chunk `c`, `none` calls `alloc`. -/
  release : Option ChunkAddr
  /-- Whether `try_lock` on `replenishMutex` succeeds when no thread owns the
  mutex (`try_lock` may fail spuriously). -/
  tryLock : Bool
  /-- Whether the constructor of the object returns. -/
  constructed : Bool
  /-- Whether `new Chunk[n]` is granted memory. -/
  granted : Bool
deriving DecidableEq, Repr

/-- Result of asking a thread to take its next step. -/
inductive Outcome where
  /-- The step was taken. -/
  | next (s : Machine)
  /-- The thread cannot take a step now (it waits, it has returned, it does not
  exist, or the handle to drop does not exist). -/
  | blocked
  /-- The step has undefined behaviour. -/
  | undefined
  /-- The step ends the process (exception out of the thread function, failed
  assertion). -/
  | terminated
deriving DecidableEq, Repr

/-- The state with the statement of client `t` replaced. -/
def Machine.goto (s : Machine) (t : Nat) (pc : Pc) : Machine :=
  { s with clients := s.clients.set t pc }

/-- The member function `SpinLockMutex::lock` seen from one iteration of its
loop: `test_and_set` returns the old flag and sets it. -/
def Machine.testAndSet (s : Machine) : Bool × Machine :=
  (s.flag, { s with flag := true })

/-- The member function `std::mutex::unlock` of `replenishMutex` called by
thread `a`; `none` is undefined behaviour: the calling thread does not own the
mutex. -/
def Machine.unlockMutex (s : Machine) (a : Actor) : Option Machine :=
  if s.replenishMutex = some a then some { s with replenishMutex := none } else none

/-- The next step of client `t`, which is at `pc`. -/
def Machine.clientStep (s : Machine) (t : Nat) (e : Env) : Pc → Outcome
  | .idle =>
    match e.release with
    | none => .next (s.goto t .allocTest)
    | some c =>
      -- the deleter of the handle calls dealloc: object->~OBJECT();
      if c ∈ s.live then .next ({ s with live := s.live.erase c }.goto t (.deallocLock c))
      else .blocked
  | .allocTest =>
    -- if (!capacity) { allocateUsingStdAllocator(...); return; }
    if s.pool.capacity = 0 then .next (s.goto t .allocStd)
    else .next (s.goto t .allocLock)
  | .allocLock =>
    -- std::lock_guard<SpinLockMutex> lk(spinLockMutex);
    if s.testAndSet.1 = true then .next s.testAndSet.2
    else .next (s.testAndSet.2.goto t .allocRetest)
  | .allocRetest =>
    -- if (!capacity) { useStandardAllocator = true; break; }
    if s.pool.capacity = 0 then .next (s.goto t .allocUnlockStd)
    else .next (s.goto t .allocDec)
  | .allocDec =>
    -- --capacity;
    if s.pool.capacity = SSIZE_MIN then .undefined
    else .next ({ s with pool := { s.pool with capacity := s.pool.capacity - 1 } }.goto t .allocCmp)
  | .allocCmp =>
    -- if (capacity == minCapacity) isActivateReplenish = true;
    .next (s.goto t (.allocTake (decide (toSize s.pool.capacity = s.pool.minCapacity))))
  | .allocTake f =>
    -- chunkToUse = firstAvailableChunk;
    .next (s.goto t (.allocAdvance f s.pool.firstAvailableChunk))
  | .allocAdvance f chunkToUse =>
    -- firstAvailableChunk = chunkToUse->nextAvailable;
    match chunkToUse with
    | none => .undefined
    | some c =>
      match Heap.load s.pool.heap c with
      | none => .undefined
      | some next =>
        .next ({ s with pool := { s.pool with firstAvailableChunk := next } }.goto t
          (.allocUnlock f c))
  | .allocUnlockStd =>
    -- end of scope: spinLockMutex.unlock(); then if (useStandardAllocator) ...
    .next ({ s with flag := false }.goto t .allocStd)
  | .allocUnlock f c =>
    -- end of scope: spinLockMutex.unlock();
    .next ({ s with flag := false }.goto t (.allocNotify f c))
  | .allocStd =>
    -- allocateUsingStdAllocator(object, args...); return;
    .next (s.goto t .idle)
  | .allocNotify f c =>
    -- if (isActivateReplenish) runReplenish();
    if f = true then .next (s.goto t (.replenishSet c))
    else .next (s.goto t (.allocConstruct c))
  | .replenishSet c =>
    -- isReplenishNeeded = true;
    .next ({ s with pool := { s.pool with isReplenishNeeded := true } }.goto t
      (.replenishTryLock c))
  | .replenishTryLock c =>
    -- if (!replenishMutex.try_lock()) return;
    match s.replenishMutex with
    | none =>
      if e.tryLock = true then
        .next ({ s with replenishMutex := some (.client t) }.goto t (.replenishAdopt c))
      else .next (s.goto t (.allocConstruct c))
    | some owner =>
      if owner = .client t then .undefined
      else .next (s.goto t (.allocConstruct c))
  | .replenishAdopt c =>
    -- std::lock_guard<std::mutex> lk(replenishMutex, std::adopt_lock);
    .next (s.goto t (.replenishPublish c))
  | .replenishPublish c =>
    -- isReplenishNeeded = true;
    .next ({ s with pool := { s.pool with isReplenishNeeded := true } }.goto t
      (.replenishUnlock c))
  | .replenishUnlock c =>
    -- end of scope: replenishMutex.unlock();
    match s.unlockMutex (.client t) with
    | none => .undefined
    | some s1 => .next (s1.goto t (.replenishNotify c))
  | .replenishNotify c =>
    -- replenishActivatorCV.notify_one(); a thread inside wait may wake at any
    -- time, notified or not
    .next (s.goto t (.allocConstruct c))
  | .allocConstruct c =>
    -- object = std::shared_ptr<OBJECT>(new (chunkToUse->data) OBJECT(args...), deleter);
    if e.constructed = true then .next ({ s with live := c :: s.live }.goto t .idle)
    else .next ({ s with lost := c :: s.lost }.goto t .idle)
  | .deallocLock c =>
    -- std::lock_guard<SpinLockMutex> lk(spinLockMutex);
    if s.testAndSet.1 = true then .next s.testAndSet.2
    else .next (s.testAndSet.2.goto t (.deallocLink c))
  | .deallocLink c =>
    -- freeChunk->nextAvailable = firstAvailableChunk;
    match Heap.store s.pool.heap c s.pool.firstAvailableChunk with
    | none => .undefined
    | some h => .next ({ s with pool := { s.pool with heap := h } }.goto t (.deallocHead c))
  | .deallocHead c =>
    -- firstAvailableChunk = freeChunk;
    .next ({ s with pool := { s.pool with firstAvailableChunk := some c } }.goto t
      (.deallocInc c))
  | .deallocInc _ =>
    -- ++capacity;
    if s.pool.capacity = SSIZE_MAX then .undefined
    else .next ({ s with pool := { s.pool with capacity := s.pool.capacity + 1 } }.goto t
      .deallocUnlock)
  | .deallocUnlock =>
    -- end of dealloc: spinLockMutex.unlock();
    .next ({ s with flag := false }.goto t .idle)

/-- The next step of the worker. -/
def Machine.workerStep (s : Machine) (e : Env) : WorkerPc → Outcome
  | .lockMutex =>
    -- std::unique_lock<std::mutex> lk(replenishMutex);
    match s.replenishMutex with
    | none => .next { s with replenishMutex := some .worker, worker := .adopt }
    | some owner => if owner = .worker then .undefined else .blocked
  | .adopt =>
    -- std::lock_guard<std::mutex> lkReplenishMutexGuard(replenishMutex, std::adopt_lock);
    .next { s with worker := .wait }
  | .wait =>
    -- replenishActivatorCV.wait(lk, [this]{return isReplenishNeeded || !isRunning;});
    -- that is: while (!pred()) wait(lk);
    if (s.pool.isReplenishNeeded || !s.pool.isRunning) = true then
      .next { s with worker := .unlockGuard }
    else
      -- wait(lk) unlocks the mutex and blocks
      match s.unlockMutex .worker with
      | none => .undefined
      | some s1 => .next { s1 with worker := .asleep }
  | .asleep =>
    -- wait(lk) returns, after a notification or spuriously, with the mutex
    -- locked again
    match s.replenishMutex with
    | none => .next { s with replenishMutex := some .worker, worker := .wait }
    | some owner => if owner = .worker then .undefined else .blocked
  | .unlockGuard =>
    -- end of scope: ~lock_guard calls replenishMutex.unlock()
    match s.unlockMutex .worker with
    | none => .undefined
    | some s1 => .next { s1 with worker := .unlockUnique }
  | .unlockUnique =>
    -- end of scope: ~unique_lock owns the lock and calls replenishMutex.unlock()
    match s.unlockMutex .worker with
    | none => .undefined
    | some s1 => .next { s1 with worker := .clear }
  | .clear =>
    -- isReplenishNeeded = false;
    .next { s with pool := { s.pool with isReplenishNeeded := false }, worker := .check }
  | .check =>
    -- if (!isRunning) return;
    if s.pool.isRunning = false then .next { s with worker := .returned }
    else .next { s with worker := .page }
  | .page =>
    -- pages.push_front(Page(newPageSize, nullptr));
    match Page.new s.pool.heap s.pool.newPageSize none e.granted with
    | .error .undefined => .undefined
    | .error _ => .terminated
    | .ok (page, h) =>
      .next { s with pool := { s.pool with heap := h, pages := page :: s.pool.pages },
                     worker := .lock }
  | .lock =>
    -- std::lock_guard<SpinLockMutex> spinlockMutexGuard(spinLockMutex);
    if s.testAndSet.1 = true then .next s.testAndSet.2
    else .next { s.testAndSet.2 with worker := .inc }
  | .inc =>
    -- capacity += newPageSize;
    .next { s with pool := { s.pool with
                             capacity := toSsize (toSize s.pool.capacity + s.pool.newPageSize) },
                   worker := .copy }
  | .copy =>
    -- Chunk* nextAvailableChunk = firstAvailableChunk;
    .next { s with worker := .link s.pool.firstAvailableChunk }
  | .link nextAvailableChunk =>
    -- pages.front().chunks[pages.front().size - 1].nextAvailable = nextAvailableChunk;
    match s.pool.pages.head? with
    | none => .undefined
    | some front =>
      match Heap.store s.pool.heap ⟨front.chunks, front.size - 1⟩ nextAvailableChunk with
      | none => .undefined
      | some h => .next { s with pool := { s.pool with heap := h }, worker := .head }
  | .head =>
    -- firstAvailableChunk = &(pages.front().chunks[0]);
    match s.pool.pages.head? with
    | none => .undefined
    | some front =>
      .next { s with pool := { s.pool with firstAvailableChunk := some ⟨front.chunks, 0⟩ },
                     worker := .unlock }
  | .unlock =>
    -- end of scope: spinLockMutex.unlock(); then the next turn of while (true)
    .next { s with flag := false, worker := .lockMutex }
  | .returned => .blocked

/-- The next step of a thread. -/
def Machine.step (s : Machine) (a : Actor) (e : Env) : Outcome :=
  match a with
  | .client t =>
    match s.clients[t]? with
    | none => .blocked
    | some pc => s.clientStep t e pc
  | .worker => s.workerStep e s.worker

/-- A schedule: which thread steps, with what answers of the environment. The
result is `none` when some step of the schedule cannot be taken or has
undefined behaviour. -/
def Machine.run : Machine → List (Actor × Env) → Option Machine
  | s, [] => some s
  | s, (a, e) :: rest =>
    match s.step a e with
    | .next s1 => Machine.run s1 rest
    | _ => none

/-- The process right after the construction of the pool, with `n` client
threads: nobody holds a lock, the worker is at the start of its thread
function. -/
def Machine.start (p : ObjectPool) (n : Nat) : Machine :=
  { pool := p, flag := false, replenishMutex := none, clients := List.replicate n .idle,
    worker := .lockMutex, live := [], lost := [] }

/-- The chunks the clients have in hand. -/
def Machine.held (s : Machine) : List ChunkAddr := s.clients.filterMap Pc.holds

/-- The chunks of the page the worker has built and not yet put on the free
list. -/
def Machine.unspliced (s : Machine) : List ChunkAddr :=
  if s.worker.fresh = true then span (s.pool.heap.length - 1) 0 s.pool.newPageSize else []

/-- All chunks by where they are: on the free list `free`, in a handle, lost, in
the hand of a client, or in the page the worker is about to splice. -/
def Machine.chunks (s : Machine) (free : List ChunkAddr) : List ChunkAddr :=
  free ++ (s.live ++ (s.lost ++ (s.held ++ s.unspliced)))

/-- What holds for the free list `free` while a client is at this statement
inside its critical section: how far `capacity` is from the length of the list
and what the locals are. -/
def clientPhase (p : ObjectPool) (free : List ChunkAddr) : Pc → Prop
  | .allocDec => p.capacity = (free.length : Int) ∧ p.capacity ≠ 0
  | .allocCmp => p.capacity + 1 = (free.length : Int) ∧ 0 ≤ p.capacity
  | .allocTake _ => p.capacity + 1 = (free.length : Int) ∧ 0 ≤ p.capacity
  | .allocAdvance _ c =>
    p.capacity + 1 = (free.length : Int) ∧ 0 ≤ p.capacity ∧ c = p.firstAvailableChunk
  | .deallocHead c =>
    p.capacity = (free.length : Int) ∧ Heap.load p.heap c = some p.firstAvailableChunk
  | .deallocInc c => p.capacity + 1 = (free.length : Int) ∧ p.firstAvailableChunk = some c
  | _ => p.capacity = (free.length : Int)

/-- What holds for the free list `free` while the worker is at this statement
inside its critical section. -/
def workerPhase (p : ObjectPool) (free : List ChunkAddr) : WorkerPc → Prop
  | .copy => p.capacity = (free.length : Int) + (p.newPageSize : Int)
  | .link next =>
    p.capacity = (free.length : Int) + (p.newPageSize : Int) ∧ next = p.firstAvailableChunk
  | .head =>
    p.capacity = (free.length : Int) + (p.newPageSize : Int) ∧
      Heap.load p.heap ⟨p.heap.length - 1, p.newPageSize - 1⟩ = some p.firstAvailableChunk
  | _ => p.capacity = (free.length : Int)

/-- What holds for the free list `free` given who holds the spin lock. -/
def Machine.phase (s : Machine) (holder : Option Actor) (free : List ChunkAddr) : Prop :=
  match holder with
  | none => s.pool.capacity = (free.length : Int)
  | some (.client t) => ∃ pc, s.clients[t]? = some pc ∧ clientPhase s.pool free pc
  | some .worker => workerPhase s.pool free s.worker

/-- The page the worker has built and not yet put on the free list: it is the
front page, its array is the last one of the store, and its chunks are
prelinked. -/
structure FreshPage (s : Machine) : Prop where
  size : s.pool.newPageSize ≠ 0
  store : s.pool.heap ≠ []
  front : s.pool.pages.head? = some ⟨s.pool.heap.length - 1, s.pool.newPageSize⟩
  links : ∀ i, i + 1 < s.pool.newPageSize →
    Heap.load s.pool.heap ⟨s.pool.heap.length - 1, i⟩ =
      some (some ⟨s.pool.heap.length - 1, i + 1⟩)

/-- The invariant of the interleavings: `holder` is the thread that holds the
spin lock, `free` the free list. -/
structure MInv (s : Machine) (holder : Option Actor) (free : List ChunkAddr) : Prop where
  flag : s.flag = holder.isSome
  clientLock : ∀ t pc, s.clients[t]? = some pc →
    (pc.locked = true ↔ holder = some (.client t))
  workerLock : s.worker.locked = true ↔ holder = some .worker
  chain : IsChain s.pool.heap s.pool.firstAvailableChunk free
  nodup : (s.chunks free).Nodup
  valid : ∀ a ∈ s.chunks free, Heap.valid s.pool.heap a
  total : (s.chunks free).length = Heap.chunkCount s.pool.heap
  bound : Heap.chunkCount s.pool.heap ≤ maxChunks
  phase : s.phase holder free
  fresh : s.worker.fresh = true → FreshPage s

/-- A constructor of test objects: it throws on the argument 0. -/
def sampleObject : Nat → Option Nat := fun n => if n = 0 then none else some n

/-- The pool `ObjectPool(4, 1)`. -/
def pool41 : ObjectPool :=
  { heap := [[some (some ⟨0, 1⟩), some (some ⟨0, 2⟩), some (some ⟨0, 3⟩), some none]]
    pages := [⟨0, 4⟩]
    capacity := 4
    firstAvailableChunk := some ⟨0, 0⟩
    minCapacity := 1
    newPageSize := 3
    isReplenishNeeded := false
    isRunning := true }

/-- Three calls of `alloc` (the third one reaches `minCapacity`), a page
appended by the worker, one more `alloc`, and the release of chunk 1. -/
def trace41 : List (Op Nat) :=
  [.alloc 5 true none, .alloc 6 true none, .alloc 7 true none, .grow true,
   .alloc 8 true none, .release ⟨0, 1⟩]

/-- The state `trace41` leads to. -/
def state41 : Session :=
  { pool :=
      { heap := [[some (some ⟨0, 1⟩), some (some ⟨1, 1⟩), some (some ⟨0, 3⟩), some none],
                 [some (some ⟨1, 1⟩), some (some ⟨1, 2⟩), some (some ⟨0, 3⟩)]]
        pages := [⟨1, 3⟩, ⟨0, 4⟩]
        capacity := 4
        firstAvailableChunk := some ⟨0, 1⟩
        minCapacity := 1
        newPageSize := 3
        isReplenishNeeded := false
        isRunning := true }
    live := [⟨1, 0⟩, ⟨0, 2⟩, ⟨0, 0⟩]
    lost := []
    grows := 1 }

/-- The pool `ObjectPool(2, 0)`. -/
def pool20 : ObjectPool :=
  { heap := [[some (some ⟨0, 1⟩), some none]]
    pages := [⟨0, 2⟩]
    capacity := 2
    firstAvailableChunk := some ⟨0, 0⟩
    minCapacity := 0
    newPageSize := 2
    isReplenishNeeded := false
    isRunning := true }

/-- Two calls of `alloc` drain the pool, a third one is served by the system
allocator, then chunk 0 is released. -/
def trace20 : List (Op Nat) :=
  [.alloc 5 true none, .alloc 6 true none, .alloc 7 true (some 100), .release ⟨0, 0⟩]

/-- The state `trace20` leads to. -/
def state20 : Session :=
  { pool :=
      { heap := [[some none, some none]]
        pages := [⟨0, 2⟩]
        capacity := 1
        firstAvailableChunk := some ⟨0, 0⟩
        minCapacity := 0
        newPageSize := 2
        isReplenishNeeded := true
        isRunning := true }
    live := [⟨0, 1⟩]
    lost := []
    grows := 0 }

/-- The pool `ObjectPool(2, 0)` after two calls of `alloc`: no chunk is left. -/
def drained20 : ObjectPool :=
  { heap := [[some (some ⟨0, 1⟩), some none]]
    pages := [⟨0, 2⟩]
    capacity := 0
    firstAvailableChunk := none
    minCapacity := 0
    newPageSize := 2
    isReplenishNeeded := true
    isRunning := true }

/-- The pool that `ObjectPool(2, 2)` returns. -/
def pool22 : ObjectPool :=
  { heap := [[some (some ⟨0, 1⟩), some none]]
    pages := [⟨0, 2⟩]
    capacity := 2
    firstAvailableChunk := some ⟨0, 0⟩
    minCapacity := 2
    newPageSize := 0
    isReplenishNeeded := false
    isRunning := true }

/-- The pool that `ObjectPool(1, 3)` returns. -/
def pool13 : ObjectPool :=
  { heap := [[some none]]
    pages := [⟨0, 1⟩]
    capacity := 1
    firstAvailableChunk := some ⟨0, 0⟩
    minCapacity := 3
    newPageSize := 18446744073709551614
    isReplenishNeeded := false
    isRunning := true }

/-- Four calls of `alloc` with the arguments 5, 6, 7, 8. -/
def calls41 : List (Call Nat) :=
  [⟨5, true, none⟩, ⟨6, true, none⟩, ⟨7, true, none⟩, ⟨8, true, none⟩]

/-- On `ObjectPool(4, 1)`: three calls of `alloc`, the page appended by the
worker, a fourth call, and the release of all four handles. -/
def traceDrain41 : List (Op Nat) :=
  [.alloc 5 true none, .alloc 6 true none, .alloc 7 true none, .grow true,
   .alloc 8 true none, .release ⟨0, 0⟩, .release ⟨0, 1⟩, .release ⟨0, 2⟩, .release ⟨1, 0⟩]

/-- The state `traceDrain41` leads to. -/
def stateDrain41 : Session :=
  { pool :=
      { heap := [[some (some ⟨1, 1⟩), some (some ⟨0, 0⟩), some (some ⟨0, 1⟩), some none],
                 [some (some ⟨0, 2⟩), some (some ⟨1, 2⟩), some (some ⟨0, 3⟩)]]
        pages := [⟨1, 3⟩, ⟨0, 4⟩]
        capacity := 7
        firstAvailableChunk := some ⟨1, 0⟩
        minCapacity := 1
        newPageSize := 3
        isReplenishNeeded := false
        isRunning := true }
    live := []
    lost := []
    grows := 1 }

/-- The pool `ObjectPool(2, 1)`. -/
def pool21 : ObjectPool :=
  { heap := [[some (some ⟨0, 1⟩), some none]]
    pages := [⟨0, 2⟩]
    capacity := 2
    firstAvailableChunk := some ⟨0, 0⟩
    minCapacity := 1
    newPageSize := 1
    isReplenishNeeded := false
    isRunning := true }

/-- Three calls of `alloc`; the system allocator answers with address 100. -/
def calls21 : List (Call Nat) :=
  [⟨5, true, some 100⟩, ⟨6, true, some 100⟩, ⟨7, true, some 100⟩]

/-- The pool `ObjectPool(4, 1)` after three calls of `alloc`: one chunk is left,
the replenish flag is set and the worker has not run yet. -/
def triggered41 : ObjectPool :=
  { heap := [[some (some ⟨0, 1⟩), some (some ⟨0, 2⟩), some (some ⟨0, 3⟩), some none]]
    pages := [⟨0, 4⟩]
    capacity := 1
    firstAvailableChunk := some ⟨0, 3⟩
    minCapacity := 1
    newPageSize := 3
    isReplenishNeeded := true
    isRunning := true }

/-- On `ObjectPool(2, 0)`: one `alloc` whose constructor throws. -/
def traceThrow20 : List (Op Nat) := [.alloc 0 true none]

/-- The state `traceThrow20` leads to: chunk 0 is off the free list and in no
handle. -/
def stateThrow20 : Session :=
  { pool :=
      { heap := [[some (some ⟨0, 1⟩), some none]]
        pages := [⟨0, 2⟩]
        capacity := 1
        firstAvailableChunk := some ⟨0, 1⟩
        minCapacity := 0
        newPageSize := 2
        isReplenishNeeded := false
        isRunning := true }
    live := []
    lost := [⟨0, 0⟩]
    grows := 0 }

/-- On `ObjectPool(2, 0)`: an `alloc` whose constructor throws, an `alloc` that
returns a handle of chunk 1, and the release of that handle. -/
def traceLost20 : List (Op Nat) :=
  [.alloc 0 true none, .alloc 5 true none, .release ⟨0, 1⟩]

/-- The state `traceLost20` leads to: every handle has been released and chunk
0 is still off the free list. -/
def stateLost20 : Session :=
  { pool :=
      { heap := [[some (some ⟨0, 1⟩), some none]]
        pages := [⟨0, 2⟩]
        capacity := 1
        firstAvailableChunk := some ⟨0, 1⟩
        minCapacity := 0
        newPageSize := 2
        isReplenishNeeded := true
        isRunning := true }
    live := []
    lost := [⟨0, 0⟩]
    grows := 0 }

/-! ## Lemmas -/

theorem Heap.store_some {h h1 : Heap} {a : ChunkAddr} {v : ChunkPtr}
    (hs : Heap.store h a v = some h1) :
    ∃ arr, h[a.page]? = some arr ∧ a.idx < arr.length ∧
      h1 = h.set a.page (arr.set a.idx (some v)) := by
  unfold Heap.store at hs
  split at hs
  · simp at hs
  · rename_i arr harr
    split at hs
    · rename_i hlt
      exact ⟨arr, harr, hlt, by simpa using hs.symm⟩
    · simp at hs

theorem Heap.shape_store {h h1 : Heap} {a : ChunkAddr} {v : ChunkPtr}
    (hs : Heap.store h a v = some h1) : Heap.shape h1 = Heap.shape h := by
  obtain ⟨arr, harr, _, rfl⟩ := Heap.store_some hs
  unfold Heap.shape
  apply List.ext_getElem?
  intro i
  simp only [List.getElem?_map, List.getElem?_set]
  by_cases hi : a.page = i
  · subst hi
    have hp : a.page < h.length := (List.getElem?_eq_some_iff.mp harr).1
    simp [harr, hp]
  · simp [hi]

theorem Heap.cell_store_self {h h1 : Heap} {a : ChunkAddr} {v : ChunkPtr}
    (hs : Heap.store h a v = some h1) : Heap.cell h1 a = some (some v) := by
  obtain ⟨arr, harr, hlt, rfl⟩ := Heap.store_some hs
  have hp : a.page < h.length := by
    rcases List.getElem?_eq_some_iff.mp harr with ⟨hp, _⟩
    exact hp
  simp [Heap.cell, List.getElem?_set, hp, hlt]

theorem Heap.cell_store_other {h h1 : Heap} {a b : ChunkAddr} {v : ChunkPtr}
    (hs : Heap.store h a v = some h1) (hne : b ≠ a) : Heap.cell h1 b = Heap.cell h b := by
  obtain ⟨arr, harr, hlt, rfl⟩ := Heap.store_some hs
  have hp : a.page < h.length := by
    rcases List.getElem?_eq_some_iff.mp harr with ⟨hp, _⟩
    exact hp
  unfold Heap.cell
  by_cases hpg : a.page = b.page
  · have hidx : a.idx ≠ b.idx := by
      intro hi
      apply hne
      cases a; cases b; simp_all
    rw [← hpg]
    simp [List.getElem?_set, hp, harr, hidx]
  · simp [List.getElem?_set_ne hpg]

theorem Heap.load_store_self {h h1 : Heap} {a : ChunkAddr} {v : ChunkPtr}
    (hs : Heap.store h a v = some h1) : Heap.load h1 a = some v := by
  simp [Heap.load, Heap.cell_store_self hs]

theorem Heap.load_store_other {h h1 : Heap} {a b : ChunkAddr} {v : ChunkPtr}
    (hs : Heap.store h a v = some h1) (hne : b ≠ a) : Heap.load h1 b = Heap.load h b := by
  simp [Heap.load, Heap.cell_store_other hs hne]

theorem Heap.store_of_valid {h : Heap} {a : ChunkAddr} (v : ChunkPtr)
    (hv : Heap.valid h a) : ∃ h1, Heap.store h a v = some h1 := by
  obtain ⟨n, hn, hlt⟩ := hv
  unfold Heap.shape at hn
  rw [List.getElem?_map] at hn
  cases harr : h[a.page]? with
  | none => simp [harr] at hn
  | some arr =>
    simp [harr] at hn
    subst hn
    exact ⟨h.set a.page (arr.set a.idx (some v)), by simp [Heap.store, harr, hlt]⟩

theorem Heap.valid_of_shape {h h1 : Heap} {a : ChunkAddr}
    (hsh : Heap.shape h1 = Heap.shape h) (hv : Heap.valid h a) : Heap.valid h1 a := by
  unfold Heap.valid at *
  rw [hsh]; exact hv

theorem Heap.chunkCount_of_shape {h h1 : Heap}
    (hsh : Heap.shape h1 = Heap.shape h) : Heap.chunkCount h1 = Heap.chunkCount h := by
  unfold Heap.chunkCount; rw [hsh]

theorem Heap.shape_append (h : Heap) (arr : List Cell) :
    Heap.shape (h ++ [arr]) = Heap.shape h ++ [arr.length] := by
  simp [Heap.shape]

theorem Heap.cell_append_old (h : Heap) (arr : List Cell) {a : ChunkAddr}
    (ha : a.page < h.length) : Heap.cell (h ++ [arr]) a = Heap.cell h a := by
  simp [Heap.cell, List.getElem?_append_left ha]

theorem Heap.valid_append_new (h : Heap) (arr : List Cell) {i : Nat} (hi : i < arr.length) :
    Heap.valid (h ++ [arr]) ⟨h.length, i⟩ := by
  refine ⟨arr.length, ?_, hi⟩
  rw [Heap.shape_append]
  have : (Heap.shape h).length = h.length := by simp [Heap.shape]
  rw [← this]
  simp

theorem Heap.valid_page_lt {h : Heap} {a : ChunkAddr} (hv : Heap.valid h a) :
    a.page < h.length := by
  obtain ⟨n, hn, _⟩ := hv
  have := (List.getElem?_eq_some_iff.mp hn).1
  simpa [Heap.shape] using this

theorem newChunkArray_some {h h1 : Heap} {n c : Nat} {g : Bool}
    (hn : newChunkArray h n g = some (c, h1)) :
    g = true ∧ Heap.chunkCount h + n ≤ maxChunks ∧ c = h.length ∧
      h1 = h ++ [List.replicate n none] := by
  unfold newChunkArray at hn
  split at hn
  · rename_i hc
    simp at hn
    exact ⟨hc.1, hc.2, hn.1.symm, hn.2.symm⟩
  · simp at hn

theorem Page.linkLoop_spec (c : Nat) : ∀ (k i : Nat) (h : Heap),
    (∀ j, i ≤ j → j < i + k → Heap.valid h ⟨c, j⟩) →
    ∃ h1, Page.linkLoop c k i h = some h1 ∧ Heap.shape h1 = Heap.shape h ∧
      (∀ j, i ≤ j → j < i + k → Heap.load h1 ⟨c, j⟩ = some (some ⟨c, j + 1⟩)) ∧
      (∀ b : ChunkAddr, (b.page ≠ c ∨ b.idx < i ∨ i + k ≤ b.idx) →
        Heap.cell h1 b = Heap.cell h b) := by
  intro k
  induction k with
  | zero =>
    intro i h _
    refine ⟨h, rfl, rfl, ?_, fun _ _ => rfl⟩
    intro j h1 h2
    omega
  | succ k ih =>
    intro i h hv
    obtain ⟨h1, hs⟩ := Heap.store_of_valid (some ⟨c, i + 1⟩) (hv i (Nat.le_refl i) (by omega))
    have hsh := Heap.shape_store hs
    obtain ⟨h2, hl, hsh2, hlink, hframe⟩ := ih (i + 1) h1 (by
      intro j hj1 hj2
      exact Heap.valid_of_shape hsh (hv j (by omega) (by omega)))
    refine ⟨h2, ?_, hsh2.trans hsh, ?_, ?_⟩
    · simp [Page.linkLoop, hs, hl]
    · intro j hj1 hj2
      by_cases hji : j = i
      · subst hji
        have : Heap.cell h2 ⟨c, j⟩ = Heap.cell h1 ⟨c, j⟩ := hframe ⟨c, j⟩ (Or.inr (Or.inl (by simp)))
        simp [Heap.load, this, Heap.cell_store_self hs]
      · exact hlink j (by omega) (by omega)
    · intro b hb
      have hne : b ≠ ⟨c, i⟩ := by
        intro hbe
        subst hbe
        simp at hb
      rw [hframe b (by omega), Heap.cell_store_other hs hne]

/-- What a page constructor that is granted memory builds. -/
theorem Page.new_granted (h : Heap) {n : Nat} (t : ChunkPtr) (hn : n ≠ 0)
    (hfit : Heap.chunkCount h + n ≤ maxChunks) :
    ∃ h1, Page.new h n t true = .ok (⟨h.length, n⟩, h1) ∧
      Heap.shape h1 = Heap.shape h ++ [n] ∧
      (∀ i, i + 1 < n → Heap.load h1 ⟨h.length, i⟩ = some (some ⟨h.length, i + 1⟩)) ∧
      Heap.load h1 ⟨h.length, n - 1⟩ = some t ∧
      (∀ b : ChunkAddr, b.page < h.length → Heap.cell h1 b = Heap.cell h b) := by
  have hnew : newChunkArray h n true = some (h.length, h ++ [List.replicate n none]) := by
    simp [newChunkArray, hfit]
  have hvalid : ∀ j, j < n → Heap.valid (h ++ [List.replicate n none]) ⟨h.length, j⟩ := by
    intro j hj
    exact Heap.valid_append_new h _ (by simpa using hj)
  obtain ⟨h2, hs⟩ := Heap.store_of_valid t (hvalid (n - 1) (by omega))
  have hsh2 := Heap.shape_store hs
  obtain ⟨h3, hl, hsh3, hlink, hframe⟩ := Page.linkLoop_spec h.length (n - 1) 0 h2 (by
    intro j _ hj
    exact Heap.valid_of_shape hsh2 (hvalid j (by omega)))
  refine ⟨h3, ?_, ?_, ?_, ?_, ?_⟩
  · simp [Page.new, hn, hnew, hs, hl]
  · rw [hsh3, hsh2, Heap.shape_append]; simp
  · intro i hi
    exact hlink i (Nat.zero_le i) (by omega)
  · have : Heap.cell h3 ⟨h.length, n - 1⟩ = Heap.cell h2 ⟨h.length, n - 1⟩ :=
      hframe ⟨h.length, n - 1⟩ (Or.inr (Or.inr (by simp)))
    simp [Heap.load, this, Heap.cell_store_self hs]
  · intro b hb
    have hne : b ≠ ⟨h.length, n - 1⟩ := by
      intro hbe
      subst hbe
      simp at hb
    rw [hframe b (Or.inl (by omega)), Heap.cell_store_other hs hne,
      Heap.cell_append_old h _ hb]

/-- A page constructor that returns was granted memory for a positive number of
chunks that fits. -/
theorem Page.new_returns {h h1 : Heap} {n : Nat} {t : ChunkPtr} {g : Bool} {pg : Page}
    (hr : Page.new h n t g = .ok (pg, h1)) :
    n ≠ 0 ∧ g = true ∧ Heap.chunkCount h + n ≤ maxChunks := by
  unfold Page.new at hr
  split at hr
  · simp at hr
  · rename_i hn
    split at hr
    · simp at hr
    · rename_i c h2 hnew
      obtain ⟨hg, hfit, _, _⟩ := newChunkArray_some hnew
      exact ⟨hn, hg, hfit⟩

theorem toSsize_of_lt {n : Nat} (hn : n < 2 ^ 63) : toSsize n = (n : Int) := by
  have h1 : n % SIZE_MOD = n := Nat.mod_eq_of_lt (by unfold SIZE_MOD; omega)
  unfold toSsize
  rw [h1, if_pos hn]

theorem toSize_of_nonneg {c : Int} (h0 : 0 ≤ c) (h1 : c < 2 ^ 64) : toSize c = c.toNat := by
  unfold toSize SIZE_MOD
  congr 1
  apply Int.emod_eq_of_lt h0
  norm_num
  exact h1

theorem toSize_natCast {n : Nat} (h1 : n < 2 ^ 64) : toSize (n : Int) = n := by
  rw [toSize_of_nonneg (by omega) (by exact_mod_cast h1)]
  simp

theorem walk_of_chain {h : Heap} : ∀ {l : List ChunkAddr} {p : ChunkPtr} {fuel : Nat},
    IsChain h p l → l.length ≤ fuel → walk h fuel p = some l := by
  intro l
  induction l with
  | nil =>
    intro p fuel hc _
    simp only [IsChain] at hc
    subst hc
    cases fuel <;> rfl
  | cons a l ih =>
    intro p fuel hc hlen
    obtain ⟨hp, next, hload, hrest⟩ := hc
    subst hp
    cases fuel with
    | zero => simp at hlen
    | succ fuel =>
      simp only [List.length_cons, Nat.add_le_add_iff_right] at hlen
      simp [walk, hload, ih hrest hlen]

theorem chain_of_walk {h : Heap} : ∀ {fuel : Nat} {p : ChunkPtr} {l : List ChunkAddr},
    walk h fuel p = some l → IsChain h p l := by
  intro fuel
  induction fuel with
  | zero =>
    intro p l hw
    cases p with
    | none => simp [walk] at hw; subst hw; simp [IsChain]
    | some a => simp [walk] at hw
  | succ fuel ih =>
    intro p l hw
    cases p with
    | none => simp [walk] at hw; subst hw; simp [IsChain]
    | some a =>
      simp only [walk] at hw
      split at hw
      · simp at hw
      · rename_i next hload
        cases hrec : walk h fuel next with
        | none => simp [hrec] at hw
        | some l1 =>
          simp [hrec] at hw
          subst hw
          exact ⟨rfl, next, hload, ih hrec⟩

/-- A chain only depends on the links of its own chunks. -/
theorem IsChain.congr {h h1 : Heap} : ∀ {l : List ChunkAddr} {p : ChunkPtr},
    IsChain h p l → (∀ a ∈ l, Heap.load h1 a = Heap.load h a) → IsChain h1 p l := by
  intro l
  induction l with
  | nil => intro p hc _; exact hc
  | cons a l ih =>
    intro p hc hsame
    obtain ⟨hp, next, hload, hrest⟩ := hc
    refine ⟨hp, next, ?_, ih hrest (fun b hb => hsame b (List.mem_cons_of_mem _ hb))⟩
    rw [hsame a (List.mem_cons_self _ _)]; exact hload

/-- The chunks of a prelinked array from index `k` on, followed by whatever the
last chunk points at. -/
theorem IsChain.span_append {h : Heap} {c n : Nat} {t : ChunkPtr} {l : List ChunkAddr}
    (hlink : ∀ i, i + 1 < n → Heap.load h ⟨c, i⟩ = some (some ⟨c, i + 1⟩))
    (hlast : Heap.load h ⟨c, n - 1⟩ = some t) (ht : IsChain h t l) :
    ∀ (cnt k : Nat), k + cnt = n → 0 < cnt →
      IsChain h (some ⟨c, k⟩) (span c k cnt ++ l) := by
  intro cnt
  induction cnt with
  | zero => intro k _ h0; omega
  | succ cnt ih =>
    intro k hk _
    by_cases hc : cnt = 0
    · subst hc
      have : k = n - 1 := by omega
      subst this
      exact ⟨rfl, t, hlast, by simpa [span] using ht⟩
    · refine ⟨rfl, some ⟨c, k + 1⟩, hlink k (by omega), ?_⟩
      exact ih (k + 1) (by omega) (by omega)

theorem length_span (c : Nat) : ∀ (cnt k : Nat), (span c k cnt).length = cnt := by
  intro cnt
  induction cnt with
  | zero => intro k; rfl
  | succ cnt ih => intro k; simp [span, ih]

theorem mem_span {c : Nat} {a : ChunkAddr} : ∀ {cnt k : Nat},
    a ∈ span c k cnt ↔ a.page = c ∧ k ≤ a.idx ∧ a.idx < k + cnt := by
  intro cnt
  induction cnt with
  | zero => intro k; simp [span]
  | succ cnt ih =>
    intro k
    simp only [span, List.mem_cons, ih]
    constructor
    · rintro (rfl | ⟨h1, h2, h3⟩)
      · simp
      · exact ⟨h1, by omega, by omega⟩
    · rintro ⟨h1, h2, h3⟩
      by_cases hk : a.idx = k
      · left; cases a; simp_all
      · right; exact ⟨h1, by omega, by omega⟩

theorem nodup_span (c : Nat) : ∀ (cnt k : Nat), (span c k cnt).Nodup := by
  intro cnt
  induction cnt with
  | zero => intro k; simp [span]
  | succ cnt ih =>
    intro k
    simp only [span, List.nodup_cons]
    refine ⟨?_, ih (k + 1)⟩
    rw [mem_span]
    simp

/-- The fallback path of `alloc`: the pool is returned as it was. -/
theorem alloc_of_capacity_zero {α β : Type} (OBJECT : α → Option β)
    {p : ObjectPool} (h0 : p.capacity = 0) (args : α)
    (tryLock : Bool) (sys : Option Nat) :
    alloc OBJECT p args tryLock sys =
      some ⟨p, allocateUsingStdAllocator OBJECT args sys, none, false, false⟩ := by
  simp [alloc, h0]

/-- The pool path of `alloc`, in closed form. -/
theorem alloc_of_head {α β : Type} (OBJECT : α → Option β)
    {p : ObjectPool} {c : ChunkAddr} {next : ChunkPtr}
    (h0 : p.capacity ≠ 0) (hmin : p.capacity ≠ SSIZE_MIN)
    (hf : p.firstAvailableChunk = some c) (hl : Heap.load p.heap c = some next)
    (args : α) (tryLock : Bool) (sys : Option Nat) :
    alloc OBJECT p args tryLock sys =
      some
        { pool :=
            { p with
              capacity := p.capacity - 1
              firstAvailableChunk := next
              isReplenishNeeded :=
                p.isReplenishNeeded || decide (toSize (p.capacity - 1) = p.minCapacity) }
          object :=
            match OBJECT args with
            | none => .error .fromConstructor
            | some obj => .ok (.pool c obj)
          chunkToUse := some c
          isActivateReplenish := decide (toSize (p.capacity - 1) = p.minCapacity)
          notified := decide (toSize (p.capacity - 1) = p.minCapacity) && tryLock } := by
  unfold alloc
  simp only [h0, hmin, if_false, hf, hl]
  by_cases hd : toSize (p.capacity - 1) = p.minCapacity
  · cases tryLock <;> cases hobj : OBJECT args <;> simp [hd, runReplenish]
  · cases hobj : OBJECT args <;> simp [hd]

/-- The function `dealloc` in closed form. -/
theorem dealloc_of_store {p : ObjectPool} {c : ChunkAddr} {h1 : Heap}
    (hs : Heap.store p.heap c p.firstAvailableChunk = some h1)
    (hmax : p.capacity ≠ SSIZE_MAX) :
    dealloc p c =
      some { p with heap := h1, firstAvailableChunk := some c, capacity := p.capacity + 1 } := by
  simp [dealloc, hs, hmax]

/-- A call of `dealloc` that returns stored the old head in the chunk. -/
theorem dealloc_some {p p1 : ObjectPool} {c : ChunkAddr} (hd : dealloc p c = some p1) :
    ∃ h1, Heap.store p.heap c p.firstAvailableChunk = some h1 ∧ p.capacity ≠ SSIZE_MAX ∧
      p1 = { p with heap := h1, firstAvailableChunk := some c, capacity := p.capacity + 1 } := by
  cases hs : Heap.store p.heap c p.firstAvailableChunk with
  | none => simp [dealloc, hs] at hd
  | some h1 =>
    by_cases hmax : p.capacity = SSIZE_MAX
    · simp [dealloc, hs, hmax] at hd
    · rw [dealloc_of_store hs hmax] at hd
      exact ⟨h1, rfl, hmax, (Option.some.inj hd).symm⟩

/-- A worker iteration that appends a page, in closed form. -/
theorem poolReplenishWorker_grew {p p1 : ObjectPool} {g : Bool}
    (hw : poolReplenishWorker p g = .grew p1) :
    p.isReplenishNeeded = true ∧ p.isRunning = true ∧
    ∃ h3 h4, Page.new p.heap p.newPageSize none g = .ok (⟨p.heap.length, p.newPageSize⟩, h3) ∧
      Heap.store h3 ⟨p.heap.length, p.newPageSize - 1⟩ p.firstAvailableChunk = some h4 ∧
      p1 = { p with
             isReplenishNeeded := false
             heap := h4
             pages := ⟨p.heap.length, p.newPageSize⟩ :: p.pages
             capacity := toSsize (toSize p.capacity + p.newPageSize)
             firstAvailableChunk := some ⟨p.heap.length, 0⟩ } := by
  cases hneed : p.isReplenishNeeded with
  | false =>
    cases hrun : p.isRunning <;> simp [poolReplenishWorker, hneed, hrun] at hw
  | true =>
    cases hrun : p.isRunning with
    | false => simp [poolReplenishWorker, hneed, hrun] at hw
    | true =>
      cases hpage : Page.new p.heap p.newPageSize none g with
      | error f => simp [poolReplenishWorker, hneed, hrun, hpage] at hw
      | ok res =>
        obtain ⟨pg, h3⟩ := res
        obtain ⟨hn, hg, hfit⟩ := Page.new_returns hpage
        subst hg
        obtain ⟨h3', hpage', -⟩ := Page.new_granted p.heap none hn hfit
        rw [hpage'] at hpage
        simp only [Except.ok.injEq, Prod.mk.injEq] at hpage
        obtain ⟨hpg, hh3⟩ := hpage
        subst hpg hh3
        refine ⟨rfl, rfl, h3', ?_⟩
        cases hs : Heap.store h3' ⟨p.heap.length, p.newPageSize - 1⟩ p.firstAvailableChunk with
        | none => simp [poolReplenishWorker, hneed, hrun, hpage', hs] at hw
        | some h4 =>
          simp [poolReplenishWorker, hneed, hrun, hpage', hs] at hw
          refine ⟨h4, rfl, rfl, ?_⟩
          rw [← hw, ← hrun]

/-- The state right after a successful construction satisfies the invariant,
with the chunks of the first page in index order as free list. -/
theorem Inv.start {maxCapacity minCapacity : Nat} {g : Bool} {p : ObjectPool}
    (hp : ObjectPool.new maxCapacity minCapacity g = .ok p) :
    Inv maxCapacity (Session.start p) (span 0 0 maxCapacity) := by
  cases hpage : Page.new [] maxCapacity none g with
  | error f => simp [ObjectPool.new, hpage] at hp
  | ok res =>
    obtain ⟨pg, h1⟩ := res
    obtain ⟨hn, hg, hfit⟩ := Page.new_returns hpage
    subst hg
    obtain ⟨h2, hpage2, hshape, hlink, hlast, -⟩ := Page.new_granted [] none hn hfit
    rw [hpage2] at hpage
    simp only [Except.ok.injEq, Prod.mk.injEq] at hpage
    obtain ⟨hpg, hh⟩ := hpage
    subst hpg hh
    simp [ObjectPool.new, hpage2] at hp
    subst hp
    have hcount : Heap.chunkCount h2 = maxCapacity := by
      unfold Heap.chunkCount
      rw [hshape]
      simp [Heap.shape]
    have hfit2 : maxCapacity ≤ maxChunks := by
      simpa [Heap.chunkCount, Heap.shape] using hfit
    refine ⟨?_, ?_, ?_, ?_, ?_, ?_, ?_, ?_⟩
    · have := IsChain.span_append (l := []) hlink hlast (by simp [IsChain]) maxCapacity 0
        (by simp) (Nat.pos_of_ne_zero hn)
      simpa [Session.start] using this
    · simp only [Session.start, length_span]
      apply toSsize_of_lt
      unfold maxChunks at hfit2
      omega
    · simpa [Session.start] using nodup_span 0 maxCapacity 0
    · intro a ha
      simp only [Session.start, List.append_nil, mem_span] at ha
      refine ⟨maxCapacity, ?_, by omega⟩
      show (Heap.shape h2)[a.page]? = some maxCapacity
      rw [hshape, ha.1]
      simp [Heap.shape]
    · simp [Session.start, length_span, hcount]
    · simpa [Session.start, hcount] using hfit2
    · simp [Session.start, ObjectPool.totalSlots, hcount]
    · simp [Session.start, hcount]

/-- Moving chunks between the free, live and lost lists in a store of the same
shape keeps the bookkeeping part of the invariant. -/
theorem Inv.of_perm {M : Nat} {s s1 : Session} {free free1 : List ChunkAddr}
    (hinv : Inv M s free)
    (hchain : IsChain s1.pool.heap s1.pool.firstAvailableChunk free1)
    (hcount : s1.pool.capacity = (free1.length : Int))
    (hperm : (free1 ++ (s1.live ++ s1.lost)).Perm (free ++ (s.live ++ s.lost)))
    (hshape : Heap.shape s1.pool.heap = Heap.shape s.pool.heap)
    (hpages : s1.pool.pages = s.pool.pages)
    (hnps : s1.pool.newPageSize = s.pool.newPageSize)
    (hgrows : s1.grows = s.grows) : Inv M s1 free1 := by
  have hcc : Heap.chunkCount s1.pool.heap = Heap.chunkCount s.pool.heap :=
    Heap.chunkCount_of_shape hshape
  refine ⟨hchain, hcount, hperm.nodup_iff.mpr hinv.nodup, ?_, ?_, ?_, ?_, ?_⟩
  · intro a ha
    exact Heap.valid_of_shape hshape (hinv.valid a (hperm.mem_iff.mp ha))
  · have := hperm.length_eq
    simp only [List.length_append] at this
    rw [hcc, ← hinv.total]
    simpa using this
  · rw [hcc]; exact hinv.bound
  · rw [hcc, ← hinv.slots]
    simp [ObjectPool.totalSlots, hpages]
  · rw [hcc, hnps, hgrows]; exact hinv.grown

/-- In a state of the invariant the free list is empty exactly when `capacity`
is zero, and otherwise its head is `firstAvailableChunk`. -/
theorem Inv.head {M : Nat} {s : Session} {free : List ChunkAddr} (hinv : Inv M s free)
    (h0 : s.pool.capacity ≠ 0) :
    ∃ c rest next, free = c :: rest ∧ s.pool.firstAvailableChunk = some c ∧
      Heap.load s.pool.heap c = some next ∧ IsChain s.pool.heap next rest := by
  cases hfree : free with
  | nil =>
    have := hinv.count
    simp [hfree] at this
    exact absurd this h0
  | cons c rest =>
    have hch := hinv.chain
    rw [hfree] at hch
    obtain ⟨hp, next, hl, hrest⟩ := hch
    exact ⟨c, rest, next, rfl, hp, hl, hrest⟩

theorem Inv.capacity_bounds {M : Nat} {s : Session} {free : List ChunkAddr}
    (hinv : Inv M s free) :
    0 ≤ s.pool.capacity ∧ s.pool.capacity + (s.live.length + s.lost.length : Nat) ≤ maxChunks := by
  have h1 := hinv.count
  have h2 := hinv.total
  have h3 := hinv.bound
  constructor
  · omega
  · rw [h1]
    have : free.length + (s.live.length + s.lost.length) ≤ maxChunks := by omega
    exact_mod_cast this

theorem Inv.alloc {α β : Type} (OBJECT : α → Option β)
    {M : Nat} {s s1 : Session} {free : List ChunkAddr} (hinv : Inv M s free)
    {args : α} {tryLock : Bool} {sys : Option Nat}
    (hstep : Session.step OBJECT s (.alloc args tryLock sys) = some s1) :
    ∃ free1, Inv M s1 free1 := by
  by_cases h0 : s.pool.capacity = 0
  · -- fallback: nothing changes
    have hs1 : s1 = s := by
      simp only [Session.step, alloc_of_capacity_zero OBJECT h0] at hstep
      unfold allocateUsingStdAllocator at hstep
      cases sys <;> cases hobj : OBJECT args <;> simp [hobj] at hstep <;> exact hstep.symm
    subst hs1
    exact ⟨free, hinv⟩
  · obtain ⟨c, rest, next, hfree, hf, hl, hrest⟩ := hinv.head h0
    have hb := hinv.capacity_bounds
    have hmin : s.pool.capacity ≠ SSIZE_MIN := by
      unfold SSIZE_MIN; omega
    have hcount : s.pool.capacity - 1 = (rest.length : Int) := by
      have := hinv.count
      rw [hfree] at this
      simp at this
      omega
    subst hfree
    simp only [Session.step, alloc_of_head OBJECT h0 hmin hf hl] at hstep
    refine ⟨rest, ?_⟩
    cases hobj : OBJECT args with
    | none =>
      simp [hobj] at hstep
      subst hstep
      refine Inv.of_perm hinv hrest hcount ?_ rfl rfl rfl rfl
      show (rest ++ (s.live ++ c :: s.lost)).Perm (c :: rest ++ (s.live ++ s.lost))
      rw [← List.append_assoc, List.cons_append, ← List.append_assoc]
      exact List.perm_middle
    | some obj =>
      simp [hobj] at hstep
      subst hstep
      refine Inv.of_perm hinv hrest hcount ?_ rfl rfl rfl rfl
      show (rest ++ (c :: s.live ++ s.lost)).Perm (c :: rest ++ (s.live ++ s.lost))
      exact List.perm_middle

theorem Inv.release {α β : Type} (OBJECT : α → Option β)
    {M : Nat} {s s1 : Session} {free : List ChunkAddr} (hinv : Inv M s free)
    {c : ChunkAddr}
    (hstep : Session.step OBJECT s (.release c : Op α) = some s1) :
    ∃ free1, Inv M s1 free1 := by
  by_cases hc : c ∈ s.live
  · cases hd : dealloc s.pool c with
    | none => simp [Session.step, hc, hd] at hstep
    | some p1 =>
      simp [Session.step, hc, hd] at hstep
      subst hstep
      obtain ⟨h1, hs, -, rfl⟩ := dealloc_some hd
      refine ⟨c :: free, Inv.of_perm hinv ?_ ?_ ?_ (Heap.shape_store hs) rfl rfl rfl⟩
      · refine ⟨rfl, s.pool.firstAvailableChunk, Heap.load_store_self hs, ?_⟩
        refine IsChain.congr hinv.chain ?_
        intro a ha
        apply Heap.load_store_other hs
        intro hac
        subst hac
        have hnd := hinv.nodup
        rw [List.nodup_append] at hnd
        exact hnd.2.2 ha (List.mem_append_left _ hc)
      · simp [hinv.count]
      · show (c :: free ++ ((s.live.erase c) ++ s.lost)).Perm (free ++ (s.live ++ s.lost))
        have h1 : (s.live ++ s.lost).Perm (c :: (s.live.erase c ++ s.lost)) := by
          have := List.perm_cons_erase hc
          exact (this.append_right s.lost)
        have h2 : (free ++ (s.live ++ s.lost)).Perm (free ++ c :: (s.live.erase c ++ s.lost)) :=
          h1.append_left free
        exact (h2.trans List.perm_middle).symm
  · simp [Session.step, hc] at hstep

theorem Heap.valid_of_shape_append {h h1 : Heap} {n : Nat} {a : ChunkAddr}
    (hsh : Heap.shape h1 = Heap.shape h ++ [n]) (hv : Heap.valid h a) : Heap.valid h1 a := by
  obtain ⟨m, hm, hlt⟩ := hv
  refine ⟨m, ?_, hlt⟩
  rw [hsh, List.getElem?_append_left (List.getElem?_eq_some_iff.mp hm).1]
  exact hm

theorem Heap.valid_new_of_shape_append {h h1 : Heap} {n i : Nat}
    (hsh : Heap.shape h1 = Heap.shape h ++ [n]) (hi : i < n) : Heap.valid h1 ⟨h.length, i⟩ := by
  refine ⟨n, ?_, hi⟩
  rw [hsh]
  have : (Heap.shape h).length = h.length := by simp [Heap.shape]
  rw [← this]
  simp

theorem Inv.grow {α β : Type} (OBJECT : α → Option β)
    {M : Nat} {s s1 : Session} {free : List ChunkAddr} (hinv : Inv M s free)
    {g : Bool} (hstep : Session.step OBJECT s (.grow g : Op α) = some s1) :
    Inv M s1 (span s.pool.heap.length 0 s.pool.newPageSize ++ free) := by
  cases hw : poolReplenishWorker s.pool g with
  | parked => simp [Session.step, hw] at hstep
  | exited p => simp [Session.step, hw] at hstep
  | failed f p => simp [Session.step, hw] at hstep
  | grew p1 =>
    simp [Session.step, hw] at hstep
    subst hstep
    obtain ⟨-, -, h3, h4, hpage, hs, rfl⟩ := poolReplenishWorker_grew hw
    obtain ⟨hn, hg, hfit⟩ := Page.new_returns hpage
    subst hg
    obtain ⟨h3b, hpage2, hshape, hlink, -, hframe⟩ := Page.new_granted s.pool.heap none hn hfit
    rw [hpage2] at hpage
    simp only [Except.ok.injEq, Prod.mk.injEq, true_and] at hpage
    subst hpage
    have hshape4 : Heap.shape h4 = Heap.shape s.pool.heap ++ [s.pool.newPageSize] :=
      (Heap.shape_store hs).trans hshape
    have hcc : Heap.chunkCount h4 = Heap.chunkCount s.pool.heap + s.pool.newPageSize := by
      unfold Heap.chunkCount
      rw [hshape4]
      simp
    have hold : ∀ a, Heap.valid s.pool.heap a → Heap.load h4 a = Heap.load s.pool.heap a := by
      intro a ha
      have hlt := Heap.valid_page_lt ha
      have hne : a ≠ ⟨s.pool.heap.length, s.pool.newPageSize - 1⟩ := by
        intro hae
        subst hae
        simp at hlt
      rw [Heap.load_store_other hs hne]
      simp [Heap.load, hframe a hlt]
    have hb := hinv.capacity_bounds
    refine ⟨?_, ?_, ?_, ?_, ?_, ?_, ?_, ?_⟩
    · -- the new page, then the old free list
      refine IsChain.span_append (n := s.pool.newPageSize) ?_ (Heap.load_store_self hs) ?_
        s.pool.newPageSize 0 (by simp) (Nat.pos_of_ne_zero hn)
      · intro i hi
        have hne : (⟨s.pool.heap.length, i⟩ : ChunkAddr) ≠
            ⟨s.pool.heap.length, s.pool.newPageSize - 1⟩ := by
          intro hae
          simp at hae
          omega
        rw [Heap.load_store_other hs hne]
        exact hlink i hi
      · refine IsChain.congr hinv.chain ?_
        intro a ha
        exact hold a (hinv.valid a (List.mem_append_left _ ha))
    · -- capacity += newPageSize does not wrap
      show toSsize (toSize s.pool.capacity + s.pool.newPageSize) = _
      have hcap := hinv.count
      have htot := hinv.total
      have hbd : Heap.chunkCount s.pool.heap + s.pool.newPageSize ≤ 2 ^ 60 := hfit
      have hfl : free.length ≤ Heap.chunkCount s.pool.heap := by omega
      rw [hcap, toSize_natCast (by omega), toSsize_of_lt (by omega)]
      simp [length_span]
      omega
    · show (span s.pool.heap.length 0 s.pool.newPageSize ++ free ++ (s.live ++ s.lost)).Nodup
      rw [List.append_assoc, List.nodup_append]
      refine ⟨nodup_span _ _ _, hinv.nodup, ?_⟩
      intro a ha hb
      have h1 := (mem_span.mp ha).1
      have h2 := Heap.valid_page_lt (hinv.valid a hb)
      omega
    · intro a ha
      show Heap.valid h4 a
      rw [List.append_assoc, List.mem_append] at ha
      rcases ha with ha | ha
      · obtain ⟨hp, -, hi⟩ := mem_span.mp ha
        have := Heap.valid_new_of_shape_append hshape4 (i := a.idx) (by omega)
        cases a
        simp_all
      · exact Heap.valid_of_shape_append hshape4 (hinv.valid a ha)
    · show (span s.pool.heap.length 0 s.pool.newPageSize ++ free).length +
          (s.live.length + s.lost.length) = Heap.chunkCount h4
      have := hinv.total
      simp only [List.length_append, length_span]
      omega
    · show Heap.chunkCount h4 ≤ maxChunks
      omega
    · show (s.pool.newPageSize :: s.pool.pages.map Page.size).sum = Heap.chunkCount h4
      have := hinv.slots
      unfold ObjectPool.totalSlots at this
      simp only [List.sum_cons]
      omega
    · show Heap.chunkCount h4 = M + s.pool.newPageSize * (s.grows + 1)
      have := hinv.grown
      rw [Nat.mul_add]
      omega

/-- Every step of a run keeps the invariant. -/
theorem Inv.step {α β : Type} (OBJECT : α → Option β)
    {M : Nat} {s s1 : Session} {free : List ChunkAddr} (hinv : Inv M s free)
    {op : Op α} (hstep : Session.step OBJECT s op = some s1) :
    ∃ free1, Inv M s1 free1 := by
  cases op with
  | alloc args tryLock sys => exact hinv.alloc OBJECT hstep
  | release c => exact hinv.release OBJECT hstep
  | grow g => exact ⟨_, hinv.grow OBJECT hstep⟩

/-- Every run keeps the invariant. -/
theorem Inv.run {α β : Type} (OBJECT : α → Option β)
    {M : Nat} : ∀ (ops : List (Op α)) {s s1 : Session} {free : List ChunkAddr},
    Inv M s free → Session.run OBJECT s ops = some s1 → ∃ free1, Inv M s1 free1 := by
  intro ops
  induction ops with
  | nil =>
    intro s s1 free hinv hrun
    simp [Session.run] at hrun
    subst hrun
    exact ⟨free, hinv⟩
  | cons op ops ih =>
    intro s s1 free hinv hrun
    cases hstep : Session.step OBJECT s op with
    | none => simp [Session.run, hstep] at hrun
    | some s2 =>
      simp [Session.run, hstep] at hrun
      obtain ⟨free2, hinv2⟩ := hinv.step OBJECT hstep
      exact ih hinv2 hrun

/-- Every state reached from a constructed pool satisfies the invariant. -/
theorem Inv.reachable {α β : Type} (OBJECT : α → Option β)
    {maxCapacity minCapacity : Nat} {g : Bool} {p : ObjectPool}
    {ops : List (Op α)} {s : Session}
    (hp : ObjectPool.new maxCapacity minCapacity g = .ok p)
    (hrun : Session.run OBJECT (Session.start p) ops = some s) :
    ∃ free, Inv maxCapacity s free :=
  Inv.run OBJECT ops (Inv.start hp) hrun

/-- In a state of the invariant the free list is computed by `freeList`. -/
theorem Inv.freeList {M : Nat} {s : Session} {free : List ChunkAddr} (hinv : Inv M s free) :
    s.pool.freeList = some free := by
  unfold ObjectPool.freeList
  apply walk_of_chain hinv.chain
  have := hinv.total
  omega

theorem walk_length_le {h : Heap} : ∀ {fuel : Nat} {p : ChunkPtr} {l : List ChunkAddr},
    walk h fuel p = some l → l.length ≤ fuel := by
  intro fuel p l hw
  have hc := chain_of_walk hw
  by_contra hlt
  have hlt : fuel < l.length := Nat.lt_of_not_le hlt
  -- a chain longer than the fuel makes the walk stop early
  have key : ∀ (fuel : Nat) (p : ChunkPtr) (l : List ChunkAddr),
      IsChain h p l → fuel < l.length → walk h fuel p = none := by
    intro fuel
    induction fuel with
    | zero =>
      intro p l hc hlt
      cases l with
      | nil => simp at hlt
      | cons a l => rw [hc.1]; rfl
    | succ fuel ih =>
      intro p l hc hlt
      cases l with
      | nil => simp at hlt
      | cons a l =>
        obtain ⟨hp, next, hl, hrest⟩ := hc
        subst hp
        simp only [List.length_cons, Nat.add_lt_add_iff_right] at hlt
        simp [walk, hl, ih next l hrest hlt]
  rw [key fuel p l hc hlt] at hw
  simp at hw

/-- The free list of a pool in terms of the chain and its length. -/
theorem freeList_eq_some_iff {p : ObjectPool} {l : List ChunkAddr} :
    p.freeList = some l ↔
      IsChain p.heap p.firstAvailableChunk l ∧ l.length ≤ Heap.chunkCount p.heap := by
  constructor
  · intro hw
    exact ⟨chain_of_walk hw, walk_length_le hw⟩
  · rintro ⟨hc, hlen⟩
    exact walk_of_chain hc hlen

theorem span_eq_map_range' (c : Nat) : ∀ (cnt k : Nat),
    span c k cnt = (List.range' k cnt).map (fun i => ChunkAddr.mk c i) := by
  intro cnt
  induction cnt with
  | zero => intro k; rfl
  | succ cnt ih => intro k; simp [span, ih, List.range'_succ]

theorem span_eq_map_range (c n : Nat) :
    span c 0 n = (List.range n).map (fun i => ChunkAddr.mk c i) := by
  rw [span_eq_map_range', List.range_eq_range']

/-- A pool with a positive count and a free list of that length: the head of the
list is `firstAvailableChunk`, and the tail is the free list once the head is
unlinked and the count decremented. -/
theorem freeList_head {p : ObjectPool} {free : List ChunkAddr}
    (hcap : 0 < p.capacity) (hwf : p.freeList = some free)
    (hlen : p.capacity = (free.length : Int)) :
    ∃ c rest next, free = c :: rest ∧ p.firstAvailableChunk = some c ∧
      Heap.load p.heap c = some next ∧
      ∀ q : ObjectPool, q.heap = p.heap → q.firstAvailableChunk = next →
        q.freeList = some rest := by
  obtain ⟨hc, hle⟩ := freeList_eq_some_iff.mp hwf
  cases free with
  | nil =>
    simp at hlen
    omega
  | cons c rest =>
    obtain ⟨hp, next, hl, hrest⟩ := hc
    refine ⟨c, rest, next, rfl, hp, hl, ?_⟩
    intro q hq hf
    apply freeList_eq_some_iff.mpr
    rw [hq, hf]
    refine ⟨hrest, ?_⟩
    simp only [List.length_cons] at hle
    omega

/-- The comparison `capacity == minCapacity` (after conversion of the signed
count) agrees with equality of the values while the count is not negative. -/
theorem toSize_eq_iff {c : Int} {m : Nat} (h0 : 0 ≤ c) (h1 : c ≤ SSIZE_MAX) :
    toSize c = m ↔ c = (m : Int) := by
  have hlt : c < 2 ^ 64 := by unfold SSIZE_MAX at h1; omega
  rw [toSize_of_nonneg h0 hlt]
  omega

/-- What the pool constructor builds when its first page is granted memory. -/
theorem ObjectPool.new_built (maxCapacity minCapacity : Nat)
    (hn : maxCapacity ≠ 0) (hfit : maxCapacity ≤ maxChunks) :
    ∃ p, ObjectPool.new maxCapacity minCapacity true = .ok p ∧
      p.pages = [⟨0, maxCapacity⟩] ∧ Heap.shape p.heap = [maxCapacity] ∧
      p.firstAvailableChunk = some ⟨0, 0⟩ ∧
      p.capacity = (maxCapacity : Int) ∧ p.minCapacity = minCapacity ∧
      p.newPageSize = subSize maxCapacity minCapacity ∧
      p.isReplenishNeeded = false ∧ p.isRunning = true := by
  obtain ⟨h1, hpage, hshape, -⟩ := Page.new_granted [] none hn
    (by simpa [Heap.chunkCount, Heap.shape] using hfit)
  have hshape1 : Heap.shape h1 = [maxCapacity] := by
    rw [hshape]; simp [Heap.shape]
  refine ⟨{ heap := h1, pages := [⟨0, maxCapacity⟩], capacity := toSsize maxCapacity,
            firstAvailableChunk := some ⟨0, 0⟩, minCapacity := minCapacity,
            newPageSize := subSize maxCapacity minCapacity, isReplenishNeeded := false,
            isRunning := true }, ?_, rfl, hshape1, rfl, ?_, rfl, rfl, rfl, rfl⟩
  · simp [ObjectPool.new, hpage]
  · show toSsize maxCapacity = _
    apply toSsize_of_lt
    unfold maxChunks at hfit
    omega

/-- A chain is determined by the pointer it starts at. -/
theorem IsChain.unique {h : Heap} : ∀ {l l1 : List ChunkAddr} {p : ChunkPtr},
    IsChain h p l → IsChain h p l1 → l = l1 := by
  intro l
  induction l with
  | nil =>
    intro l1 p hc hc1
    simp only [IsChain] at hc
    subst hc
    cases l1 with
    | nil => rfl
    | cons a l1 => exact absurd hc1.1 (by simp)
  | cons a l ih =>
    intro l1 p hc hc1
    obtain ⟨hp, next, hl, hrest⟩ := hc
    subst hp
    cases l1 with
    | nil => simp [IsChain] at hc1
    | cons b l1 =>
      obtain ⟨hp1, next1, hl1, hrest1⟩ := hc1
      have hab : a = b := Option.some.inj hp1
      subst hab
      rw [hl] at hl1
      have hnext : next = next1 := Option.some.inj hl1
      subst hnext
      rw [ih hrest hrest1]

/-- The part of a chain from one of its chunks on is the chain from that chunk. -/
theorem IsChain.drop {h : Heap} : ∀ {l1 l2 : List ChunkAddr} {a : ChunkAddr} {p : ChunkPtr},
    IsChain h p (l1 ++ a :: l2) → IsChain h (some a) (a :: l2) := by
  intro l1
  induction l1 with
  | nil =>
    intro l2 a p hc
    obtain ⟨-, next, hl, hrest⟩ := hc
    exact ⟨rfl, next, hl, hrest⟩
  | cons b l1 ih =>
    intro l2 a p hc
    obtain ⟨-, next, -, hrest⟩ := hc
    exact ih hrest

/-- A chain that reaches `nullptr` visits no chunk twice. -/
theorem IsChain.nodup {h : Heap} : ∀ {l : List ChunkAddr} {p : ChunkPtr},
    IsChain h p l → l.Nodup := by
  intro l
  induction l with
  | nil => intro p _; exact List.nodup_nil
  | cons a l ih =>
    intro p hc
    have hc0 := hc
    obtain ⟨hp, next, hl, hrest⟩ := hc
    subst hp
    refine List.nodup_cons.mpr ⟨?_, ih hrest⟩
    intro hmem
    obtain ⟨l1, l2, hsplit⟩ := List.append_of_mem hmem
    rw [hsplit] at hrest
    have hsuf := IsChain.drop hrest
    have heq := IsChain.unique hc0 hsuf
    have hlen := congrArg List.length heq
    rw [hsplit] at hlen
    simp at hlen
    omega

theorem allocs_cons {α β : Type} (OBJECT : α → Option β) {p : ObjectPool} {call : Call α}
    {rest : List (Call α)} {r : AllocResult β} {rs : List (AllocResult β)}
    (hr : alloc OBJECT p call.args call.tryLock call.sys = some r)
    (hrs : allocs OBJECT r.pool rest = some rs) :
    allocs OBJECT p (call :: rest) = some (r :: rs) := by
  simp only [allocs, hr, hrs]

/-- Consecutive calls of `alloc` on a pool whose free list is the run of chunks
`k, k+1, ..., k+cnt-1` of one array: call number `i` takes chunk `k+i` while
`i < cnt` and is served by the system allocator afterwards. -/
theorem allocs_of_span {α β : Type} (OBJECT : α → Option β) (c : Nat) :
    ∀ (calls : List (Call α)) (p : ObjectPool) (k cnt : Nat),
    IsChain p.heap p.firstAvailableChunk (span c k cnt) →
    p.capacity = (cnt : Int) → p.capacity ≤ SSIZE_MAX →
    ∃ rs, allocs OBJECT p calls = some rs ∧ rs.length = calls.length ∧
      ∀ (i : Nat) (call : Call α) (r : AllocResult β),
        calls[i]? = some call → rs[i]? = some r →
        (r.pool.heap = p.heap ∧ r.pool.pages = p.pages ∧
          r.pool.minCapacity = p.minCapacity ∧ r.pool.newPageSize = p.newPageSize ∧
          r.pool.isRunning = p.isRunning) ∧
        (i < cnt →
          r.chunkToUse = some ⟨c, k + i⟩ ∧
          r.object = (match OBJECT call.args with
            | none => .error .fromConstructor
            | some obj => .ok (.pool ⟨c, k + i⟩ obj)) ∧
          r.pool.capacity = (cnt : Int) - (i + 1 : Nat) ∧
          (r.isActivateReplenish = true ↔ cnt - (i + 1) = p.minCapacity) ∧
          (r.pool.isReplenishNeeded = true ↔
            p.isReplenishNeeded = true ∨
              (p.minCapacity < cnt ∧ cnt - p.minCapacity ≤ i + 1))) ∧
        (cnt ≤ i →
          r.chunkToUse = none ∧
          r.object = allocateUsingStdAllocator OBJECT call.args call.sys ∧
          r.pool.capacity = 0 ∧ r.isActivateReplenish = false) := by
  intro calls
  induction calls with
  | nil =>
    intro p k cnt _ _ _
    exact ⟨[], rfl, rfl, by intro i call r hc; simp at hc⟩
  | cons call calls ih =>
    intro p k cnt hchain hcap hmax
    cases cnt with
    | zero =>
      -- exhausted: the pool does not change
      have h0 : p.capacity = 0 := by simpa using hcap
      have hal := alloc_of_capacity_zero OBJECT h0 call.args call.tryLock call.sys
      obtain ⟨rs, hrs, hlen, hall⟩ := ih p k 0 hchain hcap hmax
      refine ⟨_ :: rs, allocs_cons OBJECT hal hrs, by simp [hlen], ?_⟩
      intro i call1 r hc hr
      cases i with
      | zero =>
        simp only [List.getElem?_cons_zero, Option.some.injEq] at hc hr
        subst hc hr
        exact ⟨⟨rfl, rfl, rfl, rfl, rfl⟩, by intro h; omega, fun _ => ⟨rfl, rfl, h0, rfl⟩⟩
      | succ i =>
        simp only [List.getElem?_cons_succ] at hc hr
        obtain ⟨h1, -, h5⟩ := hall i call1 r hc hr
        exact ⟨h1, by intro h; omega, fun _ => h5 (Nat.zero_le _)⟩
    | succ cnt =>
      obtain ⟨hf, next, hl, hrest⟩ := hchain
      have h0 : p.capacity ≠ 0 := by rw [hcap]; omega
      have hmin : p.capacity ≠ SSIZE_MIN := by rw [hcap]; unfold SSIZE_MIN; omega
      have hal := alloc_of_head OBJECT h0 hmin hf hl call.args call.tryLock call.sys
      have hflag : toSize (p.capacity - 1) = p.minCapacity ↔ cnt = p.minCapacity := by
        rw [toSize_eq_iff (by omega) (by omega), hcap]
        omega
      obtain ⟨rs, hrs, hlen, hall⟩ := ih
        { p with
          capacity := p.capacity - 1
          firstAvailableChunk := next
          isReplenishNeeded :=
            p.isReplenishNeeded || decide (toSize (p.capacity - 1) = p.minCapacity) }
        (k + 1) cnt hrest (by show p.capacity - 1 = (cnt : Int); rw [hcap]; omega)
        (by show p.capacity - 1 ≤ SSIZE_MAX; omega)
      refine ⟨_ :: rs, allocs_cons OBJECT hal hrs, by simp [hlen], ?_⟩
      intro i call1 r hc hr
      cases i with
      | zero =>
        simp only [List.getElem?_cons_zero, Option.some.injEq] at hc hr
        subst hc hr
        refine ⟨⟨rfl, rfl, rfl, rfl, rfl⟩, fun _ => ⟨rfl, rfl, ?_, ?_, ?_⟩, by intro h; omega⟩
        · show p.capacity - 1 = _
          rw [hcap]; push_cast; omega
        · simp only [decide_eq_true_eq]
          rw [hflag]; omega
        · simp only [Bool.or_eq_true, decide_eq_true_eq]
          rw [hflag]
          constructor
          · rintro (h | h)
            · exact Or.inl h
            · exact Or.inr (by omega)
          · rintro (h | h)
            · exact Or.inl h
            · exact Or.inr (by omega)
      | succ i =>
        simp only [List.getElem?_cons_succ] at hc hr
        obtain ⟨h1, h4, h5⟩ := hall i call1 r hc hr
        refine ⟨h1, ?_, ?_⟩
        · intro hi
          obtain ⟨g1, g2, g3, g4, g5⟩ := h4 (by omega)
          have e1 : k + 1 + i = k + (i + 1) := by omega
          rw [e1] at g1 g2
          refine ⟨g1, g2, ?_, ?_, ?_⟩
          · rw [g3]; push_cast; omega
          · rw [g4]
            show cnt - (i + 1) = p.minCapacity ↔ cnt + 1 - (i + 1 + 1) = p.minCapacity
            omega
          · rw [g5]
            show (p.isReplenishNeeded || decide (toSize (p.capacity - 1) = p.minCapacity)) = true ∨
              (p.minCapacity < cnt ∧ cnt - p.minCapacity ≤ i + 1) ↔ _
            simp only [Bool.or_eq_true, decide_eq_true_eq]
            rw [hflag]
            constructor
            · rintro ((h | h) | h)
              · exact Or.inl h
              · exact Or.inr (by omega)
              · exact Or.inr (by omega)
            · rintro (h | h)
              · exact Or.inl (Or.inl h)
              · by_cases hcm : cnt = p.minCapacity
                · exact Or.inl (Or.inr hcm)
                · exact Or.inr (by omega)
        · intro hi
          exact h5 (by omega)

/-- A call of `alloc` changes neither the store, the pages, the two constants
nor the running flag. -/
theorem alloc_frame {α β : Type} (OBJECT : α → Option β) {p : ObjectPool} {args : α}
    {tryLock : Bool} {sys : Option Nat} {r : AllocResult β}
    (hr : alloc OBJECT p args tryLock sys = some r) :
    r.pool.heap = p.heap ∧ r.pool.pages = p.pages ∧ r.pool.minCapacity = p.minCapacity ∧
      r.pool.newPageSize = p.newPageSize ∧ r.pool.isRunning = p.isRunning := by
  by_cases h0 : p.capacity = 0
  · rw [alloc_of_capacity_zero OBJECT h0] at hr
    simp only [Option.some.injEq] at hr
    subst hr
    exact ⟨rfl, rfl, rfl, rfl, rfl⟩
  · by_cases hmin : p.capacity = SSIZE_MIN
    · unfold alloc at hr
      rw [if_neg h0, if_neg h0, if_pos hmin] at hr
      cases hr
    · cases hf : p.firstAvailableChunk with
      | none => simp [alloc, h0, hmin, hf] at hr
      | some c =>
        cases hl : Heap.load p.heap c with
        | none => simp [alloc, h0, hmin, hf, hl] at hr
        | some next =>
          rw [alloc_of_head OBJECT h0 hmin hf hl] at hr
          simp only [Option.some.injEq] at hr
          subst hr
          exact ⟨rfl, rfl, rfl, rfl, rfl⟩

/-- No step of a run changes the two constants or the running flag. -/
theorem Session.step_const {α β : Type} (OBJECT : α → Option β) {s s1 : Session} {op : Op α}
    (hstep : Session.step OBJECT s op = some s1) :
    s1.pool.minCapacity = s.pool.minCapacity ∧ s1.pool.newPageSize = s.pool.newPageSize ∧
      s1.pool.isRunning = s.pool.isRunning := by
  cases op with
  | alloc args tryLock sys =>
    cases hr : alloc OBJECT s.pool args tryLock sys with
    | none => simp [Session.step, hr] at hstep
    | some r =>
      obtain ⟨-, -, h3, h4, h5⟩ := alloc_frame OBJECT hr
      simp only [Session.step, hr] at hstep
      split at hstep <;> simp only [Option.some.injEq] at hstep <;> subst hstep <;>
        exact ⟨h3, h4, h5⟩
  | release c =>
    by_cases hc : c ∈ s.live
    · cases hd : dealloc s.pool c with
      | none => simp [Session.step, hc, hd] at hstep
      | some p1 =>
        simp [Session.step, hc, hd] at hstep
        subst hstep
        obtain ⟨h1, -, -, rfl⟩ := dealloc_some hd
        exact ⟨rfl, rfl, rfl⟩
    · simp [Session.step, hc] at hstep
  | grow g =>
    cases hw : poolReplenishWorker s.pool g with
    | parked => simp [Session.step, hw] at hstep
    | exited p => simp [Session.step, hw] at hstep
    | failed f p => simp [Session.step, hw] at hstep
    | grew p1 =>
      simp [Session.step, hw] at hstep
      subst hstep
      obtain ⟨-, -, h3, h4, -, -, rfl⟩ := poolReplenishWorker_grew hw
      exact ⟨rfl, rfl, rfl⟩

/-- No run changes the two constants or the running flag. -/
theorem Session.run_const {α β : Type} (OBJECT : α → Option β) :
    ∀ (ops : List (Op α)) {s s1 : Session}, Session.run OBJECT s ops = some s1 →
    s1.pool.minCapacity = s.pool.minCapacity ∧ s1.pool.newPageSize = s.pool.newPageSize ∧
      s1.pool.isRunning = s.pool.isRunning := by
  intro ops
  induction ops with
  | nil =>
    intro s s1 hrun
    simp [Session.run] at hrun
    subst hrun
    exact ⟨rfl, rfl, rfl⟩
  | cons op ops ih =>
    intro s s1 hrun
    cases hstep : Session.step OBJECT s op with
    | none => simp [Session.run, hstep] at hrun
    | some s2 =>
      simp [Session.run, hstep] at hrun
      obtain ⟨a1, a2, a3⟩ := Session.step_const OBJECT hstep
      obtain ⟨b1, b2, b3⟩ := ih hrun
      exact ⟨b1.trans a1, b2.trans a2, b3.trans a3⟩

/-- The pool right after construction is set up for `allocs_of_span`. -/
theorem ObjectPool.new_chain {maxCapacity minCapacity : Nat} {g : Bool} {p : ObjectPool}
    (hp : ObjectPool.new maxCapacity minCapacity g = .ok p) :
    IsChain p.heap p.firstAvailableChunk (span 0 0 maxCapacity) ∧
      p.capacity = (maxCapacity : Int) ∧ p.capacity ≤ SSIZE_MAX := by
  have hinv := Inv.start hp
  have hcount : p.capacity = ((span 0 0 maxCapacity).length : Int) := hinv.count
  rw [length_span] at hcount
  have hb := hinv.capacity_bounds
  refine ⟨hinv.chain, hcount, ?_⟩
  have : (Session.start p).pool.capacity ≤ (maxChunks : Int) := by omega
  have h2 : p.capacity ≤ (maxChunks : Int) := this
  unfold maxChunks at h2
  unfold SSIZE_MAX
  omega

/-- A worker iteration whose page is built and spliced, in closed form. -/
theorem poolReplenishWorker_of_page {p : ObjectPool} {g : Bool} {h3 h4 : Heap}
    (hneed : p.isReplenishNeeded = true) (hrun : p.isRunning = true)
    (hpage : Page.new p.heap p.newPageSize none g = .ok (⟨p.heap.length, p.newPageSize⟩, h3))
    (hs : Heap.store h3 ⟨p.heap.length, p.newPageSize - 1⟩ p.firstAvailableChunk = some h4) :
    poolReplenishWorker p g = .grew
      { p with
        isReplenishNeeded := false
        heap := h4
        pages := ⟨p.heap.length, p.newPageSize⟩ :: p.pages
        capacity := toSsize (toSize p.capacity + p.newPageSize)
        firstAvailableChunk := some ⟨p.heap.length, 0⟩ } := by
  simp [poolReplenishWorker, hneed, hrun, hpage, hs]

/-- Every chunk of a chain has a determinate link. -/
theorem IsChain.load_of_mem {h : Heap} : ∀ {l : List ChunkAddr} {p : ChunkPtr},
    IsChain h p l → ∀ a ∈ l, ∃ v, Heap.load h a = some v := by
  intro l
  induction l with
  | nil => intro p _ a ha; simp at ha
  | cons b l ih =>
    intro p hc a ha
    obtain ⟨-, next, hl, hrest⟩ := hc
    rcases List.mem_cons.mp ha with rfl | ha
    · exact ⟨next, hl⟩
    · exact ih hrest a ha

/-- A chunk with a link is a chunk of an array of the store. -/
theorem Heap.page_lt_of_load {h : Heap} {a : ChunkAddr} {v : ChunkPtr}
    (hl : Heap.load h a = some v) : a.page < h.length := by
  unfold Heap.load Heap.cell at hl
  cases harr : h[a.page]? with
  | none => simp [harr] at hl
  | some arr => exact (List.getElem?_eq_some_iff.mp harr).1

theorem list_set_of_getElem? {γ : Type} {l : List γ} {i : Nat} {a : γ}
    (h : l[i]? = some a) : l.set i a = l := by
  apply List.ext_getElem?
  intro j
  rw [List.getElem?_set]
  by_cases hij : i = j
  · subst hij
    simp [h, (List.getElem?_eq_some_iff.mp h).1]
  · simp [hij]

/-- Storing in a chunk the link it already has leaves the store as it is. -/
theorem Heap.store_load_self {h : Heap} {a : ChunkAddr} {v : ChunkPtr}
    (hl : Heap.load h a = some v) : Heap.store h a v = some h := by
  unfold Heap.load Heap.cell at hl
  cases harr : h[a.page]? with
  | none => simp [harr] at hl
  | some arr =>
    simp only [harr, Option.some_bind] at hl
    cases hcell : arr[a.idx]? with
    | none => simp [hcell] at hl
    | some cell =>
      simp only [hcell, Option.join] at hl
      have hcell1 : arr[a.idx]? = some (some v) := by
        rw [hcell]
        cases cell with
        | none => simp at hl
        | some w => simp at hl; rw [hl]
      have hidx := (List.getElem?_eq_some_iff.mp hcell1).1
      have e1 : arr.set a.idx (some v) = arr := list_set_of_getElem? hcell1
      have e2 : h.set a.page arr = h := list_set_of_getElem? harr
      simp [Heap.store, harr, hidx, e1, e2]

/-- Following the links inside a prelinked array. -/
theorem Heap.follow_span {h : Heap} {c n : Nat}
    (hlink : ∀ i, i + 1 < n → Heap.load h ⟨c, i⟩ = some (some ⟨c, i + 1⟩)) :
    ∀ (i j : Nat), j + i < n →
      Heap.follow h i (some ⟨c, j⟩) = some (some ⟨c, j + i⟩) := by
  intro i
  induction i with
  | zero => intro j _; rfl
  | succ i ih =>
    intro j hj
    have := ih (j + 1) (by omega)
    simp only [Heap.follow, hlink j (by omega), Option.some_bind, this]
    congr 3
    omega

/-- Following the links of a prelinked array to its end. -/
theorem Heap.follow_span_end {h : Heap} {c n : Nat} {t : ChunkPtr}
    (hlink : ∀ i, i + 1 < n → Heap.load h ⟨c, i⟩ = some (some ⟨c, i + 1⟩))
    (hlast : Heap.load h ⟨c, n - 1⟩ = some t) :
    ∀ (i j : Nat), j + i = n → 0 < i →
      Heap.follow h i (some ⟨c, j⟩) = some t := by
  intro i
  induction i with
  | zero => intro j _ h0; omega
  | succ i ih =>
    intro j hj _
    by_cases hi : i = 0
    · subst hi
      have hjn : j = n - 1 := by omega
      subst hjn
      simp [Heap.follow, hlast]
    · simp only [Heap.follow, hlink j (by omega), Option.some_bind]
      exact ih (j + 1) (by omega) (by omega)

/-! ## Interleavings of the threads -/

theorem Machine.goto_clients_self {s : Machine} {t : Nat} (pc : Pc)
    (ht : t < s.clients.length) : (s.goto t pc).clients[t]? = some pc := by
  simp [Machine.goto, List.getElem?_set, ht]

theorem Machine.goto_clients_other {s : Machine} {t u : Nat} (pc : Pc) (h : u ≠ t) :
    (s.goto t pc).clients[u]? = s.clients[u]? := by
  simp [Machine.goto, List.getElem?_set_ne (Ne.symm h)]

/-- Replacing the statement of one client changes the chunks in hand by what
the two statements hold. -/
theorem count_held_set (x : ChunkAddr) : ∀ (l : List Pc) (t : Nat) (pc pc1 : Pc),
    l[t]? = some pc →
    List.count x ((l.set t pc1).filterMap Pc.holds) + List.count x pc.holds.toList =
      List.count x (l.filterMap Pc.holds) + List.count x pc1.holds.toList := by
  intro l
  induction l with
  | nil => intro t pc pc1 h; simp at h
  | cons a l ih =>
    intro t pc pc1 h
    cases t with
    | zero =>
      simp only [List.getElem?_cons_zero, Option.some.injEq] at h
      subst h
      simp only [List.set_cons_zero, List.filterMap_cons]
      cases ha : a.holds <;> cases hb : pc1.holds <;>
        (simp [List.count_cons]; try omega)
    | succ t =>
      simp only [List.getElem?_cons_succ] at h
      have := ih t pc pc1 h
      simp only [List.set_cons_succ, List.filterMap_cons]
      cases ha : a.holds
      · simpa using this
      · simp only [List.count_cons]
        omega

theorem Machine.count_held_goto (s : Machine) (x : ChunkAddr) {t : Nat} {pc : Pc} (pc1 : Pc)
    (h : s.clients[t]? = some pc) :
    List.count x (s.goto t pc1).held + List.count x pc.holds.toList =
      List.count x s.held + List.count x pc1.holds.toList :=
  count_held_set x s.clients t pc pc1 h

theorem clientPhase_congr {p p1 : ObjectPool} {free : List ChunkAddr} {pc : Pc}
    (hcap : p1.capacity = p.capacity)
    (hfirst : p1.firstAvailableChunk = p.firstAvailableChunk)
    (hload : ∀ c, pc.holds = some c → Heap.load p1.heap c = Heap.load p.heap c)
    (h : clientPhase p free pc) : clientPhase p1 free pc := by
  cases pc <;> simp only [clientPhase] at h ⊢ <;> (try rw [hcap]) <;> (try rw [hfirst]) <;>
    (try exact h)
  case deallocHead c =>
    rw [hload c rfl]
    exact h

theorem workerPhase_congr {p p1 : ObjectPool} {free : List ChunkAddr} {w : WorkerPc}
    (hcap : p1.capacity = p.capacity)
    (hfirst : p1.firstAvailableChunk = p.firstAvailableChunk)
    (hnps : p1.newPageSize = p.newPageSize)
    (hheap : p1.heap = p.heap)
    (h : workerPhase p free w) : workerPhase p1 free w := by
  cases w <;> simp only [workerPhase] at h ⊢ <;> (try rw [hcap]) <;> (try rw [hfirst]) <;>
    (try rw [hnps]) <;> (try rw [hheap]) <;> exact h

/-- The chunks, counted, when one client changes its statement and the worker
does not move. -/
theorem Machine.count_chunks_client {s s1 : Machine} {t : Nat} {pc pc1 : Pc}
    {free free1 : List ChunkAddr} (x : ChunkAddr)
    (hpc : s.clients[t]? = some pc)
    (hclients : s1.clients = s.clients.set t pc1)
    (hunspliced : s1.unspliced = s.unspliced) :
    List.count x (s1.chunks free1) + List.count x free + List.count x s.live +
        List.count x s.lost + List.count x pc.holds.toList =
      List.count x (s.chunks free) + List.count x free1 + List.count x s1.live +
        List.count x s1.lost + List.count x pc1.holds.toList := by
  have h := count_held_set x s.clients t pc pc1 hpc
  simp only [Machine.chunks, Machine.held, List.count_append, hclients, hunspliced]
  omega

/-- Ownership facts carry over to a state with the same chunks in a store of
the same shape. -/
theorem MInv.ownership {s s1 : Machine} {holder : Option Actor} {free free1 : List ChunkAddr}
    (hinv : MInv s holder free)
    (hperm : (s1.chunks free1).Perm (s.chunks free))
    (hshape : Heap.shape s1.pool.heap = Heap.shape s.pool.heap) :
    (s1.chunks free1).Nodup ∧ (∀ a ∈ s1.chunks free1, Heap.valid s1.pool.heap a) ∧
      (s1.chunks free1).length = Heap.chunkCount s1.pool.heap ∧
      Heap.chunkCount s1.pool.heap ≤ maxChunks := by
  have hcc := Heap.chunkCount_of_shape hshape
  refine ⟨hperm.nodup_iff.mpr hinv.nodup, ?_, ?_, ?_⟩
  · intro a ha
    exact Heap.valid_of_shape hshape (hinv.valid a (hperm.mem_iff.mp ha))
  · rw [hperm.length_eq, hcc]; exact hinv.total
  · rw [hcc]; exact hinv.bound

theorem Heap.length_of_shape {h h1 : Heap} (hsh : Heap.shape h1 = Heap.shape h) :
    h1.length = h.length := by
  have := congrArg List.length hsh
  simpa [Heap.shape] using this

/-- A step of client `t` keeps the invariant, given what it does to the lock,
the free list and the chunks. -/
theorem MInv.client_step {s s1 : Machine} {holder holder1 : Option Actor}
    {free free1 : List ChunkAddr} {t : Nat} {pc pc1 : Pc}
    (hinv : MInv s holder free)
    (hpc : s.clients[t]? = some pc)
    (hclients : s1.clients = s.clients.set t pc1)
    (hworker : s1.worker = s.worker)
    (hflag : s1.flag = holder1.isSome)
    (hself : pc1.locked = true ↔ holder1 = some (.client t))
    (hothers : ∀ b, b ≠ .client t → (holder1 = some b ↔ holder = some b))
    (hshape : Heap.shape s1.pool.heap = Heap.shape s.pool.heap)
    (hnps : s1.pool.newPageSize = s.pool.newPageSize)
    (hpages : s1.pool.pages = s.pool.pages)
    (hchain : IsChain s1.pool.heap s1.pool.firstAvailableChunk free1)
    (hcount : ∀ x, List.count x free1 + List.count x s1.live + List.count x s1.lost +
        List.count x pc1.holds.toList =
      List.count x free + List.count x s.live + List.count x s.lost +
        List.count x pc.holds.toList)
    (hphase : s1.phase holder1 free1)
    (hlinks : s.worker.fresh = true → ∀ i, i + 1 < s.pool.newPageSize →
      Heap.load s1.pool.heap ⟨s.pool.heap.length - 1, i⟩ =
        Heap.load s.pool.heap ⟨s.pool.heap.length - 1, i⟩) :
    MInv s1 holder1 free1 := by
  have hlen := Heap.length_of_shape hshape
  have htl : t < s.clients.length := (List.getElem?_eq_some_iff.mp hpc).1
  have hunsp : s1.unspliced = s.unspliced := by
    simp only [Machine.unspliced, hworker, hlen, hnps]
  have hperm : (s1.chunks free1).Perm (s.chunks free) := by
    rw [List.perm_iff_count]
    intro x
    have h1 : List.count x (s1.chunks free1) + List.count x free + List.count x s.live +
        List.count x s.lost + List.count x pc.holds.toList =
      List.count x (s.chunks free) + List.count x free1 + List.count x s1.live +
        List.count x s1.lost + List.count x pc1.holds.toList :=
      Machine.count_chunks_client x hpc hclients hunsp
    have h2 := hcount x
    omega
  obtain ⟨o1, o2, o3, o4⟩ := hinv.ownership hperm hshape
  refine ⟨hflag, ?_, ?_, hchain, o1, o2, o3, o4, hphase, ?_⟩
  · intro u pcu hu
    by_cases hut : u = t
    · subst hut
      rw [hclients, List.getElem?_set_self htl] at hu
      cases hu
      exact hself
    · rw [hclients, List.getElem?_set_ne (Ne.symm hut)] at hu
      rw [hinv.clientLock u pcu hu]
      exact (hothers (.client u) (by simpa using hut)).symm
  · rw [hworker, hinv.workerLock]
    exact (hothers .worker (by simp)).symm
  · intro hf
    rw [hworker] at hf
    have hfp := hinv.fresh hf
    refine ⟨by rw [hnps]; exact hfp.size, ?_, by rw [hpages, hlen, hnps]; exact hfp.front, ?_⟩
    · intro he
      have := hfp.store
      rw [he] at hlen
      exact this (List.length_eq_zero.mp hlen.symm)
    · intro i hi
      rw [hnps] at hi
      rw [hlen, hlinks hf i hi]
      exact hfp.links i hi

/-- The phase is untouched by a step that leaves the count, the head, the store
and the holder's statement alone. -/
theorem Machine.phase_of_frame {s s1 : Machine} {holder : Option Actor}
    {free : List ChunkAddr} (h : s.phase holder free)
    (hcap : s1.pool.capacity = s.pool.capacity)
    (hfirst : s1.pool.firstAvailableChunk = s.pool.firstAvailableChunk)
    (hnps : s1.pool.newPageSize = s.pool.newPageSize)
    (hheap : s1.pool.heap = s.pool.heap)
    (hworker : holder = some .worker → s1.worker = s.worker)
    (hcl : ∀ u, holder = some (.client u) → s1.clients[u]? = s.clients[u]?) :
    s1.phase holder free := by
  cases holder with
  | none =>
    simp only [Machine.phase] at h ⊢
    rw [hcap]; exact h
  | some a =>
    cases a with
    | client u =>
      simp only [Machine.phase] at h ⊢
      obtain ⟨pc, hpc, hph⟩ := h
      refine ⟨pc, by rw [hcl u rfl]; exact hpc, ?_⟩
      exact clientPhase_congr hcap hfirst (fun c _ => by rw [hheap]) hph
    | worker =>
      simp only [Machine.phase] at h ⊢
      rw [hworker rfl]
      exact workerPhase_congr hcap hfirst hnps hheap h

/-- What the invariant says about a client inside its critical section. -/
theorem MInv.of_locked {s : Machine} {holder : Option Actor} {free : List ChunkAddr}
    {t : Nat} {pc : Pc} (hinv : MInv s holder free)
    (hpc : s.clients[t]? = some pc) (hl : pc.locked = true) :
    holder = some (.client t) ∧ clientPhase s.pool free pc := by
  have hh := (hinv.clientLock t pc hpc).mp hl
  refine ⟨hh, ?_⟩
  have hph := hinv.phase
  rw [hh] at hph
  simp only [Machine.phase] at hph
  obtain ⟨pc0, hpc0, hph0⟩ := hph
  rw [hpc] at hpc0
  cases hpc0
  exact hph0

/-- A client outside its critical section does not hold the lock. -/
theorem MInv.not_holder {s : Machine} {holder : Option Actor} {free : List ChunkAddr}
    {t : Nat} {pc : Pc} (hinv : MInv s holder free)
    (hpc : s.clients[t]? = some pc) (hl : pc.locked = false) :
    holder ≠ some (.client t) := by
  intro hh
  have := (hinv.clientLock t pc hpc).mpr hh
  rw [hl] at this
  cases this

/-- A step of a client outside the critical sections that touches neither the
lock, the count, the head nor the store. -/
theorem MInv.client_unlocked {s s1 : Machine} {holder : Option Actor}
    {free : List ChunkAddr} {t : Nat} {pc pc1 : Pc}
    (hinv : MInv s holder free)
    (hpc : s.clients[t]? = some pc)
    (hl : pc.locked = false) (hl1 : pc1.locked = false)
    (hclients : s1.clients = s.clients.set t pc1)
    (hworker : s1.worker = s.worker)
    (hflag : s1.flag = s.flag)
    (hcap : s1.pool.capacity = s.pool.capacity)
    (hfirst : s1.pool.firstAvailableChunk = s.pool.firstAvailableChunk)
    (hheap : s1.pool.heap = s.pool.heap)
    (hnps : s1.pool.newPageSize = s.pool.newPageSize)
    (hpages : s1.pool.pages = s.pool.pages)
    (hcount : ∀ x, List.count x s1.live + List.count x s1.lost +
        List.count x pc1.holds.toList =
      List.count x s.live + List.count x s.lost + List.count x pc.holds.toList) :
    MInv s1 holder free := by
  have hnot := hinv.not_holder hpc hl
  refine hinv.client_step hpc hclients hworker (by rw [hflag]; exact hinv.flag) ?_
    (fun _ _ => Iff.rfl) (by rw [hheap]) hnps hpages ?_ ?_ ?_ ?_
  · rw [hl1]
    constructor
    · intro h; cases h
    · intro h; exact absurd h hnot
  · rw [hheap, hfirst]; exact hinv.chain
  · intro x
    have := hcount x
    omega
  · refine Machine.phase_of_frame hinv.phase hcap hfirst hnps hheap (fun _ => hworker) ?_
    intro u hu
    have hut : u ≠ t := by
      intro h
      subst h
      exact hnot hu
    rw [hclients, List.getElem?_set_ne (Ne.symm hut)]
  · intro _ i _
    rw [hheap]

/-- A client takes the free spin lock. -/
theorem MInv.client_acquire {s s1 : Machine} {holder : Option Actor}
    {free : List ChunkAddr} {t : Nat} {pc pc1 : Pc}
    (hinv : MInv s holder free)
    (hpc : s.clients[t]? = some pc)
    (hfree : s.flag = false)
    (hl1 : pc1.locked = true)
    (hholds : pc1.holds = pc.holds)
    (hclients : s1.clients = s.clients.set t pc1)
    (hworker : s1.worker = s.worker)
    (hflag : s1.flag = true)
    (hpool : s1.pool = s.pool) (hlive : s1.live = s.live) (hlost : s1.lost = s.lost)
    (hph : s.pool.capacity = (free.length : Int) → clientPhase s.pool free pc1) :
    MInv s1 (some (.client t)) free := by
  have hnone : holder = none := by
    have := hinv.flag
    rw [hfree] at this
    cases holder with
    | none => rfl
    | some a => simp at this
  subst hnone
  have htl : t < s.clients.length := (List.getElem?_eq_some_iff.mp hpc).1
  refine hinv.client_step hpc hclients hworker (by rw [hflag]; rfl) ?_ ?_
    (by rw [hpool]) (by rw [hpool]) (by rw [hpool]) (by rw [hpool]; exact hinv.chain) ?_ ?_ ?_
  · rw [hl1]; simp
  · intro b hb
    constructor
    · intro h
      exact absurd (Option.some.inj h).symm hb
    · intro h; cases h
  · intro x
    rw [hlive, hlost, hholds]
  · simp only [Machine.phase]
    refine ⟨pc1, by rw [hclients, List.getElem?_set_self htl], ?_⟩
    rw [hpool]
    exact hph hinv.phase
  · intro _ i _
    rw [hpool]

/-- A client spins on the taken lock: `test_and_set` leaves the flag set. -/
theorem MInv.spin {s : Machine} {holder : Option Actor} {free : List ChunkAddr}
    (hinv : MInv s holder free) (hset : s.flag = true) :
    MInv s.testAndSet.2 holder free := by
  have : s.testAndSet.2 = s := by
    cases s
    simp only [Machine.testAndSet]
    simp only at hset
    rw [hset]
  rw [this]
  exact hinv

/-- A step of the client that holds the lock, inside its critical section. -/
theorem MInv.client_locked {s s1 : Machine} {holder : Option Actor}
    {free free1 : List ChunkAddr} {t : Nat} {pc pc1 : Pc}
    (hinv : MInv s holder free)
    (hpc : s.clients[t]? = some pc)
    (hl : pc.locked = true) (hl1 : pc1.locked = true)
    (hclients : s1.clients = s.clients.set t pc1)
    (hworker : s1.worker = s.worker)
    (hflag : s1.flag = s.flag)
    (hshape : Heap.shape s1.pool.heap = Heap.shape s.pool.heap)
    (hnps : s1.pool.newPageSize = s.pool.newPageSize)
    (hpages : s1.pool.pages = s.pool.pages)
    (hchain : IsChain s1.pool.heap s1.pool.firstAvailableChunk free1)
    (hcount : ∀ x, List.count x free1 + List.count x s1.live + List.count x s1.lost +
        List.count x pc1.holds.toList =
      List.count x free + List.count x s.live + List.count x s.lost +
        List.count x pc.holds.toList)
    (hph : clientPhase s1.pool free1 pc1)
    (hlinks : s.worker.fresh = true → ∀ i, i + 1 < s.pool.newPageSize →
      Heap.load s1.pool.heap ⟨s.pool.heap.length - 1, i⟩ =
        Heap.load s.pool.heap ⟨s.pool.heap.length - 1, i⟩) :
    MInv s1 holder free1 := by
  obtain ⟨hh, -⟩ := hinv.of_locked hpc hl
  have htl : t < s.clients.length := (List.getElem?_eq_some_iff.mp hpc).1
  refine hinv.client_step hpc hclients hworker (by rw [hflag]; exact hinv.flag) ?_
    (fun _ _ => Iff.rfl) hshape hnps hpages hchain hcount ?_ hlinks
  · rw [hl1, hh]; simp
  · rw [hh]
    simp only [Machine.phase]
    exact ⟨pc1, by rw [hclients, List.getElem?_set_self htl], hph⟩

/-- The client that holds the lock leaves its critical section. -/
theorem MInv.client_release {s s1 : Machine} {holder : Option Actor}
    {free : List ChunkAddr} {t : Nat} {pc pc1 : Pc}
    (hinv : MInv s holder free)
    (hpc : s.clients[t]? = some pc)
    (hl : pc.locked = true) (hl1 : pc1.locked = false)
    (hholds : pc1.holds = pc.holds)
    (hclients : s1.clients = s.clients.set t pc1)
    (hworker : s1.worker = s.worker)
    (hflag : s1.flag = false)
    (hpool : s1.pool = s.pool) (hlive : s1.live = s.live) (hlost : s1.lost = s.lost)
    (hph : clientPhase s.pool free pc → s.pool.capacity = (free.length : Int)) :
    MInv s1 none free := by
  obtain ⟨hh, hph0⟩ := hinv.of_locked hpc hl
  refine hinv.client_step hpc hclients hworker (by rw [hflag]; rfl) ?_ ?_
    (by rw [hpool]) (by rw [hpool]) (by rw [hpool]) (by rw [hpool]; exact hinv.chain) ?_ ?_ ?_
  · rw [hl1]; simp
  · intro b hb
    rw [hh]
    constructor
    · intro h; cases h
    · intro h
      exact absurd (Option.some.inj h).symm hb
  · intro x
    rw [hlive, hlost, hholds]
  · simp only [Machine.phase]
    rw [hpool]
    exact hph hph0
  · intro _ i _
    rw [hpool]

theorem Machine.mem_held {s : Machine} {t : Nat} {pc : Pc} {c : ChunkAddr}
    (hpc : s.clients[t]? = some pc) (hc : pc.holds = some c) : c ∈ s.held := by
  unfold Machine.held
  rw [List.mem_filterMap]
  obtain ⟨ht, hget⟩ := List.getElem?_eq_some_iff.mp hpc
  exact ⟨pc, hget ▸ List.getElem_mem ht, hc⟩

/-- A chunk in the hand of a client is neither on the free list nor in the
page the worker is about to splice. -/
theorem MInv.held_apart {s : Machine} {holder : Option Actor} {free : List ChunkAddr}
    {c : ChunkAddr} (hinv : MInv s holder free) (hc : c ∈ s.held) :
    c ∉ free ∧ c ∉ s.unspliced := by
  have hnd := hinv.nodup
  unfold Machine.chunks at hnd
  constructor
  · intro hf
    have := (List.nodup_append.mp hnd).2.2 hf
    exact this (List.mem_append_right _ (List.mem_append_right _ (List.mem_append_left _ hc)))
  · intro hu
    have h1 := (List.nodup_append.mp hnd).2.1
    have h2 := (List.nodup_append.mp h1).2.1
    have h3 := (List.nodup_append.mp h2).2.1
    exact (List.nodup_append.mp h3).2.2 hc hu

/-- Unlocking `replenishMutex` changes nothing but its owner. -/
theorem Machine.unlockMutex_some {s s1 : Machine} {a : Actor}
    (h : s.unlockMutex a = some s1) : s1 = { s with replenishMutex := none } := by
  unfold Machine.unlockMutex at h
  split at h
  · exact (Option.some.inj h).symm
  · cases h

/-- Every step of a client keeps the invariant. -/
theorem MInv.clientStep {s s1 : Machine} {holder : Option Actor} {free : List ChunkAddr}
    {t : Nat} {pc : Pc} {e : Env} (hinv : MInv s holder free)
    (hpc : s.clients[t]? = some pc) (hstep : s.clientStep t e pc = .next s1) :
    ∃ holder1 free1, MInv s1 holder1 free1 := by
  cases pc with
  | idle =>
    cases hrel : e.release with
    | none =>
      simp only [Machine.clientStep, hrel, Outcome.next.injEq] at hstep
      subst hstep
      exact ⟨holder, free, hinv.client_unlocked hpc (by rfl) (by rfl) rfl rfl rfl rfl rfl rfl rfl rfl
        (fun _ => rfl)⟩
    | some c =>
      simp only [Machine.clientStep, hrel] at hstep
      split at hstep
      · rename_i hc
        simp only [Outcome.next.injEq] at hstep
        subst hstep
        refine ⟨holder, free, hinv.client_unlocked hpc (by rfl) (by rfl) rfl rfl rfl rfl rfl rfl rfl rfl ?_⟩
        intro x
        have := (List.perm_cons_erase hc).count_eq x
        show List.count x (s.live.erase c) + List.count x s.lost + List.count x [c] = _
        simp only [Pc.holds, Option.toList, List.count_nil, List.count_cons] at this ⊢
        omega
      · cases hstep
  | allocTest =>
    simp only [Machine.clientStep] at hstep
    split at hstep <;> simp only [Outcome.next.injEq] at hstep <;> subst hstep <;>
      exact ⟨holder, free, hinv.client_unlocked hpc (by rfl) (by rfl) rfl rfl rfl rfl rfl rfl rfl rfl
        (fun _ => rfl)⟩
  | allocLock =>
    simp only [Machine.clientStep] at hstep
    split at hstep
    · rename_i hset
      simp only [Outcome.next.injEq] at hstep
      subst hstep
      exact ⟨holder, free, hinv.spin hset⟩
    · rename_i hset
      simp only [Outcome.next.injEq] at hstep
      subst hstep
      have hfree : s.flag = false := by simpa [Machine.testAndSet] using hset
      exact ⟨_, free, hinv.client_acquire hpc hfree (by rfl) (by rfl) rfl rfl rfl rfl rfl rfl
        (fun h => h)⟩
  | allocRetest =>
    obtain ⟨-, hph⟩ := hinv.of_locked hpc rfl
    simp only [clientPhase] at hph
    simp only [Machine.clientStep] at hstep
    split at hstep
    · simp only [Outcome.next.injEq] at hstep
      subst hstep
      exact ⟨holder, free, hinv.client_locked hpc (by rfl) (by rfl) rfl rfl rfl rfl rfl rfl hinv.chain
        (fun _ => rfl) hph (fun _ _ _ => rfl)⟩
    · rename_i h0
      simp only [Outcome.next.injEq] at hstep
      subst hstep
      exact ⟨holder, free, hinv.client_locked hpc (by rfl) (by rfl) rfl rfl rfl rfl rfl rfl hinv.chain
        (fun _ => rfl) ⟨hph, h0⟩ (fun _ _ _ => rfl)⟩
  | allocDec =>
    obtain ⟨-, hph⟩ := hinv.of_locked hpc rfl
    simp only [clientPhase] at hph
    simp only [Machine.clientStep] at hstep
    split at hstep
    · cases hstep
    · simp only [Outcome.next.injEq] at hstep
      subst hstep
      refine ⟨holder, free, hinv.client_locked hpc (by rfl) (by rfl) rfl rfl rfl rfl rfl rfl hinv.chain
        (fun _ => rfl) ?_ (fun _ _ _ => rfl)⟩
      show s.pool.capacity - 1 + 1 = _ ∧ 0 ≤ s.pool.capacity - 1
      omega
  | allocCmp =>
    obtain ⟨-, hph⟩ := hinv.of_locked hpc rfl
    simp only [Machine.clientStep, Outcome.next.injEq] at hstep
    subst hstep
    exact ⟨holder, free, hinv.client_locked hpc (by rfl) (by rfl) rfl rfl rfl rfl rfl rfl hinv.chain
      (fun _ => rfl) hph (fun _ _ _ => rfl)⟩
  | allocTake f =>
    obtain ⟨-, hph⟩ := hinv.of_locked hpc rfl
    simp only [Machine.clientStep, Outcome.next.injEq] at hstep
    subst hstep
    exact ⟨holder, free, hinv.client_locked hpc (by rfl) (by rfl) rfl rfl rfl rfl rfl rfl hinv.chain
      (fun _ => rfl) ⟨hph.1, hph.2, rfl⟩ (fun _ _ _ => rfl)⟩
  | allocAdvance f chunkToUse =>
    obtain ⟨-, hph⟩ := hinv.of_locked hpc rfl
    simp only [clientPhase] at hph
    obtain ⟨hcap, -, hfirst⟩ := hph
    cases chunkToUse with
    | none => simp [Machine.clientStep] at hstep
    | some c =>
      cases hl : Heap.load s.pool.heap c with
      | none => simp [Machine.clientStep, hl] at hstep
      | some next =>
        simp only [Machine.clientStep, hl, Outcome.next.injEq] at hstep
        subst hstep
        have hchain := hinv.chain
        rw [← hfirst] at hchain
        cases free with
        | nil => simp [IsChain] at hchain
        | cons c1 rest =>
          obtain ⟨hc, next1, hl1, hrest⟩ := hchain
          have hcc : c = c1 := Option.some.inj hc
          subst hcc
          rw [hl] at hl1
          have hnn : next = next1 := Option.some.inj hl1
          subst hnn
          refine ⟨holder, rest, hinv.client_locked hpc (by rfl) (by rfl) rfl rfl rfl rfl rfl rfl hrest
            ?_ ?_ (fun _ _ _ => rfl)⟩
          · intro x
            show List.count x rest + List.count x s.live + List.count x s.lost +
              List.count x [c] = List.count x (c :: rest) + List.count x s.live +
              List.count x s.lost + List.count x []
            simp only [List.count_nil, List.count_cons]
            omega
          · show s.pool.capacity = _
            simp only [List.length_cons] at hcap
            push_cast at hcap
            omega
  | allocUnlockStd =>
    simp only [Machine.clientStep, Outcome.next.injEq] at hstep
    subst hstep
    exact ⟨none, free, hinv.client_release hpc (by rfl) (by rfl) (by rfl) rfl rfl rfl rfl rfl rfl (fun h => h)⟩
  | allocUnlock f c =>
    simp only [Machine.clientStep, Outcome.next.injEq] at hstep
    subst hstep
    exact ⟨none, free, hinv.client_release hpc (by rfl) (by rfl) (by rfl) rfl rfl rfl rfl rfl rfl (fun h => h)⟩
  | allocStd =>
    simp only [Machine.clientStep, Outcome.next.injEq] at hstep
    subst hstep
    exact ⟨holder, free, hinv.client_unlocked hpc (by rfl) (by rfl) rfl rfl rfl rfl rfl rfl rfl rfl
      (fun _ => rfl)⟩
  | allocNotify f c =>
    simp only [Machine.clientStep] at hstep
    split at hstep <;> simp only [Outcome.next.injEq] at hstep <;> subst hstep <;>
      exact ⟨holder, free, hinv.client_unlocked hpc (by rfl) (by rfl) rfl rfl rfl rfl rfl rfl
        rfl rfl (fun _ => rfl)⟩
  | replenishSet c =>
    simp only [Machine.clientStep, Outcome.next.injEq] at hstep
    subst hstep
    exact ⟨holder, free, hinv.client_unlocked hpc (by rfl) (by rfl) rfl rfl rfl rfl rfl rfl
      rfl rfl (fun _ => rfl)⟩
  | replenishTryLock c =>
    simp only [Machine.clientStep] at hstep
    split at hstep
    · split at hstep <;> simp only [Outcome.next.injEq] at hstep <;> subst hstep <;>
        exact ⟨holder, free, hinv.client_unlocked hpc (by rfl) (by rfl) rfl rfl rfl rfl rfl rfl
          rfl rfl (fun _ => rfl)⟩
    · split at hstep
      · cases hstep
      · simp only [Outcome.next.injEq] at hstep
        subst hstep
        exact ⟨holder, free, hinv.client_unlocked hpc (by rfl) (by rfl) rfl rfl rfl rfl rfl rfl
          rfl rfl (fun _ => rfl)⟩
  | replenishAdopt c =>
    simp only [Machine.clientStep, Outcome.next.injEq] at hstep
    subst hstep
    exact ⟨holder, free, hinv.client_unlocked hpc (by rfl) (by rfl) rfl rfl rfl rfl rfl rfl
      rfl rfl (fun _ => rfl)⟩
  | replenishPublish c =>
    simp only [Machine.clientStep, Outcome.next.injEq] at hstep
    subst hstep
    exact ⟨holder, free, hinv.client_unlocked hpc (by rfl) (by rfl) rfl rfl rfl rfl rfl rfl
      rfl rfl (fun _ => rfl)⟩
  | replenishUnlock c =>
    simp only [Machine.clientStep] at hstep
    cases hu : s.unlockMutex (.client t) with
    | none => simp [hu] at hstep
    | some s2 =>
      simp only [hu, Outcome.next.injEq] at hstep
      subst hstep
      have h2 := Machine.unlockMutex_some hu
      subst h2
      exact ⟨holder, free, hinv.client_unlocked hpc (by rfl) (by rfl) rfl rfl rfl rfl rfl rfl
        rfl rfl (fun _ => rfl)⟩
  | replenishNotify c =>
    simp only [Machine.clientStep, Outcome.next.injEq] at hstep
    subst hstep
    exact ⟨holder, free, hinv.client_unlocked hpc (by rfl) (by rfl) rfl rfl rfl rfl rfl rfl
      rfl rfl (fun _ => rfl)⟩
  | allocConstruct c =>
    simp only [Machine.clientStep] at hstep
    split at hstep <;> simp only [Outcome.next.injEq] at hstep <;> subst hstep
    · refine ⟨holder, free, hinv.client_unlocked hpc (by rfl) (by rfl) rfl rfl rfl rfl rfl rfl rfl rfl ?_⟩
      intro x
      show List.count x (c :: s.live) + List.count x s.lost + List.count x [] = _
      simp only [Pc.holds, Option.toList, List.count_nil, List.count_cons]
      omega
    · refine ⟨holder, free, hinv.client_unlocked hpc (by rfl) (by rfl) rfl rfl rfl rfl rfl rfl rfl rfl ?_⟩
      intro x
      show List.count x s.live + List.count x (c :: s.lost) + List.count x [] = _
      simp only [Pc.holds, Option.toList, List.count_nil, List.count_cons]
      omega
  | deallocLock c =>
    simp only [Machine.clientStep] at hstep
    split at hstep
    · rename_i hset
      simp only [Outcome.next.injEq] at hstep
      subst hstep
      exact ⟨holder, free, hinv.spin hset⟩
    · rename_i hset
      simp only [Outcome.next.injEq] at hstep
      subst hstep
      have hfree : s.flag = false := by simpa [Machine.testAndSet] using hset
      exact ⟨_, free, hinv.client_acquire hpc hfree (by rfl) (by rfl) rfl rfl rfl rfl rfl rfl
        (fun h => h)⟩
  | deallocLink c =>
    obtain ⟨-, hph⟩ := hinv.of_locked hpc rfl
    simp only [clientPhase] at hph
    obtain ⟨hnotfree, hnotpage⟩ := hinv.held_apart (Machine.mem_held hpc rfl)
    cases hs : Heap.store s.pool.heap c s.pool.firstAvailableChunk with
    | none => simp [Machine.clientStep, hs] at hstep
    | some h =>
      simp only [Machine.clientStep, hs, Outcome.next.injEq] at hstep
      subst hstep
      refine ⟨holder, free, hinv.client_locked hpc (by rfl) (by rfl) rfl rfl rfl (Heap.shape_store hs)
        rfl rfl ?_ (fun _ => rfl) ⟨hph, Heap.load_store_self hs⟩ ?_⟩
      · refine IsChain.congr hinv.chain ?_
        intro a ha
        apply Heap.load_store_other hs
        intro hac
        subst hac
        exact hnotfree ha
      · intro hf i hi
        apply Heap.load_store_other hs
        intro hac
        apply hnotpage
        rw [← hac]
        simp only [Machine.unspliced, hf, if_true]
        refine mem_span.mpr ⟨rfl, Nat.zero_le _, ?_⟩
        show i < 0 + s.pool.newPageSize
        omega
  | deallocHead c =>
    obtain ⟨-, hph⟩ := hinv.of_locked hpc rfl
    simp only [clientPhase] at hph
    obtain ⟨hcap, hload⟩ := hph
    simp only [Machine.clientStep, Outcome.next.injEq] at hstep
    subst hstep
    refine ⟨holder, c :: free, hinv.client_locked hpc (by rfl) (by rfl) rfl rfl rfl rfl rfl rfl
      ⟨rfl, s.pool.firstAvailableChunk, hload, hinv.chain⟩ ?_ ⟨?_, rfl⟩ (fun _ _ _ => rfl)⟩
    · intro x
      show List.count x (c :: free) + List.count x s.live + List.count x s.lost +
        List.count x [] = List.count x free + List.count x s.live +
        List.count x s.lost + List.count x [c]
      simp only [List.count_nil, List.count_cons]
      omega
    · show s.pool.capacity + 1 = _
      simp only [List.length_cons]
      push_cast
      omega
  | deallocInc c =>
    obtain ⟨-, hph⟩ := hinv.of_locked hpc rfl
    simp only [clientPhase] at hph
    simp only [Machine.clientStep] at hstep
    split at hstep
    · cases hstep
    · simp only [Outcome.next.injEq] at hstep
      subst hstep
      exact ⟨holder, free, hinv.client_locked hpc (by rfl) (by rfl) rfl rfl rfl rfl rfl rfl hinv.chain
        (fun _ => rfl) hph.1 (fun _ _ _ => rfl)⟩
  | deallocUnlock =>
    simp only [Machine.clientStep, Outcome.next.injEq] at hstep
    subst hstep
    exact ⟨none, free, hinv.client_release hpc (by rfl) (by rfl) (by rfl) rfl rfl rfl rfl rfl rfl (fun h => h)⟩

theorem Heap.load_of_cell {h h1 : Heap} {a : ChunkAddr}
    (hc : Heap.cell h1 a = Heap.cell h a) : Heap.load h1 a = Heap.load h a := by
  unfold Heap.load
  rw [hc]

/-- The page the worker has built depends on the store, the page list and the
page size only. -/
theorem FreshPage.frame {s s1 : Machine} (h : FreshPage s)
    (hheap : s1.pool.heap = s.pool.heap) (hnps : s1.pool.newPageSize = s.pool.newPageSize)
    (hpages : s1.pool.pages = s.pool.pages) : FreshPage s1 := by
  refine ⟨by rw [hnps]; exact h.size, by rw [hheap]; exact h.store,
    by rw [hpages, hheap, hnps]; exact h.front, ?_⟩
  intro i hi
  rw [hheap]
  rw [hnps] at hi
  exact h.links i hi

/-- What the invariant says about the worker inside its critical section. -/
theorem MInv.of_worker_locked {s : Machine} {holder : Option Actor} {free : List ChunkAddr}
    (hinv : MInv s holder free) (hl : s.worker.locked = true) :
    holder = some .worker ∧ workerPhase s.pool free s.worker := by
  have hh := hinv.workerLock.mp hl
  refine ⟨hh, ?_⟩
  have hph := hinv.phase
  rw [hh] at hph
  exact hph

/-- A chunk of the page about to be spliced is not on the free list. -/
theorem MInv.unspliced_apart {s : Machine} {holder : Option Actor} {free : List ChunkAddr}
    {c : ChunkAddr} (hinv : MInv s holder free) (hc : c ∈ s.unspliced) : c ∉ free := by
  have hnd := hinv.nodup
  unfold Machine.chunks at hnd
  intro hf
  have := (List.nodup_append.mp hnd).2.2 hf
  exact this (List.mem_append_right _ (List.mem_append_right _ (List.mem_append_right _ hc)))

theorem Machine.chunks_congr {s s1 : Machine} (free : List ChunkAddr)
    (hclients : s1.clients = s.clients) (hlive : s1.live = s.live) (hlost : s1.lost = s.lost)
    (hunsp : s1.unspliced = s.unspliced) : s1.chunks free = s.chunks free := by
  simp only [Machine.chunks, Machine.held, hclients, hlive, hlost, hunsp]

/-- A step of the worker keeps the invariant, given what it does to the lock,
the free list and the chunks, when no array is added to the store. -/
theorem MInv.worker_step {s s1 : Machine} {holder holder1 : Option Actor}
    {free free1 : List ChunkAddr}
    (hinv : MInv s holder free)
    (hclients : s1.clients = s.clients)
    (hflag : s1.flag = holder1.isSome)
    (hself : s1.worker.locked = true ↔ holder1 = some .worker)
    (hothers : ∀ b, b ≠ .worker → (holder1 = some b ↔ holder = some b))
    (hshape : Heap.shape s1.pool.heap = Heap.shape s.pool.heap)
    (hchain : IsChain s1.pool.heap s1.pool.firstAvailableChunk free1)
    (hperm : (s1.chunks free1).Perm (s.chunks free))
    (hphase : s1.phase holder1 free1)
    (hfresh : s1.worker.fresh = true → FreshPage s1) : MInv s1 holder1 free1 := by
  obtain ⟨o1, o2, o3, o4⟩ := hinv.ownership hperm hshape
  refine ⟨hflag, ?_, hself, hchain, o1, o2, o3, o4, hphase, hfresh⟩
  intro u pcu hu
  rw [hclients] at hu
  rw [hinv.clientLock u pcu hu]
  exact (hothers (.client u) (by simp)).symm

/-- A step of the worker outside its critical section that touches neither the
lock, the free list nor the store. -/
theorem MInv.worker_quiet {s s1 : Machine} {holder : Option Actor} {free : List ChunkAddr}
    (hinv : MInv s holder free)
    (hw : s.worker.locked = false) (hw1 : s1.worker.locked = false)
    (hf : s.worker.fresh = false) (hf1 : s1.worker.fresh = false)
    (hclients : s1.clients = s.clients) (hflag : s1.flag = s.flag)
    (hlive : s1.live = s.live) (hlost : s1.lost = s.lost)
    (hcap : s1.pool.capacity = s.pool.capacity)
    (hfirst : s1.pool.firstAvailableChunk = s.pool.firstAvailableChunk)
    (hheap : s1.pool.heap = s.pool.heap)
    (hnps : s1.pool.newPageSize = s.pool.newPageSize) : MInv s1 holder free := by
  have hnot : holder ≠ some .worker := by
    intro h
    have := hinv.workerLock.mpr h
    rw [hw] at this
    cases this
  refine hinv.worker_step hclients (by rw [hflag]; exact hinv.flag) ?_ (fun _ _ => Iff.rfl)
    (by rw [hheap]) (by rw [hheap, hfirst]; exact hinv.chain) ?_ ?_ ?_
  · rw [hw1]
    constructor
    · intro h; cases h
    · intro h; exact absurd h hnot
  · have : s1.chunks free = s.chunks free := by
      simp [Machine.chunks, Machine.held, Machine.unspliced, hclients, hlive, hlost, hf, hf1]
    rw [this]
  · exact Machine.phase_of_frame hinv.phase hcap hfirst hnps hheap (fun h => absurd h hnot)
      (fun u _ => by rw [hclients])
  · intro h
    rw [hf1] at h
    cases h

/-- The page built by `Page(newPageSize, nullptr)` on a store. -/
theorem Page.new_spec {h h1 : Heap} {n : Nat} {t : ChunkPtr} {g : Bool} {pg : Page}
    (hr : Page.new h n t g = .ok (pg, h1)) :
    n ≠ 0 ∧ Heap.chunkCount h + n ≤ maxChunks ∧ pg = ⟨h.length, n⟩ ∧
      Heap.shape h1 = Heap.shape h ++ [n] ∧
      (∀ i, i + 1 < n → Heap.load h1 ⟨h.length, i⟩ = some (some ⟨h.length, i + 1⟩)) ∧
      (∀ b : ChunkAddr, b.page < h.length → Heap.cell h1 b = Heap.cell h b) := by
  obtain ⟨hn, hg, hfit⟩ := Page.new_returns hr
  obtain ⟨h2, hnew, hsh, hlk, -, hold⟩ := Page.new_granted h t hn hfit
  rw [hg, hnew] at hr
  simp only [Except.ok.injEq, Prod.mk.injEq] at hr
  obtain ⟨hpg, hh⟩ := hr
  subst hh
  exact ⟨hn, hfit, hpg.symm, hsh, hlk, hold⟩

/-- The worker builds a page: the store grows by one array, whose chunks wait
to be spliced. -/
theorem MInv.worker_page {s : Machine} {holder : Option Actor} {free : List ChunkAddr}
    {g : Bool} {pg : Page} {h1 : Heap}
    (hinv : MInv s holder free) (hw : s.worker = .page)
    (hr : Page.new s.pool.heap s.pool.newPageSize none g = .ok (pg, h1)) :
    MInv { s with pool := { s.pool with heap := h1, pages := pg :: s.pool.pages },
                  worker := .lock } holder free := by
  obtain ⟨hn, hfit, hpg, hsh, hlk, hold⟩ := Page.new_spec hr
  have hlen : h1.length = s.pool.heap.length + 1 := by
    have := congrArg List.length hsh
    simpa [Heap.shape] using this
  have hnot : holder ≠ some .worker := by
    intro h
    have := hinv.workerLock.mpr h
    rw [hw] at this
    cases this
  have hunsp : s.unspliced = [] := by simp [Machine.unspliced, hw, WorkerPc.fresh]
  have hload : ∀ a ∈ s.chunks free, Heap.load h1 a = Heap.load s.pool.heap a := by
    intro a ha
    exact Heap.load_of_cell (hold a (Heap.valid_page_lt (hinv.valid a ha)))
  have hchunks : Machine.chunks
      { s with
        pool := { s.pool with heap := h1, pages := pg :: s.pool.pages },
        worker := .lock } free =
      s.chunks free ++ span s.pool.heap.length 0 s.pool.newPageSize := by
    simp [Machine.chunks, Machine.held, Machine.unspliced, hw, WorkerPc.fresh, hlen]
  refine ⟨hinv.flag, hinv.clientLock, ?_, ?_, ?_, ?_, ?_, ?_, ?_, ?_⟩
  · show WorkerPc.locked .lock = true ↔ _
    constructor
    · intro h; cases h
    · intro h; exact absurd h hnot
  · refine IsChain.congr hinv.chain ?_
    intro a ha
    exact hload a (List.mem_append_left _ ha)
  · rw [hchunks]
    refine List.nodup_append.mpr ⟨hinv.nodup, nodup_span _ _ _, ?_⟩
    intro a ha hb
    have h1 := Heap.valid_page_lt (hinv.valid a ha)
    have h2 := (mem_span.mp hb).1
    omega
  · rw [hchunks]
    intro a ha
    rcases List.mem_append.mp ha with ha | ha
    · exact Heap.valid_of_shape_append hsh (hinv.valid a ha)
    · obtain ⟨hp, -, hi⟩ := mem_span.mp ha
      have : Heap.valid h1 ⟨s.pool.heap.length, a.idx⟩ :=
        Heap.valid_new_of_shape_append hsh (show a.idx < s.pool.newPageSize by omega)
      rw [← hp] at this
      exact this
  · rw [hchunks, List.length_append, length_span, hinv.total]
    show _ = Heap.chunkCount h1
    unfold Heap.chunkCount
    rw [hsh]
    simp
  · show Heap.chunkCount h1 ≤ maxChunks
    unfold Heap.chunkCount
    rw [hsh]
    simp only [List.sum_append, List.sum_cons, List.sum_nil, Nat.add_zero]
    exact hfit
  · have hph := hinv.phase
    cases holder with
    | none => exact hph
    | some a =>
      cases a with
      | worker => exact absurd rfl hnot
      | client u =>
        simp only [Machine.phase] at hph ⊢
        obtain ⟨pc, hpc, hp⟩ := hph
        refine ⟨pc, hpc, clientPhase_congr (p := s.pool) (by rfl) (by rfl) ?_ hp⟩
        intro c hc
        refine hload c ?_
        unfold Machine.chunks
        exact List.mem_append_right _ (List.mem_append_right _ (List.mem_append_right _
          (List.mem_append_left _ (Machine.mem_held hpc hc))))
  · intro _
    refine ⟨hn, ?_, ?_, ?_⟩
    · show h1 ≠ []
      intro he
      rw [he] at hlen
      simp at hlen
    · show (pg :: s.pool.pages).head? = some ⟨h1.length - 1, s.pool.newPageSize⟩
      rw [hpg, hlen]
      rfl
    · intro i hi
      show Heap.load h1 ⟨h1.length - 1, i⟩ = some (some ⟨h1.length - 1, i + 1⟩)
      rw [hlen]
      exact hlk i hi

/-- Every step of the worker keeps the invariant. -/
theorem MInv.workerStep {s s1 : Machine} {holder : Option Actor} {free : List ChunkAddr}
    {e : Env} (hinv : MInv s holder free) (hstep : s.workerStep e s.worker = .next s1) :
    ∃ holder1 free1, MInv s1 holder1 free1 := by
  cases hw : s.worker with
  | lockMutex =>
    rw [hw] at hstep
    simp only [Machine.workerStep] at hstep
    split at hstep
    · simp only [Outcome.next.injEq] at hstep
      subst hstep
      exact ⟨holder, free, hinv.worker_quiet (by rw [hw]; rfl) (by rfl) (by rw [hw]; rfl)
        (by rfl) rfl rfl rfl rfl rfl rfl rfl rfl⟩
    · split at hstep <;> cases hstep
  | adopt =>
    rw [hw] at hstep
    simp only [Machine.workerStep, Outcome.next.injEq] at hstep
    subst hstep
    exact ⟨holder, free, hinv.worker_quiet (by rw [hw]; rfl) (by rfl) (by rw [hw]; rfl)
      (by rfl) rfl rfl rfl rfl rfl rfl rfl rfl⟩
  | wait =>
    rw [hw] at hstep
    simp only [Machine.workerStep] at hstep
    split at hstep
    · simp only [Outcome.next.injEq] at hstep
      subst hstep
      exact ⟨holder, free, hinv.worker_quiet (by rw [hw]; rfl) (by rfl) (by rw [hw]; rfl)
        (by rfl) rfl rfl rfl rfl rfl rfl rfl rfl⟩
    · cases hu : s.unlockMutex .worker with
      | none => simp [hu] at hstep
      | some s2 =>
        simp only [hu, Outcome.next.injEq] at hstep
        subst hstep
        have h2 := Machine.unlockMutex_some hu
        subst h2
        exact ⟨holder, free, hinv.worker_quiet (by rw [hw]; rfl) (by rfl) (by rw [hw]; rfl)
          (by rfl) rfl rfl rfl rfl rfl rfl rfl rfl⟩
  | asleep =>
    rw [hw] at hstep
    simp only [Machine.workerStep] at hstep
    split at hstep
    · simp only [Outcome.next.injEq] at hstep
      subst hstep
      exact ⟨holder, free, hinv.worker_quiet (by rw [hw]; rfl) (by rfl) (by rw [hw]; rfl)
        (by rfl) rfl rfl rfl rfl rfl rfl rfl rfl⟩
    · split at hstep <;> cases hstep
  | unlockGuard =>
    rw [hw] at hstep
    simp only [Machine.workerStep] at hstep
    cases hu : s.unlockMutex .worker with
    | none => simp [hu] at hstep
    | some s2 =>
      simp only [hu, Outcome.next.injEq] at hstep
      subst hstep
      have h2 := Machine.unlockMutex_some hu
      subst h2
      exact ⟨holder, free, hinv.worker_quiet (by rw [hw]; rfl) (by rfl) (by rw [hw]; rfl)
        (by rfl) rfl rfl rfl rfl rfl rfl rfl rfl⟩
  | unlockUnique =>
    rw [hw] at hstep
    simp only [Machine.workerStep] at hstep
    cases hu : s.unlockMutex .worker with
    | none => simp [hu] at hstep
    | some s2 =>
      simp only [hu, Outcome.next.injEq] at hstep
      subst hstep
      have h2 := Machine.unlockMutex_some hu
      subst h2
      exact ⟨holder, free, hinv.worker_quiet (by rw [hw]; rfl) (by rfl) (by rw [hw]; rfl)
        (by rfl) rfl rfl rfl rfl rfl rfl rfl rfl⟩
  | clear =>
    rw [hw] at hstep
    simp only [Machine.workerStep, Outcome.next.injEq] at hstep
    subst hstep
    exact ⟨holder, free, hinv.worker_quiet (by rw [hw]; rfl) (by rfl) (by rw [hw]; rfl)
      (by rfl) rfl rfl rfl rfl rfl rfl rfl rfl⟩
  | check =>
    rw [hw] at hstep
    simp only [Machine.workerStep] at hstep
    split at hstep <;> simp only [Outcome.next.injEq] at hstep <;> subst hstep <;>
      exact ⟨holder, free, hinv.worker_quiet (by rw [hw]; rfl) (by rfl) (by rw [hw]; rfl)
        (by rfl) rfl rfl rfl rfl rfl rfl rfl rfl⟩
  | page =>
    rw [hw] at hstep
    cases hr : Page.new s.pool.heap s.pool.newPageSize none e.granted with
    | error f => cases f <;> simp [Machine.workerStep, hr] at hstep
    | ok v =>
      obtain ⟨pg, h1⟩ := v
      simp only [Machine.workerStep, hr, Outcome.next.injEq] at hstep
      subst hstep
      exact ⟨holder, free, hinv.worker_page hw hr⟩
  | lock =>
    rw [hw] at hstep
    simp only [Machine.workerStep] at hstep
    split at hstep
    · rename_i hset
      simp only [Outcome.next.injEq] at hstep
      subst hstep
      exact ⟨holder, free, hinv.spin hset⟩
    · rename_i hset
      simp only [Outcome.next.injEq] at hstep
      subst hstep
      have hfree : s.flag = false := by simpa [Machine.testAndSet] using hset
      have hnone : holder = none := by
        have := hinv.flag
        rw [hfree] at this
        cases holder with
        | none => rfl
        | some a => simp at this
      subst hnone
      refine ⟨some .worker, free, hinv.worker_step rfl rfl (by simp [WorkerPc.locked]) ?_ rfl
        hinv.chain ?_ hinv.phase ?_⟩
      · intro b hb
        constructor
        · intro h
          exact absurd (Option.some.inj h).symm hb
        · intro h; cases h
      · exact List.Perm.of_eq (Machine.chunks_congr free (by rfl) (by rfl) (by rfl)
        (by simp [Machine.unspliced, hw, WorkerPc.fresh, Machine.testAndSet]))
      · intro _
        exact (hinv.fresh (by rw [hw]; rfl)).frame rfl rfl rfl
  | inc =>
    obtain ⟨hh, hph⟩ := hinv.of_worker_locked (by rw [hw]; rfl)
    rw [hw] at hstep hph
    simp only [workerPhase] at hph
    simp only [Machine.workerStep, Outcome.next.injEq] at hstep
    subst hstep
    have hfit : free.length + s.pool.newPageSize ≤ maxChunks := by
      have h1 := hinv.total
      have h2 := hinv.bound
      simp only [Machine.chunks, Machine.unspliced, hw, WorkerPc.fresh, if_true,
        List.length_append, length_span] at h1
      omega
    have hcap : toSsize (toSize s.pool.capacity + s.pool.newPageSize) =
        (free.length : Int) + (s.pool.newPageSize : Int) := by
      unfold maxChunks at hfit
      rw [hph, toSize_natCast (by omega), toSsize_of_lt (by omega)]
      push_cast
      rfl
    refine ⟨holder, free, hinv.worker_step rfl hinv.flag ?_ (fun _ _ => Iff.rfl) rfl
      hinv.chain ?_ ?_ ?_⟩
    · rw [hh]; simp [WorkerPc.locked]
    · exact List.Perm.of_eq (Machine.chunks_congr free (by rfl) (by rfl) (by rfl)
        (by simp [Machine.unspliced, hw, WorkerPc.fresh]))
    · rw [hh]
      exact hcap
    · intro _
      exact (hinv.fresh (by rw [hw]; rfl)).frame rfl rfl rfl
  | copy =>
    obtain ⟨hh, hph⟩ := hinv.of_worker_locked (by rw [hw]; rfl)
    rw [hw] at hstep hph
    simp only [workerPhase] at hph
    simp only [Machine.workerStep, Outcome.next.injEq] at hstep
    subst hstep
    refine ⟨holder, free, hinv.worker_step rfl hinv.flag ?_ (fun _ _ => Iff.rfl) rfl
      hinv.chain ?_ ?_ ?_⟩
    · rw [hh]; simp [WorkerPc.locked]
    · exact List.Perm.of_eq (Machine.chunks_congr free (by rfl) (by rfl) (by rfl)
        (by simp [Machine.unspliced, hw, WorkerPc.fresh]))
    · rw [hh]
      exact ⟨hph, rfl⟩
    · intro _
      exact (hinv.fresh (by rw [hw]; rfl)).frame rfl rfl rfl
  | link next =>
    obtain ⟨hh, hph⟩ := hinv.of_worker_locked (by rw [hw]; rfl)
    have hfp := hinv.fresh (by rw [hw]; rfl)
    rw [hw] at hstep hph
    simp only [workerPhase] at hph
    obtain ⟨hcap, hnext⟩ := hph
    simp only [Machine.workerStep, hfp.front] at hstep
    cases hs : Heap.store s.pool.heap ⟨s.pool.heap.length - 1, s.pool.newPageSize - 1⟩ next with
    | none => simp [hs] at hstep
    | some h =>
      simp only [hs, Outcome.next.injEq] at hstep
      subst hstep
      have hsh := Heap.shape_store hs
      have hlen := Heap.length_of_shape hsh
      have hsize := hfp.size
      have hlast : (⟨s.pool.heap.length - 1, s.pool.newPageSize - 1⟩ : ChunkAddr) ∈
          s.unspliced := by
        simp only [Machine.unspliced, hw, WorkerPc.fresh, if_true]
        refine mem_span.mpr ⟨rfl, Nat.zero_le _, ?_⟩
        show s.pool.newPageSize - 1 < 0 + s.pool.newPageSize
        omega
      refine ⟨holder, free, hinv.worker_step rfl hinv.flag ?_ (fun _ _ => Iff.rfl) hsh
        ?_ ?_ ?_ ?_⟩
      · rw [hh]; simp [WorkerPc.locked]
      · refine IsChain.congr hinv.chain ?_
        intro a ha
        apply Heap.load_store_other hs
        intro hac
        subst hac
        exact hinv.unspliced_apart hlast ha
      · exact List.Perm.of_eq (Machine.chunks_congr free (by rfl) (by rfl) (by rfl)
        (by simp [Machine.unspliced, hw, WorkerPc.fresh, hlen]))
      · rw [hh]
        refine ⟨hcap, ?_⟩
        show Heap.load h ⟨h.length - 1, s.pool.newPageSize - 1⟩ = _
        rw [hlen, Heap.load_store_self hs, hnext]
      · intro _
        refine ⟨hsize, ?_, ?_, ?_⟩
        · show h ≠ []
          intro he
          rw [he] at hlen
          exact hfp.store (List.length_eq_zero.mp hlen.symm)
        · show s.pool.pages.head? = some ⟨h.length - 1, s.pool.newPageSize⟩
          rw [hlen]
          exact hfp.front
        · intro i hi
          show Heap.load h ⟨h.length - 1, i⟩ = some (some ⟨h.length - 1, i + 1⟩)
          rw [hlen, Heap.load_store_other hs]
          · exact hfp.links i hi
          · intro hac
            have := congrArg ChunkAddr.idx hac
            simp only at this
            have hi1 : i + 1 < s.pool.newPageSize := hi
            omega
  | head =>
    obtain ⟨hh, hph⟩ := hinv.of_worker_locked (by rw [hw]; rfl)
    have hfp := hinv.fresh (by rw [hw]; rfl)
    rw [hw] at hstep hph
    simp only [workerPhase] at hph
    obtain ⟨hcap, hlast⟩ := hph
    simp only [Machine.workerStep, hfp.front, Outcome.next.injEq] at hstep
    subst hstep
    have hsize := hfp.size
    refine ⟨holder, span (s.pool.heap.length - 1) 0 s.pool.newPageSize ++ free,
      hinv.worker_step rfl hinv.flag ?_ (fun _ _ => Iff.rfl) rfl ?_ ?_ ?_ ?_⟩
    · rw [hh]; simp [WorkerPc.locked]
    · exact IsChain.span_append hfp.links hlast hinv.chain s.pool.newPageSize 0 (by omega)
        (by omega)
    · rw [List.perm_iff_count]
      intro x
      simp only [Machine.chunks, Machine.held, Machine.unspliced, hw, WorkerPc.fresh,
        if_true, List.count_append, List.count_nil, Bool.false_eq_true, if_false]
      omega
    · rw [hh]
      show s.pool.capacity = _
      rw [hcap, List.length_append, length_span]
      push_cast
      omega
    · intro h
      cases h
  | unlock =>
    obtain ⟨hh, hph⟩ := hinv.of_worker_locked (by rw [hw]; rfl)
    rw [hw] at hstep hph
    simp only [workerPhase] at hph
    simp only [Machine.workerStep, Outcome.next.injEq] at hstep
    subst hstep
    refine ⟨none, free, hinv.worker_step rfl rfl (by simp [WorkerPc.locked]) ?_ rfl
      hinv.chain ?_ hph ?_⟩
    · intro b hb
      rw [hh]
      constructor
      · intro h; cases h
      · intro h
        exact absurd (Option.some.inj h).symm hb
    · exact List.Perm.of_eq (Machine.chunks_congr free (by rfl) (by rfl) (by rfl)
        (by simp [Machine.unspliced, hw, WorkerPc.fresh]))
    · intro h
      cases h
  | returned =>
    rw [hw] at hstep
    cases hstep

/-- C1 (count consistency). In every state reached from a pool the constructor
returned (in particular one built with `max > min >= 0`) by any finite sequence
of `alloc`, `dealloc` of a chunk whose pool-backed handle is live, and worker
iterations that append a page, the chain that starts at `firstAvailableChunk`
and follows `nextAvailable` ends at `nullptr`, and `capacity` equals the number
of chunks on it. -/
theorem count_consistency {α β : Type} (OBJECT : α → Option β)
    (maxCapacity minCapacity : Nat) (granted : Bool) (p : ObjectPool)
    (ops : List (Op α)) (s : Session)
    (hp : ObjectPool.new maxCapacity minCapacity granted = .ok p)
    (hrun : Session.run OBJECT (Session.start p) ops = some s) :
    ∃ free, s.pool.freeList = some free ∧ s.pool.capacity = (free.length : Int) := by
  obtain ⟨free, hinv⟩ := Inv.reachable OBJECT hp hrun
  exact ⟨free, hinv.freeList, hinv.count⟩

/-- Witness of C1: the run `trace41` of `ObjectPool(4, 1)`. -/
theorem count_consistency_witness :
    ObjectPool.new 4 1 true = .ok pool41 ∧
    Session.run sampleObject (Session.start pool41) trace41 = some state41 ∧
    ∃ free, state41.pool.freeList = some free ∧ state41.pool.capacity = (free.length : Int) :=
  ⟨rfl, rfl, count_consistency sampleObject 4 1 true pool41 trace41 state41 rfl rfl⟩

/-- C2 (slot uniqueness). In every state reached from a pool the constructor
returned by any finite sequence of `alloc`, `dealloc` of a chunk whose
pool-backed handle is live (so no double return), and worker iterations that
append a page, the free list has no duplicate chunk, no chunk is owned by two
live handles, no chunk of the free list is in use (owned by a live handle, or
taken by an `alloc` whose constructor threw), and the chunk a pool-path `alloc`
hands out in that state was on the free list and is owned by no handle that is
live. -/
theorem slot_uniqueness {α β : Type} (OBJECT : α → Option β)
    (maxCapacity minCapacity : Nat) (granted : Bool) (p : ObjectPool)
    (ops : List (Op α)) (s : Session)
    (hp : ObjectPool.new maxCapacity minCapacity granted = .ok p)
    (hrun : Session.run OBJECT (Session.start p) ops = some s) :
    ∃ free, s.pool.freeList = some free ∧ free.Nodup ∧ s.live.Nodup ∧
      (∀ c ∈ free, c ∉ s.live ∧ c ∉ s.lost) ∧
      ∀ (args : α) (tryLock : Bool) (sys : Option Nat) (r : AllocResult β) (c : ChunkAddr)
        (obj : β), alloc OBJECT s.pool args tryLock sys = some r →
        r.object = .ok (.pool c obj) → c ∈ free ∧ c ∉ s.live := by
  obtain ⟨free, hinv⟩ := Inv.reachable OBJECT hp hrun
  have hnd := hinv.nodup
  rw [List.nodup_append] at hnd
  obtain ⟨hfree, hrest, hdisj⟩ := hnd
  have hlive : s.live.Nodup := (List.nodup_append.mp hrest).1
  have hsep : ∀ c ∈ free, c ∉ s.live ∧ c ∉ s.lost := fun c hc =>
    ⟨fun hl => hdisj hc (List.mem_append_left _ hl),
      fun hl => hdisj hc (List.mem_append_right _ hl)⟩
  refine ⟨free, hinv.freeList, hfree, hlive, hsep, ?_⟩
  intro args tryLock sys r c obj hr hobj
  by_cases h0 : s.pool.capacity = 0
  · rw [alloc_of_capacity_zero OBJECT h0] at hr
    simp only [Option.some.injEq] at hr
    subst hr
    unfold allocateUsingStdAllocator at hobj
    cases sys <;> cases hctor : OBJECT args <;> simp [hctor] at hobj
  · obtain ⟨c1, rest, next, hfr, hf, hl, -⟩ := hinv.head h0
    have hb := hinv.capacity_bounds
    have hmin : s.pool.capacity ≠ SSIZE_MIN := by
      unfold SSIZE_MIN; omega
    rw [alloc_of_head OBJECT h0 hmin hf hl] at hr
    simp only [Option.some.injEq] at hr
    subst hr
    cases hctor : OBJECT args with
    | none => simp [hctor] at hobj
    | some obj1 =>
      simp [hctor] at hobj
      obtain ⟨hc, -⟩ := hobj
      subst hc
      have hmem : c1 ∈ free := by rw [hfr]; exact List.mem_cons_self _ _
      exact ⟨hmem, (hsep c1 hmem).1⟩

/-- Witness of C2: the run `trace20` of `ObjectPool(2, 0)`. -/
theorem slot_uniqueness_witness :
    ObjectPool.new 2 0 true = .ok pool20 ∧
    Session.run sampleObject (Session.start pool20) trace20 = some state20 ∧
    ∃ free, state20.pool.freeList = some free ∧ free.Nodup ∧ state20.live.Nodup ∧
      (∀ c ∈ free, c ∉ state20.live ∧ c ∉ state20.lost) ∧
      ∀ (args : Nat) (tryLock : Bool) (sys : Option Nat) (r : AllocResult Nat) (c : ChunkAddr)
        (obj : Nat), alloc sampleObject state20.pool args tryLock sys = some r →
        r.object = .ok (.pool c obj) → c ∈ free ∧ c ∉ state20.live :=
  ⟨rfl, rfl, slot_uniqueness sampleObject 2 0 true pool20 trace20 state20 rfl rfl⟩

/-- C3, counterexample: on `ObjectPool(2, 0)` one `alloc` whose constructor
throws leads to a state with `capacity` 1, no live handle and 2 chunks over all
pages: `capacity` plus the number of live pool-backed handles is 1, not 2, and
every handle has been released while `capacity` is below the total. -/
theorem throwing_alloc_breaks_count :
    ObjectPool.new 2 0 true = .ok pool20 ∧ sampleObject 0 = none ∧
    Session.run sampleObject (Session.start pool20) traceThrow20 = some stateThrow20 ∧
    stateThrow20.pool.capacity = 1 ∧ stateThrow20.live = [] ∧
    stateThrow20.pool.totalSlots = 2 ∧
    stateThrow20.pool.capacity + (stateThrow20.live.length : Int) ≠
      (stateThrow20.pool.totalSlots : Int) :=
  ⟨rfl, rfl, rfl, rfl, rfl, rfl, by decide⟩

/-- C3, amended. In every state reached from a pool the constructor returned by
any finite sequence of `alloc`, `dealloc` of a chunk whose pool-backed handle is
live, and worker iterations that append a page, `capacity` plus the number of
live pool-backed handles plus the number of chunks taken by an `alloc` whose
constructor threw (`lost`) equals the total number of chunks over all pages, and
that total equals `max + newPageSize * (number of pages the worker appended)`.
Hence while no constructor has thrown, `capacity` plus the number of live
handles equals the total; once every handle has been released, `capacity` plus
the number of lost chunks equals the total; and with both, `capacity` equals
the total, which is at least `max`. -/
theorem no_leak {α β : Type} (OBJECT : α → Option β)
    (maxCapacity minCapacity : Nat) (granted : Bool) (p : ObjectPool)
    (ops : List (Op α)) (s : Session)
    (hp : ObjectPool.new maxCapacity minCapacity granted = .ok p)
    (hrun : Session.run OBJECT (Session.start p) ops = some s) :
    s.pool.capacity + (s.live.length : Int) + (s.lost.length : Int) =
      (s.pool.totalSlots : Int) ∧
    s.pool.totalSlots = maxCapacity + s.pool.newPageSize * s.grows ∧
    (s.lost = [] → s.pool.capacity + (s.live.length : Int) = (s.pool.totalSlots : Int)) ∧
    (s.live = [] → s.pool.capacity + (s.lost.length : Int) = (s.pool.totalSlots : Int)) ∧
    (s.live = [] → s.lost = [] →
      s.pool.capacity = (s.pool.totalSlots : Int) ∧ (maxCapacity : Int) ≤ s.pool.capacity) := by
  obtain ⟨free, hinv⟩ := Inv.reachable OBJECT hp hrun
  have hcount := hinv.count
  have htotal := hinv.total
  have hslots := hinv.slots
  have hgrown := hinv.grown
  have hsum : s.pool.capacity + (s.live.length : Int) + (s.lost.length : Int) =
      (s.pool.totalSlots : Int) := by
    rw [hcount, hslots, ← htotal]
    push_cast
    ring
  have hle : maxCapacity ≤ s.pool.totalSlots := by
    rw [hslots, hgrown]; exact Nat.le_add_right _ _
  refine ⟨hsum, ?_, ?_, ?_, ?_⟩
  · rw [hslots, hgrown]
  · intro hlost
    rw [hlost] at hsum
    simpa using hsum
  · intro hlive
    rw [hlive] at hsum
    simpa using hsum
  · intro hlive hlost
    rw [hlive, hlost] at hsum
    simp only [List.length_nil, Nat.cast_zero, add_zero] at hsum
    refine ⟨hsum, ?_⟩
    rw [hsum]
    exact_mod_cast hle

/-- Witness of the amended C3: the run `traceLost20` of `ObjectPool(2, 0)`, in
which a constructor throws and every handle is released. -/
theorem no_leak_witness :
    ObjectPool.new 2 0 true = .ok pool20 ∧
    Session.run sampleObject (Session.start pool20) traceLost20 = some stateLost20 ∧
    stateLost20.pool.capacity + (stateLost20.live.length : Int) +
        (stateLost20.lost.length : Int) = (stateLost20.pool.totalSlots : Int) ∧
    stateLost20.pool.totalSlots = 2 + stateLost20.pool.newPageSize * stateLost20.grows ∧
    (stateLost20.lost = [] →
      stateLost20.pool.capacity + (stateLost20.live.length : Int) =
        (stateLost20.pool.totalSlots : Int)) ∧
    (stateLost20.live = [] →
      stateLost20.pool.capacity + (stateLost20.lost.length : Int) =
        (stateLost20.pool.totalSlots : Int)) ∧
    (stateLost20.live = [] → stateLost20.lost = [] →
      stateLost20.pool.capacity = (stateLost20.pool.totalSlots : Int) ∧
        ((2 : Nat) : Int) ≤ stateLost20.pool.capacity) :=
  ⟨rfl, rfl, no_leak sampleObject 2 0 true pool20 traceLost20 stateLost20 rfl rfl⟩

/-- C4 (pool-path alloc). For every pool state with `capacity > 0` whose free
list is well formed (the chain from `firstAvailableChunk` ends and has
`capacity` chunks), `alloc` takes the chunk that was `firstAvailableChunk`
(and returns a handle of it when the constructor returns), sets
`firstAvailableChunk` to that chunk's `nextAvailable`, decreases `capacity` by
exactly 1, and calls `runReplenish` if and only if the new `capacity` equals
`minCapacity`; the rest of the free list is the new free list. -/
theorem alloc_pool_path {α β : Type} (OBJECT : α → Option β)
    (p : ObjectPool) (free : List ChunkAddr) (args : α)
    (tryLock : Bool) (sys : Option Nat)
    (hcap : 0 < p.capacity) (hmax : p.capacity ≤ SSIZE_MAX)
    (hwf : p.freeList = some free) (hlen : p.capacity = (free.length : Int)) :
    ∃ c rest r, free = c :: rest ∧ p.firstAvailableChunk = some c ∧
      alloc OBJECT p args tryLock sys = some r ∧
      r.chunkToUse = some c ∧
      (∀ obj, OBJECT args = some obj → r.object = .ok (.pool c obj)) ∧
      Heap.load p.heap c = some r.pool.firstAvailableChunk ∧
      r.pool.capacity = p.capacity - 1 ∧
      (r.isActivateReplenish = true ↔ r.pool.capacity = (p.minCapacity : Int)) ∧
      r.pool.freeList = some rest ∧
      r.pool.heap = p.heap ∧ r.pool.pages = p.pages := by
  obtain ⟨c, rest, next, hfree, hf, hl, hrest⟩ := freeList_head hcap hwf hlen
  have h0 : p.capacity ≠ 0 := by omega
  have hmin : p.capacity ≠ SSIZE_MIN := by unfold SSIZE_MIN; omega
  refine ⟨c, rest, _, hfree, hf, alloc_of_head OBJECT h0 hmin hf hl args tryLock sys,
    rfl, ?_, hl, rfl, ?_, hrest _ rfl rfl, rfl, rfl⟩
  · intro obj hobj
    simp [hobj]
  · simp only [decide_eq_true_eq]
    exact toSize_eq_iff (by omega) (by omega)

/-- Witness of C4: the first `alloc` on `ObjectPool(4, 1)`. -/
theorem alloc_pool_path_witness :
    (0 : Int) < pool41.capacity ∧ pool41.capacity ≤ SSIZE_MAX ∧
    pool41.freeList = some [⟨0, 0⟩, ⟨0, 1⟩, ⟨0, 2⟩, ⟨0, 3⟩] ∧
    pool41.capacity = (([⟨0, 0⟩, ⟨0, 1⟩, ⟨0, 2⟩, ⟨0, 3⟩] : List ChunkAddr).length : Int) ∧
    ∃ c rest r, [⟨0, 0⟩, ⟨0, 1⟩, ⟨0, 2⟩, ⟨0, 3⟩] = c :: rest ∧
      pool41.firstAvailableChunk = some c ∧
      alloc sampleObject pool41 5 true none = some r ∧
      r.chunkToUse = some c ∧
      (∀ obj, sampleObject 5 = some obj → r.object = .ok (.pool c obj)) ∧
      Heap.load pool41.heap c = some r.pool.firstAvailableChunk ∧
      r.pool.capacity = pool41.capacity - 1 ∧
      (r.isActivateReplenish = true ↔ r.pool.capacity = (pool41.minCapacity : Int)) ∧
      r.pool.freeList = some rest ∧
      r.pool.heap = pool41.heap ∧ r.pool.pages = pool41.pages :=
  ⟨by decide, by decide, rfl, rfl,
    alloc_pool_path sampleObject pool41 [⟨0, 0⟩, ⟨0, 1⟩, ⟨0, 2⟩, ⟨0, 3⟩] 5 true none
      (by decide) (by decide) rfl rfl⟩

/-- C5 (exhaustion fallback). For every pool state with `capacity == 0`, `alloc`
returns with the pool exactly as it was (`firstAvailableChunk`, `capacity`, the
pages, the store and the replenish flag), takes no chunk, does not call
`runReplenish` and notifies nobody; when the system allocator hands out memory
and the constructor returns, `object` holds the system-backed handle of that
memory; and whatever handle the call yields, its deleter leaves every pool
untouched (it never calls `dealloc`). -/
theorem alloc_exhausted {α β : Type} (OBJECT : α → Option β)
    (p : ObjectPool) (args : α) (tryLock : Bool) (sys : Option Nat)
    (h0 : p.capacity = 0) :
    ∃ r, alloc OBJECT p args tryLock sys = some r ∧
      r.pool = p ∧ r.chunkToUse = none ∧
      r.isActivateReplenish = false ∧ r.notified = false ∧
      (∀ addr obj, sys = some addr → OBJECT args = some obj →
        r.object = .ok (.std addr obj)) ∧
      (∀ hd, r.object = .ok hd → ∀ q : ObjectPool, Handle.release hd q = some q) := by
  refine ⟨_, alloc_of_capacity_zero OBJECT h0 args tryLock sys, rfl, rfl, rfl, rfl, ?_, ?_⟩
  · intro addr obj hsys hobj
    simp [allocateUsingStdAllocator, hsys, hobj]
  · intro hd hhd q
    have hstd : allocateUsingStdAllocator OBJECT args sys = .ok hd := hhd
    unfold allocateUsingStdAllocator at hstd
    cases sys with
    | none => simp at hstd
    | some addr =>
      cases hobj : OBJECT args with
      | none => simp [hobj] at hstd
      | some obj =>
        simp [hobj] at hstd
        subst hstd
        rfl

/-- Witness of C5: `alloc` on `ObjectPool(2, 0)` drained by two calls. -/
theorem alloc_exhausted_witness :
    drained20.capacity = 0 ∧
    ∃ r, alloc sampleObject drained20 7 true (some 100) = some r ∧
      r.pool = drained20 ∧ r.chunkToUse = none ∧
      r.isActivateReplenish = false ∧ r.notified = false ∧
      (∀ addr obj, some 100 = some addr → sampleObject 7 = some obj →
        r.object = .ok (.std addr obj)) ∧
      (∀ hd, r.object = .ok hd → ∀ q : ObjectPool, Handle.release hd q = some q) :=
  ⟨rfl, alloc_exhausted sampleObject drained20 7 true (some 100) rfl⟩

/-- C6 (dealloc). For every pool state and every chunk `c` of its pages (in
particular an in-use one), `dealloc(c)` sets `c.nextAvailable` to the old
`firstAvailableChunk`, makes `c` the new `firstAvailableChunk`, increases
`capacity` by exactly 1 and changes nothing else: the replenish flag (so
`runReplenish`, which sets it, is not called), the running flag, the pages, the
two constants, the shape of the store and the link of every other chunk are as
before. -/
theorem dealloc_effect (p : ObjectPool) (c : ChunkAddr)
    (hv : Heap.valid p.heap c) (hmax : p.capacity < SSIZE_MAX) :
    ∃ p1, dealloc p c = some p1 ∧
      Heap.load p1.heap c = some p.firstAvailableChunk ∧
      p1.firstAvailableChunk = some c ∧
      p1.capacity = p.capacity + 1 ∧
      p1.isReplenishNeeded = p.isReplenishNeeded ∧ p1.isRunning = p.isRunning ∧
      p1.pages = p.pages ∧ p1.minCapacity = p.minCapacity ∧
      p1.newPageSize = p.newPageSize ∧
      Heap.shape p1.heap = Heap.shape p.heap ∧
      ∀ d : ChunkAddr, d ≠ c → Heap.cell p1.heap d = Heap.cell p.heap d := by
  obtain ⟨h1, hs⟩ := Heap.store_of_valid p.firstAvailableChunk hv
  refine ⟨_, dealloc_of_store hs (by omega), Heap.load_store_self hs, rfl, rfl, rfl, rfl, rfl,
    rfl, rfl, Heap.shape_store hs, ?_⟩
  intro d hd
  exact Heap.cell_store_other hs hd

/-- Witness of C6: release of the live chunk 2 in the state `state41`. -/
theorem dealloc_effect_witness :
    Heap.valid state41.pool.heap ⟨0, 2⟩ ∧ state41.pool.capacity < SSIZE_MAX ∧
    ∃ p1, dealloc state41.pool ⟨0, 2⟩ = some p1 ∧
      Heap.load p1.heap ⟨0, 2⟩ = some state41.pool.firstAvailableChunk ∧
      p1.firstAvailableChunk = some ⟨0, 2⟩ ∧
      p1.capacity = state41.pool.capacity + 1 ∧
      p1.isReplenishNeeded = state41.pool.isReplenishNeeded ∧
      p1.isRunning = state41.pool.isRunning ∧
      p1.pages = state41.pool.pages ∧ p1.minCapacity = state41.pool.minCapacity ∧
      p1.newPageSize = state41.pool.newPageSize ∧
      Heap.shape p1.heap = Heap.shape state41.pool.heap ∧
      ∀ d : ChunkAddr, d ≠ ⟨0, 2⟩ → Heap.cell p1.heap d = Heap.cell state41.pool.heap d :=
  ⟨⟨4, rfl, by decide⟩, by decide,
    dealloc_effect state41.pool ⟨0, 2⟩ ⟨4, rfl, by decide⟩ (by decide)⟩

/-- C7 (construction). For every `max > min >= 0` whose first page fits the
address space and is granted memory, `ObjectPool(max, min)` returns a pool with
exactly one page of `max` chunks (the only array of the store),
`firstAvailableChunk` = chunk 0 of that page, a free list that visits the chunks
`0 .. max-1` of that page in index order and then ends, `capacity = max`,
`minCapacity = min`, `newPageSize = max - min`, `isReplenishNeeded = false` and
`isRunning = true`. -/
theorem construction (maxCapacity minCapacity : Nat)
    (hlt : minCapacity < maxCapacity) (hfit : maxCapacity ≤ maxChunks) :
    ∃ p, ObjectPool.new maxCapacity minCapacity true = .ok p ∧
      p.pages = [⟨0, maxCapacity⟩] ∧ Heap.shape p.heap = [maxCapacity] ∧
      p.firstAvailableChunk = some ⟨0, 0⟩ ∧
      p.freeList = some ((List.range maxCapacity).map (fun i => ChunkAddr.mk 0 i)) ∧
      p.capacity = (maxCapacity : Int) ∧ p.minCapacity = minCapacity ∧
      p.newPageSize = maxCapacity - minCapacity ∧
      p.isReplenishNeeded = false ∧ p.isRunning = true := by
  obtain ⟨p, hnew, hpages, hshape, hfirst, hcap, hminc, hnps, hneed, hrun⟩ :=
    ObjectPool.new_built maxCapacity minCapacity (by omega) hfit
  have hfree := (Inv.start hnew).freeList
  rw [span_eq_map_range] at hfree
  refine ⟨p, hnew, hpages, hshape, hfirst, hfree, hcap, hminc, ?_, hneed, hrun⟩
  rw [hnps]
  unfold subSize SIZE_MOD
  unfold maxChunks at hfit
  omega

/-- Witness of C7: `ObjectPool(4, 1)`. -/
theorem construction_witness :
    1 < 4 ∧ 4 ≤ maxChunks ∧
    ∃ p, ObjectPool.new 4 1 true = .ok p ∧
      p.pages = [⟨0, 4⟩] ∧ Heap.shape p.heap = [4] ∧
      p.firstAvailableChunk = some ⟨0, 0⟩ ∧
      p.freeList = some ((List.range 4).map (fun i => ChunkAddr.mk 0 i)) ∧
      p.capacity = ((4 : Nat) : Int) ∧ p.minCapacity = 1 ∧
      p.newPageSize = 4 - 1 ∧
      p.isReplenishNeeded = false ∧ p.isRunning = true :=
  ⟨by decide, by decide, construction 4 1 (by decide) (by decide)⟩

/-- C8, counterexample: `ObjectPool(2, 2)` and `ObjectPool(1, 3)` (both with
`max_capacity <= min_capacity`) are constructed without any failure, and the
first pool serves an `alloc` from its page. -/
theorem construction_misuse_accepted :
    ObjectPool.new 2 2 true = .ok pool22 ∧ ObjectPool.new 1 3 true = .ok pool13 ∧
    ∃ r, alloc sampleObject pool22 5 true none = some r ∧
      r.object = .ok (.pool ⟨0, 0⟩ 5) ∧ r.pool.capacity = 1 :=
  ⟨rfl, rfl, _, rfl, rfl, rfl⟩

/-- C8, amended. For `max_capacity <= min_capacity` the constructor compares
nothing: with `max_capacity = 0` construction aborts on the assertion
`chunksNumber > 0` of `Page`; with `1 <= max_capacity` (that fits and is granted
memory) it returns a pool with one page of `max_capacity` chunks, all of them on
the free list, `capacity = max_capacity`, `minCapacity = min_capacity` and
`newPageSize = (max_capacity - min_capacity) mod 2^64`, and this pool serves
`alloc` from its page. -/
theorem construction_unchecked {α β : Type} (OBJECT : α → Option β)
    (maxCapacity minCapacity : Nat)
    (hle : maxCapacity ≤ minCapacity) (hmin : minCapacity < SIZE_MOD) :
    (maxCapacity = 0 →
      ∀ g, ObjectPool.new maxCapacity minCapacity g = .error .assertFailed) ∧
    (0 < maxCapacity → maxCapacity ≤ maxChunks →
      ∃ p, ObjectPool.new maxCapacity minCapacity true = .ok p ∧
        p.pages = [⟨0, maxCapacity⟩] ∧
        p.freeList = some ((List.range maxCapacity).map (fun i => ChunkAddr.mk 0 i)) ∧
        p.capacity = (maxCapacity : Int) ∧ p.minCapacity = minCapacity ∧
        p.newPageSize = (SIZE_MOD - (minCapacity - maxCapacity)) % SIZE_MOD ∧
        ∀ (args : α) (obj : β) (tryLock : Bool) (sys : Option Nat),
          OBJECT args = some obj →
          ∃ r, alloc OBJECT p args tryLock sys = some r ∧
            r.object = .ok (.pool ⟨0, 0⟩ obj)) := by
  constructor
  · intro h0 g
    subst h0
    simp [ObjectPool.new, Page.new]
  · intro hpos hfit
    obtain ⟨p, hnew, hpages, -, hfirst, hcap, hminc, hnps, -, -⟩ :=
      ObjectPool.new_built maxCapacity minCapacity (by omega) hfit
    have hinv := Inv.start hnew
    have hfree := hinv.freeList
    rw [span_eq_map_range] at hfree
    refine ⟨p, hnew, hpages, hfree, hcap, hminc, ?_, ?_⟩
    · rw [hnps]
      unfold subSize
      unfold SIZE_MOD at hmin ⊢
      unfold maxChunks at hfit
      omega
    · intro args obj tryLock sys hobj
      have hc0 : p.capacity ≠ 0 := by rw [hcap]; omega
      have hmin1 : p.capacity ≠ SSIZE_MIN := by rw [hcap]; unfold SSIZE_MIN; omega
      obtain ⟨c, rest, next, -, hf, hl, -⟩ := hinv.head hc0
      have hf1 : p.firstAvailableChunk = some c := hf
      have hc : c = ⟨0, 0⟩ := by
        rw [hfirst] at hf1
        exact (Option.some.inj hf1).symm
      subst hc
      refine ⟨_, alloc_of_head OBJECT hc0 hmin1 hf1 hl args tryLock sys, ?_⟩
      simp [hobj]

/-- Witness of the amended C8: `ObjectPool(1, 3)`. -/
theorem construction_unchecked_witness :
    1 ≤ 3 ∧ 3 < SIZE_MOD ∧
    ((1 : Nat) = 0 → ∀ g, ObjectPool.new 1 3 g = .error .assertFailed) ∧
    (0 < 1 → 1 ≤ maxChunks →
      ∃ p, ObjectPool.new 1 3 true = .ok p ∧
        p.pages = [⟨0, 1⟩] ∧
        p.freeList = some ((List.range 1).map (fun i => ChunkAddr.mk 0 i)) ∧
        p.capacity = ((1 : Nat) : Int) ∧ p.minCapacity = 3 ∧
        p.newPageSize = (SIZE_MOD - (3 - 1)) % SIZE_MOD ∧
        ∀ (args : Nat) (obj : Nat) (tryLock : Bool) (sys : Option Nat),
          sampleObject args = some obj →
          ∃ r, alloc sampleObject p args tryLock sys = some r ∧
            r.object = .ok (.pool ⟨0, 0⟩ obj)) :=
  ⟨by decide, by decide, construction_unchecked sampleObject 1 3 (by decide) (by decide)⟩

/-- C9, counterexample: on `ObjectPool(2, 0)` an `alloc` whose constructor throws
lets the exception out with `capacity` at 1 instead of 2 and with chunk 0 gone
from the free list. -/
theorem constructor_failure_leaks :
    pool20.capacity = 2 ∧ pool20.freeList = some [⟨0, 0⟩, ⟨0, 1⟩] ∧
    sampleObject 0 = none ∧
    ∃ r, alloc sampleObject pool20 0 true none = some r ∧
      r.object = .error .fromConstructor ∧ r.chunkToUse = some ⟨0, 0⟩ ∧
      r.pool.capacity = 1 ∧ r.pool.freeList = some [⟨0, 1⟩] :=
  ⟨rfl, rfl, rfl, _, rfl, rfl, rfl, rfl, rfl⟩

/-- C9, amended. For every pool state with `capacity > 0` and a well-formed free
list, if the constructor of the object throws during a pool-path `alloc`, the
exception reaches the caller with the chunk already unlinked and not put back:
the free list is the old one without its head and `capacity` is the pre-call
value minus 1. -/
theorem alloc_constructor_throws {α β : Type} (OBJECT : α → Option β)
    (p : ObjectPool) (free : List ChunkAddr) (args : α)
    (tryLock : Bool) (sys : Option Nat)
    (hcap : 0 < p.capacity)
    (hwf : p.freeList = some free) (hlen : p.capacity = (free.length : Int))
    (hthrow : OBJECT args = none) :
    ∃ c rest r, free = c :: rest ∧
      alloc OBJECT p args tryLock sys = some r ∧
      r.object = .error .fromConstructor ∧ r.chunkToUse = some c ∧
      r.pool.freeList = some rest ∧ c ∉ rest ∧
      r.pool.capacity = p.capacity - 1 := by
  obtain ⟨c, rest, next, hfree, hf, hl, hrest⟩ := freeList_head hcap hwf hlen
  have h0 : p.capacity ≠ 0 := by omega
  have hmin : p.capacity ≠ SSIZE_MIN := by unfold SSIZE_MIN; omega
  refine ⟨c, rest, _, hfree, alloc_of_head OBJECT h0 hmin hf hl args tryLock sys,
    ?_, rfl, hrest _ rfl rfl, ?_, rfl⟩
  · simp [hthrow]
  · have hnd := IsChain.nodup (freeList_eq_some_iff.mp hwf).1
    rw [hfree] at hnd
    exact (List.nodup_cons.mp hnd).1

/-- Witness of the amended C9: `alloc` with a throwing constructor on
`ObjectPool(2, 0)`. -/
theorem alloc_constructor_throws_witness :
    (0 : Int) < pool20.capacity ∧ pool20.freeList = some [⟨0, 0⟩, ⟨0, 1⟩] ∧
    pool20.capacity = (([⟨0, 0⟩, ⟨0, 1⟩] : List ChunkAddr).length : Int) ∧
    sampleObject 0 = none ∧
    ∃ c rest r, [⟨0, 0⟩, ⟨0, 1⟩] = c :: rest ∧
      alloc sampleObject pool20 0 false none = some r ∧
      r.object = .error .fromConstructor ∧ r.chunkToUse = some c ∧
      r.pool.freeList = some rest ∧ c ∉ rest ∧
      r.pool.capacity = pool20.capacity - 1 :=
  ⟨by decide, rfl, rfl, rfl,
    alloc_constructor_throws sampleObject pool20 [⟨0, 0⟩, ⟨0, 1⟩] 0 false none
      (by decide) rfl rfl rfl⟩

/-- C10 (LIFO reuse). For every pool state (with a count that is not negative)
and every chunk `c` of its pages (in particular an in-use one), `dealloc(c)`
immediately followed by `alloc` takes the pool path and hands out exactly `c`
again, in a pool-backed handle of the object built from the constructor
arguments of that `alloc`; `firstAvailableChunk` and `capacity` are then what
they were before the `dealloc`. -/
theorem lifo_reuse {α β : Type} (OBJECT : α → Option β)
    (p : ObjectPool) (c : ChunkAddr) (args : α) (obj : β)
    (tryLock : Bool) (sys : Option Nat)
    (hv : Heap.valid p.heap c) (h0 : 0 ≤ p.capacity) (hmax : p.capacity < SSIZE_MAX)
    (hobj : OBJECT args = some obj) :
    ∃ p1 r, dealloc p c = some p1 ∧
      alloc OBJECT p1 args tryLock sys = some r ∧
      r.chunkToUse = some c ∧ r.object = .ok (.pool c obj) ∧
      r.pool.firstAvailableChunk = p.firstAvailableChunk ∧
      r.pool.capacity = p.capacity := by
  obtain ⟨h1, hs⟩ := Heap.store_of_valid p.firstAvailableChunk hv
  have hd := dealloc_of_store hs (by omega : p.capacity ≠ SSIZE_MAX)
  have hload : Heap.load h1 c = some p.firstAvailableChunk := Heap.load_store_self hs
  refine ⟨_, _, hd, alloc_of_head OBJECT ?_ ?_ rfl hload args tryLock sys, rfl, ?_, rfl, ?_⟩
  · show p.capacity + 1 ≠ 0
    omega
  · show p.capacity + 1 ≠ SSIZE_MIN
    unfold SSIZE_MIN; omega
  · simp [hobj]
  · show p.capacity + 1 - 1 = p.capacity
    omega

/-- Witness of C10: in `state41` the live chunk 2 of page 0 is released and
handed out again. -/
theorem lifo_reuse_witness :
    Heap.valid state41.pool.heap ⟨0, 2⟩ ∧ (0 : Int) ≤ state41.pool.capacity ∧
    state41.pool.capacity < SSIZE_MAX ∧ sampleObject 9 = some 9 ∧
    ∃ p1 r, dealloc state41.pool ⟨0, 2⟩ = some p1 ∧
      alloc sampleObject p1 9 true none = some r ∧
      r.chunkToUse = some ⟨0, 2⟩ ∧ r.object = .ok (.pool ⟨0, 2⟩ 9) ∧
      r.pool.firstAvailableChunk = state41.pool.firstAvailableChunk ∧
      r.pool.capacity = state41.pool.capacity :=
  ⟨⟨4, rfl, by decide⟩, by decide, by decide, rfl,
    lifo_reuse sampleObject state41.pool ⟨0, 2⟩ 9 9 true none ⟨4, rfl, by decide⟩
      (by decide) (by decide) rfl⟩

/-- C11 (drain, grow, refill). For every `max > min >= 0` (whose first page is
granted): in consecutive calls of `alloc` on `ObjectPool(max, min)`, up to
`max` of them, call number `i+1` leaves `capacity = max - (i+1)` and calls
`runReplenish` exactly when `i+1 = max - min` (capacity drops from `min+1` to
`min`), and until then the worker stays parked; and in every run with exactly
one page appended by the worker after which all handles have been released
(none lost to a constructor exception), the total slot count and `capacity`
both equal `2*max - min`. -/
theorem drain_grow_refill {α β : Type} (OBJECT : α → Option β)
    (maxCapacity minCapacity : Nat)
    (hlt : minCapacity < maxCapacity) (hfit : maxCapacity ≤ maxChunks) :
    ∃ p, ObjectPool.new maxCapacity minCapacity true = .ok p ∧
      (∀ g, poolReplenishWorker p g = .parked) ∧
      (∀ calls : List (Call α), calls.length ≤ maxCapacity →
        ∃ rs, allocs OBJECT p calls = some rs ∧ rs.length = calls.length ∧
          ∀ (i : Nat) (r : AllocResult β), rs[i]? = some r →
            r.pool.capacity = (maxCapacity : Int) - (i + 1 : Nat) ∧
            (r.isActivateReplenish = true ↔ i + 1 = maxCapacity - minCapacity) ∧
            (i + 1 < maxCapacity - minCapacity →
              ∀ g, poolReplenishWorker r.pool g = .parked)) ∧
      (∀ (ops : List (Op α)) (s : Session),
        Session.run OBJECT (Session.start p) ops = some s →
        s.grows = 1 → s.live = [] → s.lost = [] →
        s.pool.totalSlots = 2 * maxCapacity - minCapacity ∧
        s.pool.capacity = ((2 * maxCapacity - minCapacity : Nat) : Int)) := by
  obtain ⟨p, hnew, -, -, -, -, hminc, hnps, hneed, hrun⟩ :=
    ObjectPool.new_built maxCapacity minCapacity (by omega) hfit
  obtain ⟨hchain, hcap, hmax⟩ := ObjectPool.new_chain hnew
  have hnps1 : p.newPageSize = maxCapacity - minCapacity := by
    rw [hnps]
    unfold subSize SIZE_MOD
    unfold maxChunks at hfit
    omega
  refine ⟨p, hnew, ?_, ?_, ?_⟩
  · intro g
    simp [poolReplenishWorker, hneed, hrun]
  · intro calls hlen
    obtain ⟨rs, hrs, hl, hall⟩ := allocs_of_span OBJECT 0 calls p 0 maxCapacity hchain hcap hmax
    refine ⟨rs, hrs, hl, ?_⟩
    intro i r hr
    have hi : i < calls.length := by
      rw [← hl]
      exact (List.getElem?_eq_some_iff.mp hr).1
    obtain ⟨⟨-, -, -, -, hrun1⟩, hpool, -⟩ :=
      hall i calls[i] r (List.getElem?_eq_getElem hi) hr
    obtain ⟨-, -, g3, g4, g5⟩ := hpool (by omega)
    refine ⟨g3, ?_, ?_⟩
    · rw [g4, hminc]; omega
    · intro hbefore g
      have hfalse : r.pool.isReplenishNeeded = false := by
        cases hflag : r.pool.isReplenishNeeded with
        | false => rfl
        | true =>
          rcases g5.mp hflag with h | h
          · rw [hneed] at h; cases h
          · rw [hminc] at h; omega
      simp [poolReplenishWorker, hfalse, hrun1, hrun]
  · intro ops s hrun1 hgrows hlive hlost
    obtain ⟨free, hinv⟩ := Inv.reachable OBJECT hnew hrun1
    have hcount := hinv.count
    have htotal := hinv.total
    have hslots := hinv.slots
    have hgrown := hinv.grown
    have hconst : s.pool.newPageSize = maxCapacity - minCapacity := by
      rw [(Session.run_const OBJECT ops hrun1).2.1]
      exact hnps1
    rw [hlive, hlost] at htotal
    simp only [List.length_nil, Nat.add_zero] at htotal
    rw [hgrows, hconst] at hgrown
    constructor
    · rw [hslots, hgrown]; omega
    · rw [hcount, htotal, hgrown]
      congr 1
      omega

/-- Witness of C11: `ObjectPool(4, 1)`; in the scenario of the specification the
third of four calls is the one that calls `runReplenish`, the worker appends one
page of 3 chunks, and after all releases total = capacity = 7. -/
theorem drain_grow_refill_witness :
    1 < 4 ∧ 4 ≤ maxChunks ∧
    (∃ p, ObjectPool.new 4 1 true = .ok p ∧
      (∀ g, poolReplenishWorker p g = .parked) ∧
      (∀ calls : List (Call Nat), calls.length ≤ 4 →
        ∃ rs, allocs sampleObject p calls = some rs ∧ rs.length = calls.length ∧
          ∀ (i : Nat) (r : AllocResult Nat), rs[i]? = some r →
            r.pool.capacity = ((4 : Nat) : Int) - (i + 1 : Nat) ∧
            (r.isActivateReplenish = true ↔ i + 1 = 4 - 1) ∧
            (i + 1 < 4 - 1 → ∀ g, poolReplenishWorker r.pool g = .parked)) ∧
      (∀ (ops : List (Op Nat)) (s : Session),
        Session.run sampleObject (Session.start p) ops = some s →
        s.grows = 1 → s.live = [] → s.lost = [] →
        s.pool.totalSlots = 2 * 4 - 1 ∧
        s.pool.capacity = ((2 * 4 - 1 : Nat) : Int))) ∧
    (allocs sampleObject pool41 calls41).map
        (fun rs => rs.map (fun r => r.isActivateReplenish)) =
      some [false, false, true, false] ∧
    Session.run sampleObject (Session.start pool41) traceDrain41 = some stateDrain41 ∧
    stateDrain41.pool.pages = [⟨1, 3⟩, ⟨0, 4⟩] ∧
    stateDrain41.pool.totalSlots = 7 ∧ stateDrain41.pool.capacity = 7 :=
  ⟨by decide, by decide, drain_grow_refill sampleObject 4 1 (by decide) (by decide),
    rfl, rfl, rfl, rfl, rfl⟩

/-- C12 (overdraw). For every `max > min >= 0` (whose first page is granted) and
every number of consecutive calls of `alloc` on `ObjectPool(max, min)` with no
release and no worker step between them: call number `i+1` with `i < max`
takes chunk `i` of the page (pairwise distinct chunks) and returns a pool-backed
handle of it, every later call takes no chunk and returns a system-backed
handle (when the constructor and the system allocator return), and after every
call `capacity` is `max - min(i+1, max) >= 0`. -/
theorem overdraw {α β : Type} (OBJECT : α → Option β)
    (maxCapacity minCapacity : Nat) (calls : List (Call α))
    (hlt : minCapacity < maxCapacity) (hfit : maxCapacity ≤ maxChunks) :
    ∃ p rs, ObjectPool.new maxCapacity minCapacity true = .ok p ∧
      allocs OBJECT p calls = some rs ∧ rs.length = calls.length ∧
      (∀ (i : Nat) (call : Call α) (r : AllocResult β),
        calls[i]? = some call → rs[i]? = some r →
        0 ≤ r.pool.capacity ∧
        r.pool.capacity = (maxCapacity : Int) - (min (i + 1) maxCapacity : Nat) ∧
        (i < maxCapacity →
          r.chunkToUse = some ⟨0, i⟩ ∧
          ∀ obj, OBJECT call.args = some obj → r.object = .ok (.pool ⟨0, i⟩ obj)) ∧
        (maxCapacity ≤ i →
          r.chunkToUse = none ∧
          ∀ addr obj, call.sys = some addr → OBJECT call.args = some obj →
            r.object = .ok (.std addr obj))) ∧
      (∀ (i j : Nat) (ri rj : AllocResult β) (c : ChunkAddr),
        rs[i]? = some ri → rs[j]? = some rj →
        ri.chunkToUse = some c → rj.chunkToUse = some c → i = j) := by
  obtain ⟨p, hnew, -⟩ := ObjectPool.new_built maxCapacity minCapacity (by omega) hfit
  obtain ⟨hchain, hcap, hmax⟩ := ObjectPool.new_chain hnew
  obtain ⟨rs, hrs, hl, hall⟩ := allocs_of_span OBJECT 0 calls p 0 maxCapacity hchain hcap hmax
  have hchunk : ∀ (i : Nat) (r : AllocResult β) (c : ChunkAddr),
      rs[i]? = some r → r.chunkToUse = some c → c = ⟨0, i⟩ := by
    intro i r c hr hc
    have hi : i < calls.length := by
      rw [← hl]
      exact (List.getElem?_eq_some_iff.mp hr).1
    obtain ⟨-, hpool, hsys⟩ := hall i calls[i] r (List.getElem?_eq_getElem hi) hr
    by_cases him : i < maxCapacity
    · have := (hpool him).1
      rw [hc] at this
      simpa using this
    · have := (hsys (by omega)).1
      rw [hc] at this
      cases this
  refine ⟨p, rs, hnew, hrs, hl, ?_, ?_⟩
  · intro i call r hc hr
    obtain ⟨-, hpool, hsys⟩ := hall i call r hc hr
    by_cases him : i < maxCapacity
    · obtain ⟨g1, g2, g3, -⟩ := hpool him
      have hmin : min (i + 1) maxCapacity = i + 1 := Nat.min_eq_left (by omega)
      refine ⟨by rw [g3]; omega, by rw [g3, hmin], fun _ => ⟨?_, ?_⟩, by intro h; omega⟩
      · simpa using g1
      · intro obj hobj
        rw [g2, hobj]
        simp
    · obtain ⟨g1, g2, g3, -⟩ := hsys (by omega)
      have hmin : min (i + 1) maxCapacity = maxCapacity := Nat.min_eq_right (by omega)
      refine ⟨by rw [g3], by rw [g3, hmin]; omega, by intro h; omega, fun _ => ⟨g1, ?_⟩⟩
      intro addr obj hsys1 hobj
      rw [g2]
      simp [allocateUsingStdAllocator, hsys1, hobj]
  · intro i j ri rj c hi hj hci hcj
    have h1 := hchunk i ri c hi hci
    have h2 := hchunk j rj c hj hcj
    rw [h1] at h2
    simpa using h2

/-- Witness of C12: three calls on `ObjectPool(2, 1)`; the first two take the
chunks 0 and 1, the third is served by the system allocator. -/
theorem overdraw_witness :
    1 < 2 ∧ 2 ≤ maxChunks ∧
    (∃ p rs, ObjectPool.new 2 1 true = .ok p ∧
      allocs sampleObject p calls21 = some rs ∧ rs.length = calls21.length ∧
      (∀ (i : Nat) (call : Call Nat) (r : AllocResult Nat),
        calls21[i]? = some call → rs[i]? = some r →
        0 ≤ r.pool.capacity ∧
        r.pool.capacity = ((2 : Nat) : Int) - (min (i + 1) 2 : Nat) ∧
        (i < 2 →
          r.chunkToUse = some ⟨0, i⟩ ∧
          ∀ obj, sampleObject call.args = some obj → r.object = .ok (.pool ⟨0, i⟩ obj)) ∧
        (2 ≤ i →
          r.chunkToUse = none ∧
          ∀ addr obj, call.sys = some addr → sampleObject call.args = some obj →
            r.object = .ok (.std addr obj))) ∧
      (∀ (i j : Nat) (ri rj : AllocResult Nat) (c : ChunkAddr),
        rs[i]? = some ri → rs[j]? = some rj →
        ri.chunkToUse = some c → rj.chunkToUse = some c → i = j)) ∧
    ObjectPool.new 2 1 true = .ok pool21 ∧
    (allocs sampleObject pool21 calls21).map
        (fun rs => rs.map (fun r => (r.object, r.pool.capacity))) =
      some [(.ok (.pool ⟨0, 0⟩ 5), 1), (.ok (.pool ⟨0, 1⟩ 6), 0), (.ok (.std 100 7), 0)] :=
  ⟨by decide, by decide, overdraw sampleObject 2 1 calls21 (by decide) (by decide), rfl, rfl⟩

/-- C14 (worker grow step). For every pool state with `isRunning` true, a positive
`newPageSize` and a well-formed free list, one iteration of the worker loop
that observes `isReplenishNeeded` (and is granted the memory of the page)
clears `isReplenishNeeded`, appends exactly one new page of `newPageSize`
chunks, increases `capacity` by exactly `newPageSize`, and splices the page in
front of the free list: the new `firstAvailableChunk` is chunk 0 of the new
page, the chain visits the new page's chunks in index order, the last new
chunk's `nextAvailable` is the old `firstAvailableChunk`, and the old chunks keep
their links, so the old free list follows unchanged. With `isRunning` false the
iteration returns without a page and leaves the store, `capacity` and the free
list unchanged. -/
theorem worker_grow_step (p : ObjectPool) (free : List ChunkAddr)
    (hrun : p.isRunning = true) (hneed : p.isReplenishNeeded = true)
    (hn : p.newPageSize ≠ 0)
    (hfit : Heap.chunkCount p.heap + p.newPageSize ≤ maxChunks)
    (hwf : p.freeList = some free) (hlen : p.capacity = (free.length : Int)) :
    (∃ p1, poolReplenishWorker p true = .grew p1 ∧
      p1.isReplenishNeeded = false ∧
      p1.pages = ⟨p.heap.length, p.newPageSize⟩ :: p.pages ∧
      Heap.shape p1.heap = Heap.shape p.heap ++ [p.newPageSize] ∧
      p1.capacity = p.capacity + (p.newPageSize : Int) ∧
      p1.firstAvailableChunk = some ⟨p.heap.length, 0⟩ ∧
      (∀ i, i + 1 < p.newPageSize →
        Heap.load p1.heap ⟨p.heap.length, i⟩ = some (some ⟨p.heap.length, i + 1⟩)) ∧
      Heap.load p1.heap ⟨p.heap.length, p.newPageSize - 1⟩ = some p.firstAvailableChunk ∧
      (∀ a : ChunkAddr, a.page < p.heap.length → Heap.cell p1.heap a = Heap.cell p.heap a) ∧
      p1.freeList =
        some ((List.range p.newPageSize).map (fun i => ChunkAddr.mk p.heap.length i) ++ free) ∧
      p1.minCapacity = p.minCapacity ∧ p1.newPageSize = p.newPageSize ∧
      p1.isRunning = true) ∧
    (∀ (q : ObjectPool) (g : Bool), q.isRunning = false →
      ∃ q1, poolReplenishWorker q g = .exited q1 ∧
        q1.pages = q.pages ∧ q1.heap = q.heap ∧ q1.capacity = q.capacity ∧
        q1.firstAvailableChunk = q.firstAvailableChunk ∧ q1.freeList = q.freeList) := by
  constructor
  · obtain ⟨hchain, hle⟩ := freeList_eq_some_iff.mp hwf
    obtain ⟨h3, hpage, hshape, hlink, -, hframe⟩ := Page.new_granted p.heap none hn hfit
    have hvalid : Heap.valid h3 ⟨p.heap.length, p.newPageSize - 1⟩ :=
      Heap.valid_new_of_shape_append hshape (by omega)
    obtain ⟨h4, hs⟩ := Heap.store_of_valid p.firstAvailableChunk hvalid
    have hshape4 : Heap.shape h4 = Heap.shape p.heap ++ [p.newPageSize] :=
      (Heap.shape_store hs).trans hshape
    have hold : ∀ a : ChunkAddr, a.page < p.heap.length →
        Heap.cell h4 a = Heap.cell p.heap a := by
      intro a ha
      have hne : a ≠ ⟨p.heap.length, p.newPageSize - 1⟩ := by
        intro hae
        subst hae
        simp at ha
      rw [Heap.cell_store_other hs hne, hframe a ha]
    have hlink4 : ∀ i, i + 1 < p.newPageSize →
        Heap.load h4 ⟨p.heap.length, i⟩ = some (some ⟨p.heap.length, i + 1⟩) := by
      intro i hi
      have hne : (⟨p.heap.length, i⟩ : ChunkAddr) ≠
          ⟨p.heap.length, p.newPageSize - 1⟩ := by
        intro hae
        simp at hae
        omega
      rw [Heap.load_store_other hs hne]
      exact hlink i hi
    have hchain4 : IsChain h4 (some ⟨p.heap.length, 0⟩)
        (span p.heap.length 0 p.newPageSize ++ free) := by
      refine IsChain.span_append hlink4 (Heap.load_store_self hs) ?_
        p.newPageSize 0 (by simp) (Nat.pos_of_ne_zero hn)
      refine IsChain.congr hchain ?_
      intro a ha
      obtain ⟨v, hv⟩ := hchain.load_of_mem a ha
      simp [Heap.load, hold a (Heap.page_lt_of_load hv)]
    have hcc : Heap.chunkCount h4 = Heap.chunkCount p.heap + p.newPageSize := by
      unfold Heap.chunkCount
      rw [hshape4]
      simp
    refine ⟨_, poolReplenishWorker_of_page hneed hrun hpage hs, rfl, rfl, hshape4, ?_, rfl,
      hlink4, Heap.load_store_self hs, hold, ?_, rfl, rfl, hrun⟩
    · show toSsize (toSize p.capacity + p.newPageSize) = _
      have hbd : Heap.chunkCount p.heap + p.newPageSize ≤ 2 ^ 60 := hfit
      rw [hlen, toSize_natCast (by omega), toSsize_of_lt (by omega)]
      push_cast
      rfl
    · rw [← span_eq_map_range]
      apply freeList_eq_some_iff.mpr
      refine ⟨hchain4, ?_⟩
      show (span p.heap.length 0 p.newPageSize ++ free).length ≤ Heap.chunkCount h4
      rw [List.length_append, length_span, hcc]
      omega
  · intro q g hq
    refine ⟨{ q with isReplenishNeeded := false }, ?_, rfl, rfl, rfl, rfl, rfl⟩
    simp [poolReplenishWorker, hq]

/-- Witness of C14: the worker iteration on `ObjectPool(4, 1)` after three calls
of `alloc`. -/
theorem worker_grow_step_witness :
    triggered41.isRunning = true ∧ triggered41.isReplenishNeeded = true ∧
    triggered41.newPageSize ≠ 0 ∧
    Heap.chunkCount triggered41.heap + triggered41.newPageSize ≤ maxChunks ∧
    triggered41.freeList = some [⟨0, 3⟩] ∧
    triggered41.capacity = (([⟨0, 3⟩] : List ChunkAddr).length : Int) ∧
    (∃ p1, poolReplenishWorker triggered41 true = .grew p1 ∧
      p1.isReplenishNeeded = false ∧
      p1.pages = ⟨triggered41.heap.length, triggered41.newPageSize⟩ :: triggered41.pages ∧
      Heap.shape p1.heap = Heap.shape triggered41.heap ++ [triggered41.newPageSize] ∧
      p1.capacity = triggered41.capacity + (triggered41.newPageSize : Int) ∧
      p1.firstAvailableChunk = some ⟨triggered41.heap.length, 0⟩ ∧
      (∀ i, i + 1 < triggered41.newPageSize →
        Heap.load p1.heap ⟨triggered41.heap.length, i⟩ =
          some (some ⟨triggered41.heap.length, i + 1⟩)) ∧
      Heap.load p1.heap ⟨triggered41.heap.length, triggered41.newPageSize - 1⟩ =
        some triggered41.firstAvailableChunk ∧
      (∀ a : ChunkAddr, a.page < triggered41.heap.length →
        Heap.cell p1.heap a = Heap.cell triggered41.heap a) ∧
      p1.freeList =
        some ((List.range triggered41.newPageSize).map
          (fun i => ChunkAddr.mk triggered41.heap.length i) ++ [⟨0, 3⟩]) ∧
      p1.minCapacity = triggered41.minCapacity ∧
      p1.newPageSize = triggered41.newPageSize ∧
      p1.isRunning = true) ∧
    (∀ (q : ObjectPool) (g : Bool), q.isRunning = false →
      ∃ q1, poolReplenishWorker q g = .exited q1 ∧
        q1.pages = q.pages ∧ q1.heap = q.heap ∧ q1.capacity = q.capacity ∧
        q1.firstAvailableChunk = q.firstAvailableChunk ∧ q1.freeList = q.freeList) :=
  ⟨rfl, rfl, by decide, by decide, rfl, rfl,
    worker_grow_step triggered41 [⟨0, 3⟩] rfl rfl (by decide) (by decide) rfl rfl⟩

/-- C16, counterexample: on `ObjectPool(4, 1)` after three calls of `alloc`
(`capacity = 1 > 0`), the fourth call takes the pool path and leaves
`capacity = 0`, which is below `minCapacity = 1`, without calling
`runReplenish`. -/
theorem alloc_below_low_water_is_silent :
    Session.run sampleObject (Session.start pool41)
        [.alloc 5 true none, .alloc 6 true none, .alloc 7 true none] =
      some ⟨triggered41, [⟨0, 2⟩, ⟨0, 1⟩, ⟨0, 0⟩], [], 0⟩ ∧
    (0 : Int) < triggered41.capacity ∧
    ∃ r, alloc sampleObject triggered41 8 true none = some r ∧
      r.object = .ok (.pool ⟨0, 3⟩ 8) ∧ r.pool.capacity = 0 ∧
      r.pool.capacity ≤ (triggered41.minCapacity : Int) ∧
      r.isActivateReplenish = false ∧ r.notified = false :=
  ⟨rfl, by decide, _, rfl, rfl, rfl, by decide, rfl, rfl⟩

/-- C16, amended. For every pool state with `capacity > 0` and a well-formed free
list, a pool-path `alloc` calls `runReplenish` exactly when it leaves `capacity`
equal to `minCapacity`; an `alloc` that leaves `capacity` below `minCapacity`
does not call it: it notifies nobody and leaves `isReplenishNeeded` as it was. -/
theorem alloc_trigger_exact {α β : Type} (OBJECT : α → Option β)
    (p : ObjectPool) (free : List ChunkAddr) (args : α) (tryLock : Bool) (sys : Option Nat)
    (hcap : 0 < p.capacity) (hmax : p.capacity ≤ SSIZE_MAX)
    (hwf : p.freeList = some free) (hlen : p.capacity = (free.length : Int)) :
    ∃ r, alloc OBJECT p args tryLock sys = some r ∧
      r.pool.capacity = p.capacity - 1 ∧
      (r.isActivateReplenish = true ↔ r.pool.capacity = (p.minCapacity : Int)) ∧
      (r.pool.capacity < (p.minCapacity : Int) →
        r.isActivateReplenish = false ∧ r.notified = false ∧
        r.pool.isReplenishNeeded = p.isReplenishNeeded) := by
  obtain ⟨c, rest, next, -, hf, hl, -⟩ := freeList_head hcap hwf hlen
  have h0 : p.capacity ≠ 0 := by omega
  have hmin : p.capacity ≠ SSIZE_MIN := by unfold SSIZE_MIN; omega
  have hiff : toSize (p.capacity - 1) = p.minCapacity ↔ p.capacity - 1 = (p.minCapacity : Int) :=
    toSize_eq_iff (by omega) (by omega)
  refine ⟨_, alloc_of_head OBJECT h0 hmin hf hl args tryLock sys, rfl, ?_, ?_⟩
  · simp only [decide_eq_true_eq]
    exact hiff
  · intro hbelow
    have hne : ¬ toSize (p.capacity - 1) = p.minCapacity := by
      rw [hiff]
      have : p.capacity - 1 < (p.minCapacity : Int) := hbelow
      omega
    simp [hne]

/-- Witness of the amended C16: the fourth `alloc` on `ObjectPool(4, 1)`. -/
theorem alloc_trigger_exact_witness :
    (0 : Int) < triggered41.capacity ∧ triggered41.capacity ≤ SSIZE_MAX ∧
    triggered41.freeList = some [⟨0, 3⟩] ∧
    triggered41.capacity = (([⟨0, 3⟩] : List ChunkAddr).length : Int) ∧
    ∃ r, alloc sampleObject triggered41 8 true none = some r ∧
      r.pool.capacity = triggered41.capacity - 1 ∧
      (r.isActivateReplenish = true ↔ r.pool.capacity = (triggered41.minCapacity : Int)) ∧
      (r.pool.capacity < (triggered41.minCapacity : Int) →
        r.isActivateReplenish = false ∧ r.notified = false ∧
        r.pool.isReplenishNeeded = triggered41.isReplenishNeeded) :=
  ⟨by decide, by decide, rfl, rfl,
    alloc_trigger_exact sampleObject triggered41 [⟨0, 3⟩] 8 true none
      (by decide) (by decide) rfl rfl⟩

/-- C17, counterexample: constructing `ObjectPool(0, 0)` does not succeed; the
assertion of `Page` fails. -/
theorem zero_capacity_not_constructed :
    ObjectPool.new 0 0 true = .error .assertFailed ∧
    ¬ ∃ p, ObjectPool.new 0 0 true = .ok p :=
  ⟨rfl, by rintro ⟨p, hp⟩; cases hp⟩

/-- C17, amended. For `max_capacity == 0` and every `min_capacity`, constructing
the pool ends in the failed assertion `chunksNumber > 0` of `Page`, before any
chunk storage is requested and whatever memory is available: no pool exists, so
no `alloc` follows. -/
theorem zero_capacity_asserts (minCapacity : Nat) (granted : Bool) :
    Page.new [] 0 none granted = .error .assertFailed ∧
    ObjectPool.new 0 minCapacity granted = .error .assertFailed ∧
    ¬ ∃ p, ObjectPool.new 0 minCapacity granted = .ok p := by
  have h : ObjectPool.new 0 minCapacity granted = .error .assertFailed := by
    simp [ObjectPool.new, Page.new]
  refine ⟨by simp [Page.new], h, ?_⟩
  rintro ⟨p, hp⟩
  rw [h] at hp
  cases hp

/-- C18 (page prelinking). For every `n >= 1` (that fits and is granted memory)
and every tail pointer `t`, `Page(n, t)` creates one new array of `n` chunks with
`chunks[i].nextAvailable = &chunks[i+1]` for every `i < n-1` and
`chunks[n-1].nextAvailable = t`, and touches no older chunk; so following
`nextAvailable` from `chunks[0]` one is at `chunks[i]` after `i < n` steps (all
`n` chunks, once each, in index order) and at `t` after `n` steps. -/
theorem page_prelinking (h : Heap) (n : Nat) (t : ChunkPtr)
    (hn : 1 ≤ n) (hfit : Heap.chunkCount h + n ≤ maxChunks) :
    ∃ h1, Page.new h n t true = .ok (⟨h.length, n⟩, h1) ∧
      Heap.shape h1 = Heap.shape h ++ [n] ∧
      (∀ i, i + 1 < n → Heap.load h1 ⟨h.length, i⟩ = some (some ⟨h.length, i + 1⟩)) ∧
      Heap.load h1 ⟨h.length, n - 1⟩ = some t ∧
      (∀ b : ChunkAddr, b.page < h.length → Heap.cell h1 b = Heap.cell h b) ∧
      (∀ i, i < n →
        Heap.follow h1 i (some ⟨h.length, 0⟩) = some (some ⟨h.length, i⟩)) ∧
      Heap.follow h1 n (some ⟨h.length, 0⟩) = some t := by
  obtain ⟨h1, hpage, hshape, hlink, hlast, hframe⟩ := Page.new_granted h t (by omega) hfit
  refine ⟨h1, hpage, hshape, hlink, hlast, hframe, ?_, ?_⟩
  · intro i hi
    have := Heap.follow_span hlink i 0 (by omega)
    simpa using this
  · exact Heap.follow_span_end hlink hlast n 0 (by omega) (by omega)

/-- Witness of C18: a page of 3 chunks with tail pointer `&chunks[3]` of array 0,
built in the store of `ObjectPool(4, 1)`. -/
theorem page_prelinking_witness :
    1 ≤ 3 ∧ Heap.chunkCount pool41.heap + 3 ≤ maxChunks ∧
    ∃ h1, Page.new pool41.heap 3 (some ⟨0, 3⟩) true = .ok (⟨pool41.heap.length, 3⟩, h1) ∧
      Heap.shape h1 = Heap.shape pool41.heap ++ [3] ∧
      (∀ i, i + 1 < 3 →
        Heap.load h1 ⟨pool41.heap.length, i⟩ = some (some ⟨pool41.heap.length, i + 1⟩)) ∧
      Heap.load h1 ⟨pool41.heap.length, 3 - 1⟩ = some (some ⟨0, 3⟩) ∧
      (∀ b : ChunkAddr, b.page < pool41.heap.length →
        Heap.cell h1 b = Heap.cell pool41.heap b) ∧
      (∀ i, i < 3 →
        Heap.follow h1 i (some ⟨pool41.heap.length, 0⟩) =
          some (some ⟨pool41.heap.length, i⟩)) ∧
      Heap.follow h1 3 (some ⟨pool41.heap.length, 0⟩) = some (some ⟨0, 3⟩) :=
  ⟨by decide, by decide, page_prelinking pool41.heap 3 (some ⟨0, 3⟩) (by decide) (by decide)⟩

/-- C19, counterexample: on `ObjectPool(4, 1)` after three calls of `alloc`, a
worker iteration that is refused the memory of its page ends with
`std::bad_alloc` leaving the thread function, which ends the process. -/
theorem worker_bad_alloc_is_fatal :
    poolReplenishWorker triggered41 false =
      .failed .badAlloc { triggered41 with isReplenishNeeded := false } ∧
    (poolReplenishWorker triggered41 false).fatal = true :=
  ⟨rfl, rfl⟩

/-- C19, amended. If obtaining memory for the new page fails inside a worker
iteration (of a running pool whose replenish flag is set and whose
`newPageSize` is positive), `std::bad_alloc` leaves the thread function, which
has no handler, so the process is terminated; at that point `capacity`,
`firstAvailableChunk`, the pages and the store are as before the iteration and
`isReplenishNeeded` has been cleared. -/
theorem worker_allocation_failure (p : ObjectPool) (granted : Bool)
    (hrun : p.isRunning = true) (hneed : p.isReplenishNeeded = true)
    (hn : p.newPageSize ≠ 0)
    (hfail : newChunkArray p.heap p.newPageSize granted = none) :
    poolReplenishWorker p granted = .failed .badAlloc { p with isReplenishNeeded := false } ∧
    (poolReplenishWorker p granted).fatal = true := by
  have hw : poolReplenishWorker p granted =
      .failed .badAlloc { p with isReplenishNeeded := false } := by
    simp [poolReplenishWorker, hneed, hrun, Page.new, hn, hfail]
  exact ⟨hw, by rw [hw]; rfl⟩

/-- Witness of the amended C19: the refused page on `ObjectPool(4, 1)` after
three calls of `alloc`. -/
theorem worker_allocation_failure_witness :
    triggered41.isRunning = true ∧ triggered41.isReplenishNeeded = true ∧
    triggered41.newPageSize ≠ 0 ∧
    newChunkArray triggered41.heap triggered41.newPageSize false = none ∧
    poolReplenishWorker triggered41 false =
      .failed .badAlloc { triggered41 with isReplenishNeeded := false } ∧
    (poolReplenishWorker triggered41 false).fatal = true :=
  ⟨rfl, rfl, by decide, rfl,
    worker_allocation_failure triggered41 false rfl rfl (by decide) rfl⟩

/-- C20 (alloc/dealloc round trip). For every pool state with `capacity > 0` and a
well-formed free list, a pool-path `alloc` immediately followed by `dealloc` of
the chunk it took restores `firstAvailableChunk`, `capacity` and the store (the
`nextAvailable` link of every chunk, the returned one included) to what they
were before the `alloc`; the resulting pool is the one before the `alloc` except
possibly for `isReplenishNeeded`. -/
theorem alloc_dealloc_round_trip {α β : Type} (OBJECT : α → Option β)
    (p : ObjectPool) (free : List ChunkAddr) (args : α) (tryLock : Bool) (sys : Option Nat)
    (hcap : 0 < p.capacity) (hmax : p.capacity ≤ SSIZE_MAX)
    (hwf : p.freeList = some free) (hlen : p.capacity = (free.length : Int)) :
    ∃ c r p2, alloc OBJECT p args tryLock sys = some r ∧ r.chunkToUse = some c ∧
      dealloc r.pool c = some p2 ∧
      p2.firstAvailableChunk = p.firstAvailableChunk ∧ p2.capacity = p.capacity ∧
      p2.heap = p.heap ∧ (∀ a : ChunkAddr, Heap.load p2.heap a = Heap.load p.heap a) ∧
      p2.freeList = some free ∧
      p2 = { p with isReplenishNeeded := r.pool.isReplenishNeeded } := by
  obtain ⟨c, rest, next, -, hf, hl, -⟩ := freeList_head hcap hwf hlen
  have h0 : p.capacity ≠ 0 := by omega
  have hmin : p.capacity ≠ SSIZE_MIN := by unfold SSIZE_MIN; omega
  have hal := alloc_of_head OBJECT h0 hmin hf hl args tryLock sys
  have hs : Heap.store p.heap c next = some p.heap := Heap.store_load_self hl
  have hd := dealloc_of_store
    (p := { p with
            capacity := p.capacity - 1
            firstAvailableChunk := next
            isReplenishNeeded :=
              p.isReplenishNeeded || decide (toSize (p.capacity - 1) = p.minCapacity) })
    (c := c) hs (by show p.capacity - 1 ≠ SSIZE_MAX; omega)
  have hfinal : ({ p with
        capacity := p.capacity - 1 + 1
        firstAvailableChunk := some c
        isReplenishNeeded :=
          p.isReplenishNeeded || decide (toSize (p.capacity - 1) = p.minCapacity) }
        : ObjectPool) =
      { p with isReplenishNeeded :=
          p.isReplenishNeeded || decide (toSize (p.capacity - 1) = p.minCapacity) } := by
    have e1 : p.capacity - 1 + 1 = p.capacity := by omega
    rw [e1, ← hf]
  refine ⟨c, _, _, hal, rfl, hd, hf.symm, ?_, rfl, fun _ => rfl, ?_, hfinal⟩
  · show p.capacity - 1 + 1 = p.capacity
    omega
  · show walk p.heap (Heap.chunkCount p.heap) (some c) = some free
    rw [← hf]
    exact hwf

/-- Witness of C20: `alloc` then `dealloc` on `ObjectPool(4, 1)` after three calls
of `alloc`; the replenish flag was already set. -/
theorem alloc_dealloc_round_trip_witness :
    (0 : Int) < triggered41.capacity ∧ triggered41.capacity ≤ SSIZE_MAX ∧
    triggered41.freeList = some [⟨0, 3⟩] ∧
    triggered41.capacity = (([⟨0, 3⟩] : List ChunkAddr).length : Int) ∧
    ∃ c r p2, alloc sampleObject triggered41 8 true none = some r ∧ r.chunkToUse = some c ∧
      dealloc r.pool c = some p2 ∧
      p2.firstAvailableChunk = triggered41.firstAvailableChunk ∧
      p2.capacity = triggered41.capacity ∧
      p2.heap = triggered41.heap ∧
      (∀ a : ChunkAddr, Heap.load p2.heap a = Heap.load triggered41.heap a) ∧
      p2.freeList = some [⟨0, 3⟩] ∧
      p2 = { triggered41 with isReplenishNeeded := r.pool.isReplenishNeeded } :=
  ⟨by decide, by decide, rfl, rfl,
    alloc_dealloc_round_trip sampleObject triggered41 [⟨0, 3⟩] 8 true none
      (by decide) (by decide) rfl rfl⟩

/-- C15, the code at the failing input: the destructor of `ObjectPool(4, 1)` runs
`delete[]` on the chunks of its page first and joins the worker last, so the
page is deallocated before the worker has been joined; the same holds for every
pool with a page. -/
theorem destructor_deletes_before_join :
    ObjectPool.destructor pool41 =
      [.deleteChunks 0, .clearRunning, .notifyOne, .joinWorker] ∧
    deletesAfterJoin (ObjectPool.destructor pool41) = false ∧
    deletesAfterJoin [.clearRunning, .notifyOne, .joinWorker, .deleteChunks 0] = true ∧
    ∀ (p : ObjectPool) (page : Page) (rest : List Page), p.pages = page :: rest →
      deletesAfterJoin (ObjectPool.destructor p) = false := by
  refine ⟨rfl, rfl, rfl, ?_⟩
  intro p page rest hp
  simp [ObjectPool.destructor, hp, deletesAfterJoin]

end LowLatencyPool
